import Mathlib

/-!
LittleCtl: the rotating console logger (`ConsoleLogger.h`).

A shallow embedding of `ConsoleLogger` over an explicit model of the storage
collaborator.  Byte strings (file names, file contents, the console backlog)
are lists of characters.  The log directory `/log` is a list of
`(name, committed content)` entries in iteration order; a path handed to the
file system is always `"/log/" ++ name`.

What the platform decides (free space, the clock, whether an `open` succeeds,
how many bytes a `write` takes) is the per-call record `Env`.  What
`File::name()` reports for a file opened at a path is the parameter `nameOf`
of the operations that use it.
-/

namespace ConsoleLogger

abbrev Str := List Char

def INT_MAX : Int := 2147483647

def INT_MIN : Int := -2147483648

def KEEP_SPACE : Nat := 1024 * 128

def SINGLE_FILE_SIZE : Nat := 1024 * 32

/-- Two's-complement wrap of an `int` result to 32 bits. -/
def wrapInt (x : Int) : Int := (x + 2147483648) % 4294967296 - 2147483648

/-! ## Arduino `String` helpers -/

def digitChar (d : Nat) : Char := Char.ofNat (48 + d)

/-- Decimal digits of `n`, most significant first (`fuel` bounds the recursion). -/
def natDigits : Nat → Nat → Str
  | 0, _ => []
  | fuel + 1, n =>
    if n < 10 then [digitChar n] else natDigits fuel (n / 10) ++ [digitChar (n % 10)]

def natString (n : Nat) : Str := natDigits (n + 1) n

/-- The Arduino constructor `String(int)`: decimal, `-` for negatives, no padding. -/
def intString (i : Int) : Str :=
  if i < 0 then '-' :: natString i.natAbs else natString i.natAbs

def isSpace (c : Char) : Bool := c.toNat = 32 || (9 ≤ c.toNat && c.toNat ≤ 13)

def isDigit (c : Char) : Bool := 48 ≤ c.toNat && c.toNat ≤ 57

/-- The digit loop of `strtol`: stops at the first character that is not a digit. -/
def readDigits : Nat → Str → Nat
  | acc, [] => acc
  | acc, c :: cs => if isDigit c then readDigits (acc * 10 + (c.toNat - 48)) cs else acc

def clampLong (x : Int) : Int :=
  if x > INT_MAX then INT_MAX else if x < INT_MIN then INT_MIN else x

/-- The Arduino `String::toInt()`, i.e. `atol`: leading white space is skipped, an
optional sign and the leading digits are read, and a string with no leading
number yields `0`.  Out-of-range values saturate. -/
def toInt (s : Str) : Int :=
  match s.dropWhile isSpace with
  | [] => 0
  | c :: r =>
    if c = '-' then clampLong (-(readDigits 0 r : Int))
    else if c = '+' then clampLong (readDigits 0 r)
    else clampLong (readDigits 0 (c :: r))

/-! ## The clock and the timestamp marker -/

/-- The fields of `struct tm` that `_printTime` prints. -/
structure Tm where
  tm_year : Nat
  tm_mon : Nat
  tm_mday : Nat
  tm_hour : Nat
  tm_min : Nat
  tm_sec : Nat

/-- The conversion `%02d`. -/
def pad2 (n : Nat) : Str := if n < 10 then '0' :: natString n else natString n

/-- The text `_printTime` sends to the open file. -/
def timeStamp (t : Tm) : Str :=
  "\n\n<LogTimeStamp> ".toList ++ natString (t.tm_year + 1900) ++ ['-'] ++ pad2 (t.tm_mon + 1)
    ++ ['-'] ++ pad2 t.tm_mday ++ [' '] ++ pad2 t.tm_hour ++ [':'] ++ pad2 t.tm_min
    ++ [':'] ++ pad2 t.tm_sec ++ "\n\n".toList

/-! ## The storage collaborator -/

/-- The directory `/log`: `(name, committed content)` in iteration order. -/
abbrev FileSys := List (Str × Str)

def logDir : Str := "/log/".toList

def fsExists (fs : FileSys) (name : Str) : Bool := fs.any (fun e => e.1 = name)

def fsRead (fs : FileSys) (name : Str) : Option Str :=
  (fs.find? (fun e => e.1 = name)).map (fun e => e.2)

/-- Create an empty file, truncating an existing one (mode `w+`). -/
def fsCreate (fs : FileSys) (name : Str) : FileSys :=
  if fsExists fs name then fs.map (fun e => if e.1 = name then (e.1, []) else e)
  else fs ++ [(name, [])]

/-- Make sure the file exists, keeping its content (mode `a+`). -/
def fsTouch (fs : FileSys) (name : Str) : FileSys :=
  if fsExists fs name then fs else fs ++ [(name, [])]

/-- Commit bytes at the end of a file; a file that is gone takes nothing. -/
def fsAppend (fs : FileSys) (name : Str) (bytes : Str) : FileSys :=
  fs.map (fun e => if e.1 = name then (e.1, e.2 ++ bytes) else e)

def fsRemove (fs : FileSys) (name : Str) : FileSys := fs.filter (fun e => e.1 ≠ name)

inductive Mode where
  | wPlus
  | aPlus
  deriving DecidableEq

/-- What the platform decides during one call. -/
structure Env where
  /-- The difference `totalBytes - usedBytes` of `_fs.info`. -/
  freeSpace : Nat
  /-- The result of `localtime_r(time(NULL))`. -/
  now : Tm
  /-- Whether `_fs.open` of a name in `/log` with a mode yields a valid file. -/
  canOpen : Str → Mode → Bool
  /-- The result of `File::write` when asked for that many bytes. -/
  written : Nat → Nat

/-- An open `fs::File`: its name inside `/log` and the bytes written through it
that are not yet committed to flash. -/
structure File where
  name : Str
  pending : Str
  deriving DecidableEq

def File.fullName (f : File) : Str := logDir ++ f.name

/-- The lines printed on `_logger`. -/
inductive Msg where
  | openFile (name : Str)
  | failedOpen (name : Str)
  | createFile (name : Str)
  | failedCreate (name : Str)
  | cannotDelete
  | deleting (path : Str) (ok : Bool)
  | closedFile (path : Str) (size : Nat)
  | ewc
  | writeFailed (wr len : Nat)
  deriving DecidableEq

/-- The logger object together with the world it acts on. -/
structure State where
  logFile : Option File
  oldestFile : Int
  newestFile : Int
  dirty : Bool
  fs : FileSys
  /-- Bytes waiting in the console stream `_con`. -/
  con : Str
  out : List Msg
  /-- The period of `_renewTicker`, when attached. -/
  ticker : Option Nat

/-- A freshly constructed logger over a given directory and console backlog. -/
def State.fresh (fs : FileSys) (con : Str) : State :=
  { logFile := none, oldestFile := INT_MAX, newestFile := INT_MIN, dirty := false,
    fs := fs, con := con, out := [], ticker := none }

def getMin (s : State) : Int := s.oldestFile

def getMax (s : State) : Int := s.newestFile

/-- The call `_fs.open(path, mode)`. -/
def fsOpen (env : Env) (fs : FileSys) (name : Str) (mode : Mode) : Option File × FileSys :=
  if env.canOpen name mode then
    match mode with
    | Mode.wPlus => (some { name := name, pending := [] }, fsCreate fs name)
    | Mode.aPlus => (some { name := name, pending := [] }, fsTouch fs name)
  else (none, fs)

/-- The call `File::size()`: committed plus buffered bytes, `0` for a null file. -/
def fileSize (fs : FileSys) : Option File → Nat
  | none => 0
  | some f => ((fsRead fs f.name).getD []).length + f.pending.length

/-- Committing a handle (what `flush`, `close` and dropping the handle do). -/
def commit (fs : FileSys) : Option File → FileSys
  | none => fs
  | some f => fsAppend fs f.name f.pending

def flushed : Option File → Option File
  | none => none
  | some f => some { f with pending := [] }

/-- A write through the handle; a null file takes nothing. -/
def fileWrite (bytes : Str) : Option File → Option File
  | none => none
  | some f => some { f with pending := f.pending ++ bytes }

/-- What reaches a file when `bytes` are handed to `File::write`: the bytes the
platform takes. -/
def accepted (env : Env) (bytes : Str) : Str :=
  bytes.take (min (env.written bytes.length) bytes.length)

/-- What one `_printTime` adds to the open file: `printf` formats the marker and
hands it to `File::write`. -/
def marker (env : Env) : Str := accepted env (timeStamp env.now)

/-- The method `_printTime`. -/
def printTime (env : Env) (s : State) : State :=
  { s with logFile := fileWrite (marker env) s.logFile }

/-- The call `_logFile.flush()`. -/
def flushFile (s : State) : State :=
  { s with fs := commit s.fs s.logFile, logFile := flushed s.logFile }

/-- The call `_logFile.close()`. -/
def closeFile (s : State) : State :=
  { s with fs := commit s.fs s.logFile, logFile := none }

/-- The assignment `_logFile = f`: the handle that is dropped is closed. -/
def assignFile (f : Option File) (s : State) : State :=
  { s with fs := commit s.fs s.logFile, logFile := f }

def say (m : Msg) (s : State) : State := { s with out := s.out ++ [m] }

/-- One iteration of the loop of `_refreshLogFiles`. -/
def refreshStep (acc : Int × Int) (filename : Str) : Int × Int :=
  let fileNum := toInt filename
  let oldest := if fileNum < acc.1 then fileNum else acc.1
  let newest := if fileNum > acc.2 then fileNum else acc.2
  (oldest, newest)

/-- The method `_refreshLogFiles`: the scan starts from the current members. -/
def refreshLogFiles (s : State) : State :=
  let r := (s.fs.map (fun e => e.1)).foldl refreshStep (s.oldestFile, s.newestFile)
  { s with oldestFile := r.1, newestFile := r.2 }

/-! ## The operations of `ConsoleLogger` -/

/-- The test `_logFile && String(_logFile.name()) == fileToDelete` of `newLogFile`;
`nameOf` is what `File::name()` reports for a file opened at a path. -/
def isCurrent (nameOf : Str → Str) (s : State) (path : Str) : Bool :=
  match s.logFile with
  | none => false
  | some f => nameOf f.fullName = path

/-- The space-reclamation block of `newLogFile`.  The first component is `none`
when the block ends in the early `return`, and `needRefresh` otherwise. -/
def reclaim (nameOf : Str → Str) (env : Env) (s : State) : Option Bool × State :=
  if env.freeSpace < KEEP_SPACE then
    let fileToDelete := logDir ++ intString s.oldestFile
    if isCurrent nameOf s fileToDelete then (none, say Msg.cannotDelete s)
    else
      let ok := fsExists s.fs (intString s.oldestFile)
      (some true, say (Msg.deleting fileToDelete ok)
        { s with fs := fsRemove s.fs (intString s.oldestFile) })
  else (some false, s)

/-- The size block of `newLogFile`: rotation to segment `newestFile + 1`, the
failed rotation, or the idle flush.  The first component says whether
`needRefresh` was set. -/
def rotate (env : Env) (s : State) : Bool × State :=
  if fileSize s.fs s.logFile > SINGLE_FILE_SIZE then
    let filename := intString (wrapInt (s.newestFile + 1))
    match fsOpen env s.fs filename Mode.wPlus with
    | (some f, fs1) =>
      let s1 := printTime env { s with fs := fs1 }
      let s2 := say (Msg.closedFile ((s1.logFile.map File.fullName).getD [])
        (fileSize s1.fs s1.logFile)) s1
      let s3 := closeFile s2
      let s4 := assignFile (some f) s3
      let s5 := printTime env s4
      let s6 := closeFile s5
      let r := fsOpen env s6.fs filename Mode.aPlus
      let s7 := assignFile r.1 { s6 with fs := r.2 }
      (true, say (Msg.openFile filename) { s7 with dirty := false })
    | (none, fs1) =>
      let s1 := printTime env { s with fs := fs1 }
      (false, say (Msg.failedCreate filename) (flushFile s1))
  else if s.dirty then
    (false, { flushFile (printTime env s) with dirty := false })
  else (false, s)

/-- The method `newLogFile` (the rotation check). -/
def newLogFile (nameOf : Str → Str) (env : Env) (s : State) : State :=
  match reclaim nameOf env s with
  | (none, s1) => s1
  | (some needRefresh, s1) =>
    let r := rotate env s1
    if needRefresh || r.1 then refreshLogFiles r.2 else r.2

/-- The head of `begin`: the scan, and index `0` when nothing was found. -/
def beginScan (s : State) : State :=
  let s0 := refreshLogFiles s
  if s0.newestFile = INT_MIN then { s0 with newestFile := 0 } else s0

/-- The create branch of `begin` once `open(filename, "w+")` has given `f`: the
marker is written, the file closed and opened again for append, the directory
scanned. -/
def beginCreate (env : Env) (f : File) (fs1 : FileSys) (s1 : State) : State :=
  let name := intString s1.newestFile
  let s2 := assignFile (some f) { s1 with fs := fs1 }
  let s3 := closeFile (printTime env s2)
  let r := fsOpen env s3.fs name Mode.aPlus
  let s4 := assignFile r.1 { s3 with fs := r.2 }
  say (Msg.createFile (logDir ++ name)) (refreshLogFiles s4)

/-- The method `begin`; the callback of the ticker is `newLogFile`, run by the caller. -/
def begin (nameOf : Str → Str) (env : Env) (autoRenewInterval : Nat) (s : State) :
    Bool × State :=
  let s1 := beginScan s
  let name := intString s1.newestFile
  let filename := logDir ++ name
  if fsExists s1.fs name then
    match fsOpen env s1.fs name Mode.aPlus with
    | (some f, fs1) =>
      let s2 := say (Msg.openFile filename) (assignFile (some f) { s1 with fs := fs1 })
      (true, { newLogFile nameOf env s2 with ticker := some (autoRenewInterval % 65536) })
    | (none, _) => (false, say (Msg.failedOpen filename) s1)
  else
    match fsOpen env s1.fs name Mode.wPlus with
    | (some f, fs1) =>
      (true, { newLogFile nameOf env (beginCreate env f fs1 s1) with
        ticker := some (autoRenewInterval % 65536) })
    | (none, _) => (false, say (Msg.failedCreate filename) s1)

/-- The method `end`. -/
def logEnd (s : State) : State := { closeFile s with ticker := none }

/-- The number of bytes `readBytes(buf, x > size ? size : x)` delivers when `x`
bytes are available.  A negative `size` reaches `readBytes` as a huge unsigned
length, so that everything available is read. -/
def readLen (x : Nat) (size : Int) : Nat :=
  if (x : Int) > size then (if size < 0 then x else size.toNat) else x

/-- The method `doLog`. -/
def doLog (env : Env) (size : Int) (s : State) : Int × State :=
  match s.logFile with
  | none => (0, say Msg.ewc s)
  | some f =>
    let x := s.con.length
    if x > 0 then
      let len := readLen x size
      let wr := min (env.written len) len
      let s1 := { s with
        con := s.con.drop len
        logFile := some { f with pending := f.pending ++ (s.con.take len).take wr }
        dirty := true }
      (len, if wr ≠ len then say (Msg.writeFailed wr len) s1 else s1)
    else (0, s)

/-! ## Platforms and sample inputs -/

/-- The `File::name()` of the ESP8266 core on LittleFS: the part after the last
`/` (the whole path when nothing follows that `/`). -/
def shortName : Str → Str
  | [] => []
  | c :: cs =>
    if cs.contains '/' then shortName cs
    else if c = '/' ∧ cs ≠ [] then cs else c :: cs

/-- A `File::name()` that reports the path the file was opened with. -/
def fullPathName (p : Str) : Str := p

def noon : Tm := { tm_year := 124, tm_mon := 0, tm_mday := 5, tm_hour := 12, tm_min := 0, tm_sec := 9 }

/-- A platform on which every `open` succeeds and every `write` is complete. -/
def okEnv (free : Nat) : Env :=
  { freeSpace := free, now := noon, canOpen := fun _ _ => true, written := fun n => n }

/-! ## Call sequences and state predicates -/

/-- A call of one of the public operations, with what the platform decides in it. -/
inductive Op where
  | begin (env : Env) (autoRenewInterval : Nat)
  | newLogFile (env : Env)
  | doLog (env : Env) (size : Int)

def step (nameOf : Str → Str) (s : State) : Op → State
  | Op.begin env n => (begin nameOf env n s).2
  | Op.newLogFile env => newLogFile nameOf env s
  | Op.doLog env size => (doLog env size s).2

def run (nameOf : Str → Str) (ops : List Op) (s : State) : State :=
  ops.foldl (step nameOf) s

/-- The states the engine can be in: a fresh logger over some directory, then
any calls of the public operations. -/
inductive Reachable (nameOf : Str → Str) : State → Prop where
  | fresh (fs : FileSys) (con : Str) : Reachable nameOf (State.fresh fs con)
  | step (s : State) (op : Op) : Reachable nameOf s → Reachable nameOf (step nameOf s op)

/-- No directory entry has an index above `newestFile`. -/
def Synced (s : State) : Prop := ∀ e ∈ s.fs, toInt e.1 ≤ s.newestFile

def InRange (s : State) : Prop := INT_MIN ≤ s.newestFile ∧ s.newestFile ≤ INT_MAX

/-- The open segment is the one named after `newestFile`. -/
def OpenIsNewest (s : State) : Prop := ∀ f, s.logFile = some f → f.name = intString s.newestFile

/-- Everything stored under a name or still buffered for it by the open handle. -/
def contentOf (s : State) (name : Str) : Str :=
  (fsRead s.fs name).getD [] ++
    (match s.logFile with
     | some f => if f.name = name then f.pending else []
     | none => [])

/-- The open handle has nothing left to commit. -/
def isFlushed (s : State) : Bool :=
  match s.logFile with
  | some f => f.pending.isEmpty
  | none => true

/-! ## Sample states -/

/-- Segment `0` is the only segment and it is the open one. -/
def lonely : State :=
  { logFile := some { name := ['0'], pending := [] }, oldestFile := 0, newestFile := 0,
    dirty := false, fs := [(['0'], "boot ok\n".toList)], con := [], out := [],
    ticker := some 600 }

/-- Segments `0` to `3` exist and segment `3` is open (Scenario C). -/
def fourSegments : State :=
  { logFile := some { name := ['3'], pending := [] }, oldestFile := 0, newestFile := 3,
    dirty := false,
    fs := [(['0'], ['a']), (['1'], ['b']), (['2'], ['c']), (['3'], ['d'])],
    con := [], out := [], ticker := some 600 }

/-- Whether `strtol` finds a number at the start of a name: after white space
and an optional sign comes a digit. -/
def hasLeadingNumber (s : Str) : Bool :=
  match s.dropWhile isSpace with
  | [] => false
  | c :: r =>
    if c = '-' ∨ c = '+' then
      (match r with
       | [] => false
       | d :: _ => isDigit d)
    else isDigit c

/-- A console backlog of 33000 bytes, more than `SINGLE_FILE_SIZE`. -/
def bigText : Str := List.replicate 33000 'x'

/-- A fresh logger on an empty directory with `bigText` waiting on the console. -/
def freshBig : State := State.fresh [] bigText

/-- Segment `0` just created by `begin` (free space is plentiful), `bigText`
still waiting on the console. -/
def begun : State := step shortName freshBig (Op.begin (okEnv 200000) 600)

/-- Segment `0` open and holding `bigText` after one `doLog`. -/
def fullSegment : State := step shortName begun (Op.doLog (okEnv 200000) 33000)

/-- A platform with plenty of free space on which no file can be created. -/
def noCreateEnv : Env :=
  { freeSpace := 200000, now := noon, canOpen := fun _ m => decide (m = Mode.aPlus),
    written := fun n => n }

/-- Segment `0` is the only segment, it is open, and five bytes are buffered. -/
def smallDirty : State :=
  { logFile := some { name := ['0'], pending := "hello".toList }, oldestFile := 0,
    newestFile := 0, dirty := true, fs := [(['0'], "boot ok\n".toList)], con := [], out := [],
    ticker := some 600 }

/-- A platform on which a file can be created but not opened for append. -/
def noReopenEnv : Env :=
  { freeSpace := 200000, now := noon, canOpen := fun _ m => decide (m = Mode.wPlus),
    written := fun n => n }

/-- Space pressure on a platform on which no file can be created. -/
def tightNoCreateEnv : Env :=
  { freeSpace := 1000, now := noon, canOpen := fun _ m => decide (m = Mode.aPlus),
    written := fun n => n }

/-- Segment `0` is open and clean; five bytes are waiting on the console. -/
def chatty : State :=
  { logFile := some { name := ['0'], pending := [] }, oldestFile := 0, newestFile := 0,
    dirty := false, fs := [(['0'], "boot ok\n".toList)], con := "hello".toList, out := [],
    ticker := some 600 }

/-- A platform whose `File::write` takes nothing (the flash is full). -/
def fullDiskEnv : Env :=
  { freeSpace := 200000, now := noon, canOpen := fun _ _ => true, written := fun _ => 0 }

/-- A platform whose `File::write` falls two bytes short. -/
def shortWriteEnv : Env :=
  { freeSpace := 200000, now := noon, canOpen := fun _ _ => true, written := fun n => n - 2 }

/-- The states reachable from a successful `begin` on a freshly constructed logger
through `doLog` and `newLogFile` calls. -/
inductive Running (nameOf : Str → Str) : State → Prop where
  | start (fs : FileSys) (con : Str) (env : Env) (n : Nat) :
      (begin nameOf env n (State.fresh fs con)).1 = true →
      Running nameOf (begin nameOf env n (State.fresh fs con)).2
  | doLog (s : State) (env : Env) (size : Int) :
      Running nameOf s → Running nameOf (doLog env size s).2
  | check (s : State) (env : Env) :
      Running nameOf s → Running nameOf (newLogFile nameOf env s)

/-- A directory whose only entry is named after `INT_MAX`. -/
def maxDir : FileSys := [("2147483647".toList, [])]

/-- The logger after `begin` on `maxDir`, with `bigText` waiting on the console. -/
def begunMax : State :=
  step shortName (State.fresh maxDir bigText) (Op.begin (okEnv 200000) 600)

/-- The same logger after one `doLog` has moved `bigText` into the open segment. -/
def fullMax : State := step shortName begunMax (Op.doLog (okEnv 200000) 33000)

/-- The same logger after the rotation check that follows. -/
def rotatedMax : State := step shortName fullMax (Op.newLogFile (okEnv 200000))

end ConsoleLogger

/-!
The serial/network bridge (`SerialProxy.h`).

The slot array `_serverClients` is a list of `Client` records; the operations run
over a list of any length, the configured length being `MAX_SRV_CLIENTS`.  What
the peers, the listening server and the serial line do between two calls is a
list of `Event`s; what the bridge does to the outside (callback invocations,
bytes written, busy replies, log lines) is recorded in the state.  What a
`write` to a peer returns is decided by the platform: the field `short` of the
connection says by how much it stays below the length asked for.
-/

namespace SerialProxy

abbrev Bytes := List Char

def MAX_SRV_CLIENTS : Nat := 1

/-- A `WiFiClient` as the bridge sees it. -/
structure Client where
  /-- Which connection the object stands for. -/
  id : Nat
  /-- The value of `operator bool`. -/
  connected : Bool
  /-- Bytes received from the peer and not read yet; `available()` is their number. -/
  inbox : Bytes
  /-- The value of `availableForWrite()` when the survey loop asks. -/
  afw : Nat
  /-- The value of `availableForWrite()` when the send loop asks. -/
  afwSend : Nat
  /-- Bytes the peer has taken, oldest first. -/
  sent : Bytes
  /-- By how many bytes the result of `write` stays below the length it is asked
  for when the send loop writes to this connection; `0` for a complete write. -/
  short : Nat := 0
  deriving DecidableEq

/-- A default-constructed `WiFiClient`. -/
def Client.idle : Client :=
  { id := 0, connected := false, inbox := [], afw := 0, afwSend := 0, sent := [] }

/-- The lines printed on `_logger`. -/
inductive Msg where
  | newClient (index : Nat)
  | lenMismatch (len : Int) (serialRead tcpWrite : Nat)
  deriving DecidableEq

/-- The bridge object together with the world it acts on. -/
structure State where
  /-- The array `_serverClients`. -/
  clients : List Client
  /-- Whether `_connectStatusCallback` holds a function. -/
  hasCallback : Bool
  lastStatus : Bool
  /-- Whether `_server` is listening. -/
  listening : Bool
  /-- Connections the server holds and has not handed out; `hasClient()` says
  whether there is one. -/
  pending : List Client
  /-- Bytes waiting on the serial line; `_serial.available()` is their number. -/
  rx : Bytes
  /-- The value of `_serial.availableForWrite()`. -/
  txCap : Nat
  /-- Bytes written to the serial line, oldest first. -/
  tx : Bytes
  /-- The arguments of the callback invocations, oldest first. -/
  calls : List Bool
  /-- The connections that were told `busy` and dropped. -/
  busy : List Nat
  out : List Msg

/-- A freshly constructed bridge with `n` slots, on a serial line. -/
def State.fresh (n : Nat) (rx : Bytes) (txCap : Nat) : State :=
  { clients := List.replicate n Client.idle, hasCallback := false, lastStatus := false,
    listening := false, pending := [], rx := rx, txCap := txCap, tx := [], calls := [],
    busy := [], out := [] }

/-- The method `begin`. -/
def begin (callback : Bool) (s : State) : State :=
  { s with hasCallback := callback, listening := true, lastStatus := false }

/-- The method `end`. -/
def stop (s : State) : State := { s with listening := false, pending := [] }

/-- The method `setConnectedCallback`. -/
def setConnectedCallback (callback : Bool) (s : State) : State :=
  { s with hasCallback := callback }

/-- The guarded call `if (_connectStatusCallback) _connectStatusCallback(b)`. -/
def notify (b : Bool) (s : State) : State :=
  if s.hasCallback then { s with calls := s.calls ++ [b] } else s

/-- Whether some slot holds a live connection. -/
def anyLive (cs : List Client) : Bool := cs.any (fun c => c.connected)

/-- The liveness sweep at the head of `proxy`. -/
def sweep (s : State) : State :=
  if s.lastStatus then
    if anyLive s.clients then s else notify false { s with lastStatus := false }
  else s

/-- The search loop of the accept block: the first slot that is not live takes
the connection; the result is its index and the new array, or `none` when the
loop runs to the end. -/
def place (c : Client) : List Client → Option (Nat × List Client)
  | [] => none
  | x :: xs =>
    if x.connected then (place c xs).map (fun r => (r.1 + 1, x :: r.2))
    else some (0, c :: xs)

/-- The accept block of `proxy`. -/
def accept (s : State) : State :=
  match s.pending with
  | [] => s
  | c :: rest =>
    match place c s.clients with
    | some r =>
      let s1 := { s with clients := r.2, pending := rest, out := s.out ++ [Msg.newClient r.1] }
      if s1.lastStatus = false then notify true { s1 with lastStatus := true } else s1
    | none => { s with pending := rest, busy := s.busy ++ [c.id] }

/-- The sweep-and-accept phase of `proxy`. -/
def acceptPhase (s : State) : State := accept (sweep s)

/-- The loop `while (client.available() && serial.availableForWrite() > 0)
serial.write(client.read())` on the unread bytes, the serial capacity and the
bytes written so far; each written byte takes one unit of capacity. -/
def drain : Bytes → Nat → Bytes → Bytes × Nat × Bytes
  | [], w, tx => ([], w, tx)
  | b :: bs, 0, tx => (b :: bs, 0, tx)
  | b :: bs, w + 1, tx => drain bs w (tx ++ [b])

/-- The peer-to-serial loop over the slots. -/
def drainAll : List Client → Nat → Bytes → List Client × Nat × Bytes
  | [], w, tx => ([], w, tx)
  | c :: cs, w, tx =>
    let r := drain c.inbox w tx
    let rest := drainAll cs r.2.1 r.2.2
    ({ c with inbox := r.1 } :: rest.1, rest.2.1, rest.2.2)

def peerToSerial (s : State) : State :=
  let r := drainAll s.clients s.txCap s.tx
  { s with clients := r.1, txCap := r.2.1, tx := r.2.2 }

/-- One iteration of the survey loop that computes `maxToTcp`. -/
def surveyStep (maxToTcp : Nat) (c : Client) : Nat :=
  if c.connected then
    if c.afw ≠ 0 then (if maxToTcp = 0 then c.afw else min maxToTcp c.afw) else maxToTcp
  else maxToTcp

def maxToTcp (cs : List Client) : Nat := cs.foldl surveyStep 0

/-- The value `tcp_sent` that `write(sbuf, serial_got)` returns for a slot. -/
def tcpSent (got : Nat) (c : Client) : Nat := got - c.short

/-- One iteration of the send loop: a slot with room for the whole chunk is
handed all of it in one `write`, and the peer takes what that `write` reports. -/
def sendTo (got : Nat) (buf : Bytes) (c : Client) : Client :=
  if c.afwSend ≥ got then
    { c with sent := c.sent ++ buf.take (tcpSent got c), afwSend := c.afwSend - tcpSent got c }
  else c

/-- The mismatch lines of the send loop (`tcp_sent != len`). -/
def sendLog (len : Int) (got : Nat) (cs : List Client) : List Msg :=
  cs.filterMap (fun c =>
    if c.afwSend ≥ got ∧ (tcpSent got c : Int) ≠ len then
      some (Msg.lenMismatch len got (tcpSent got c))
    else none)

/-- The serial-to-peers block of `proxy`.  A negative `len` reaches `readBytes` as
a huge unsigned length, so that everything available is read. -/
def serialToPeers (size : Int) (s : State) : Int × State :=
  let len : Int := min (min (s.rx.length : Int) (maxToTcp s.clients : Int)) size
  if len ≠ 0 then
    let got : Nat := if len < 0 then s.rx.length else len.toNat
    let buf := s.rx.take got
    ((got : Int), { s with
      rx := s.rx.drop got
      clients := s.clients.map (sendTo got buf)
      out := s.out ++ sendLog len got s.clients })
  else (0, s)

/-- The method `proxy`. -/
def proxy (size : Int) (s : State) : Int × State :=
  serialToPeers size (peerToSerial (acceptPhase s))

/-- Apply `f` to slot `i`. -/
def updateSlot (f : Client → Client) : Nat → List Client → List Client
  | _, [] => []
  | 0, c :: cs => f c :: cs
  | i + 1, c :: cs => c :: updateSlot f i cs

/-- A call of a public operation, or something the outside world does between
two calls. -/
inductive Event where
  | begin (callback : Bool)
  | stop
  | setCallback (callback : Bool)
  | proxy (size : Int)
  /-- A connection reaches the listening server. -/
  | incoming (c : Client)
  /-- The connection in a slot goes away. -/
  | disconnect (slot : Nat)
  | peerData (slot : Nat) (bytes : Bytes)
  | capacity (slot : Nat) (afw afwSend : Nat)
  | serialData (bytes : Bytes)
  | serialCapacity (w : Nat)

def step (s : State) : Event → State
  | Event.begin cb => begin cb s
  | Event.stop => stop s
  | Event.setCallback cb => setConnectedCallback cb s
  | Event.proxy size => (proxy size s).2
  | Event.incoming c => if s.listening then { s with pending := s.pending ++ [c] } else s
  | Event.disconnect i =>
    { s with clients := updateSlot (fun c => { c with connected := false }) i s.clients }
  | Event.peerData i bytes =>
    { s with clients := updateSlot (fun c => { c with inbox := c.inbox ++ bytes }) i s.clients }
  | Event.capacity i a b =>
    { s with clients := updateSlot (fun c => { c with afw := a, afwSend := b }) i s.clients }
  | Event.serialData bytes => { s with rx := s.rx ++ bytes }
  | Event.serialCapacity w => { s with txCap := w }

def run (evs : List Event) (s : State) : State := evs.foldl step s

/-- Events other than the lifecycle calls: `proxy` calls and the outside world. -/
def Event.isTraffic : Event → Bool
  | Event.begin _ => false
  | Event.stop => false
  | Event.setCallback _ => false
  | _ => true

/-- Events after which `lastStatus` can still be trusted: no further `begin`, and
every connection that arrives is live. -/
def Event.keepsStatus : Event → Bool
  | Event.begin _ => false
  | Event.incoming c => c.connected
  | _ => true

/-- The arguments alternate, the first one being `b`. -/
def alternatesFrom : Bool → List Bool → Bool
  | _, [] => true
  | b, x :: xs => x == b && alternatesFrom (!b) xs

/-! ### Sample pools -/

/-- The slot array has the length the source configures. -/
def Configured (s : State) : Prop := s.clients.length = MAX_SRV_CLIENTS

/-- The one slot holds a live peer with plenty of room and three bytes from it
unread; the serial line has taken `>` and has room for two more bytes, and five
bytes wait on it. -/
def readyPeer : State :=
  { clients := [⟨1, true, "AT\r".toList, 100, 100, [], 0⟩],
    hasCallback := true, lastStatus := true, listening := true, pending := [],
    rx := "hello".toList, txCap := 2, tx := ['>'], calls := [true], busy := [], out := [] }

/-- The one slot holds a live peer with plenty of room whose next `write` comes
back two bytes short, and five bytes wait on the serial line. -/
def shortWriter : State :=
  { clients := [⟨1, true, [], 100, 100, [], 2⟩],
    hasCallback := true, lastStatus := true, listening := true, pending := [],
    rx := "hello".toList, txCap := 16, tx := [], calls := [true], busy := [], out := [] }

/-- A bridge with one slot and no peer, and five bytes waiting on the serial line. -/
def noPeer : State :=
  { State.fresh 1 "hello".toList 16 with listening := true, hasCallback := true }

/-- One slot, held by the live connection 7, and connection 9 waiting at the server. -/
def fullPool : State :=
  { clients := [{ id := 7, connected := true, inbox := [], afw := 10, afwSend := 10, sent := [] }],
    hasCallback := true, lastStatus := true, listening := true,
    pending := [{ id := 9, connected := true, inbox := [], afw := 10, afwSend := 10, sent := [] }],
    rx := [], txCap := 16, tx := [], calls := [true], busy := [], out := [] }

/-- A live connection with the given identity and nothing in flight. -/
def peer (id : Nat) : Client :=
  { id := id, connected := true, inbox := [], afw := 10, afwSend := 10, sent := [] }

/-- Two peers connect, the first one leaves, then the second one (P6). -/
def twoPeersComeAndGo : List Event :=
  [Event.incoming (peer 1), Event.proxy 64, Event.incoming (peer 2), Event.proxy 64,
    Event.disconnect 0, Event.proxy 64, Event.disconnect 1, Event.proxy 64, Event.proxy 64]

/-- A peer connects, and `begin` is called again while it is connected. -/
def beginTwice : List Event :=
  [Event.incoming (peer 1), Event.proxy 64, Event.begin true]

/-- What keeps `lastStatus` in step with the pool between two calls: a bridge
that is not flagged connected has no live slot, and the connections waiting at
the server are live. -/
def FlagInv (s : State) : Prop :=
  (s.lastStatus = false → anyLive s.clients = false) ∧ (∀ c ∈ s.pending, c.connected = true)

/-- The last element of a list, or `d` for the empty list. -/
def lastOr : Bool → List Bool → Bool
  | d, [] => d
  | _, x :: xs => lastOr x xs

/-- The state of a bridge whose callback is registered and whose trace, after
the invocations `base` made before `begin`, alternates from `true` and ends in
the value of `lastStatus`. -/
def Debounced (base : List Bool) (s : State) : Prop :=
  s.hasCallback = true ∧
  (s.lastStatus = false → anyLive s.clients = false) ∧
  ∃ l, s.calls = base ++ l ∧ alternatesFrom true l = true ∧ s.lastStatus = lastOr false l

end SerialProxy

namespace ConsoleLogger

/-! ## Lemmas -/

theorem digitChar_isDigit (d : Nat) (h : d < 10) : isDigit (digitChar d) = true := by
  interval_cases d <;> decide

theorem digitChar_val (d : Nat) (h : d < 10) : (digitChar d).toNat - 48 = d := by
  interval_cases d <;> decide

theorem readDigits_snoc (c : Char) :
    ∀ (l : Str) (acc : Nat), (∀ x ∈ l, isDigit x = true) →
      readDigits acc (l ++ [c]) =
        if isDigit c then readDigits acc l * 10 + (c.toNat - 48) else readDigits acc l := by
  intro l
  induction l with
  | nil => intro acc _; simp [readDigits]
  | cons x xs ih =>
    intro acc h
    have hx : isDigit x = true := h x (List.mem_cons_self _ _)
    have hxs : ∀ y ∈ xs, isDigit y = true := fun y hy => h y (List.mem_cons_of_mem _ hy)
    simp only [List.cons_append, readDigits, hx, if_true]
    exact ih _ hxs

theorem natDigits_isDigit : ∀ (fuel n : Nat), ∀ x ∈ natDigits fuel n, isDigit x = true := by
  intro fuel
  induction fuel with
  | zero => intro n x hx; simp [natDigits] at hx
  | succ k ih =>
    intro n x hx
    unfold natDigits at hx
    split at hx
    · rename_i h
      simp at hx; subst hx; exact digitChar_isDigit n h
    · simp only [List.mem_append, List.mem_singleton] at hx
      rcases hx with hx | hx
      · exact ih _ x hx
      · subst hx; exact digitChar_isDigit _ (Nat.mod_lt _ (by decide))

theorem readDigits_natDigits : ∀ (fuel n : Nat), n < fuel → readDigits 0 (natDigits fuel n) = n := by
  intro fuel
  induction fuel with
  | zero => intro n h; omega
  | succ k ih =>
    intro n h
    unfold natDigits
    split
    · rename_i h10
      simp [readDigits, digitChar_isDigit n h10, digitChar_val n h10]
    · rename_i h10
      rw [readDigits_snoc _ _ _ (natDigits_isDigit k (n / 10)),
        digitChar_isDigit _ (Nat.mod_lt _ (by decide)), if_pos rfl,
        digitChar_val _ (Nat.mod_lt _ (by decide)), ih (n / 10) (by omega)]
      omega

theorem natString_ne_nil (n : Nat) : natString n ≠ [] := by
  unfold natString natDigits
  split <;> simp

theorem readDigits_natString (n : Nat) : readDigits 0 (natString n) = n :=
  readDigits_natDigits (n + 1) n (Nat.lt_succ_self n)

theorem isDigit_not_space (c : Char) (h : isDigit c = true) :
    isSpace c = false ∧ c ≠ '-' ∧ c ≠ '+' := by
  simp only [isDigit, Bool.and_eq_true, decide_eq_true_eq] at h
  refine ⟨?_, ?_, ?_⟩
  · simp only [isSpace, Bool.or_eq_false_iff, Bool.and_eq_false_iff, decide_eq_false_iff_not]
    omega
  · rintro rfl; revert h; decide
  · rintro rfl; revert h; decide

theorem clampLong_of_range (x : Int) (h1 : INT_MIN ≤ x) (h2 : x ≤ INT_MAX) : clampLong x = x := by
  unfold clampLong
  rw [if_neg (by omega), if_neg (by omega)]

/-- Reading back what `String(int)` printed gives the number. -/
theorem toInt_intString (i : Int) (h1 : INT_MIN ≤ i) (h2 : i ≤ INT_MAX) :
    toInt (intString i) = i := by
  unfold intString
  split
  · rename_i hneg
    have : isSpace '-' = false := by decide
    simp only [toInt, List.dropWhile_cons, this, Bool.false_eq_true, if_false, if_true,
      readDigits_natString]
    rw [clampLong_of_range _ (by omega) (by omega)]
    omega
  · rename_i hneg
    have hne := natString_ne_nil i.natAbs
    have hd := natDigits_isDigit (i.natAbs + 1) i.natAbs
    have hr := readDigits_natString i.natAbs
    unfold natString at hne hr
    unfold natString
    cases hl : natDigits (Int.natAbs i + 1) (Int.natAbs i) with
    | nil => exact absurd hl hne
    | cons c r =>
      rw [hl] at hd hr
      obtain ⟨hs, hm, hp⟩ := isDigit_not_space c (hd c (List.mem_cons_self _ _))
      simp only [toInt, List.dropWhile_cons, hs, Bool.false_eq_true, if_false, hm, hp, hr]
      rw [clampLong_of_range _ (by omega) (by omega)]
      omega

theorem intString_injective (a b : Int) (ha1 : INT_MIN ≤ a) (ha2 : a ≤ INT_MAX)
    (hb1 : INT_MIN ≤ b) (hb2 : b ≤ INT_MAX) (h : intString a = intString b) : a = b := by
  rw [← toInt_intString a ha1 ha2, ← toInt_intString b hb1 hb2, h]

/-! ### The directory scan -/

theorem refreshStep_snd (acc : Int × Int) (x : Str) :
    (refreshStep acc x).2 = max acc.2 (toInt x) := by
  simp only [refreshStep]
  split <;> omega

theorem refreshStep_fst (acc : Int × Int) (x : Str) :
    (refreshStep acc x).1 = min acc.1 (toInt x) := by
  simp only [refreshStep]
  split <;> omega

theorem scan_snd_ge (l : List Str) : ∀ acc : Int × Int, acc.2 ≤ (l.foldl refreshStep acc).2 := by
  induction l with
  | nil => intro acc; simp
  | cons x xs ih =>
    intro acc
    have h := ih (refreshStep acc x)
    rw [refreshStep_snd] at h
    simp only [List.foldl_cons]
    omega

theorem scan_fst_le (l : List Str) : ∀ acc : Int × Int, (l.foldl refreshStep acc).1 ≤ acc.1 := by
  induction l with
  | nil => intro acc; simp
  | cons x xs ih =>
    intro acc
    have h := ih (refreshStep acc x)
    rw [refreshStep_fst] at h
    simp only [List.foldl_cons]
    omega

theorem scan_snd_mem (l : List Str) :
    ∀ acc : Int × Int, ∀ x ∈ l, toInt x ≤ (l.foldl refreshStep acc).2 := by
  induction l with
  | nil => intro acc x hx; simp at hx
  | cons y ys ih =>
    intro acc x hx
    simp only [List.foldl_cons]
    rcases List.mem_cons.mp hx with h | h
    · subst h
      have h1 := scan_snd_ge ys (refreshStep acc x)
      rw [refreshStep_snd] at h1
      omega
    · exact ih _ x h

theorem scan_fst_mem (l : List Str) :
    ∀ acc : Int × Int, ∀ x ∈ l, (l.foldl refreshStep acc).1 ≤ toInt x := by
  induction l with
  | nil => intro acc x hx; simp at hx
  | cons y ys ih =>
    intro acc x hx
    simp only [List.foldl_cons]
    rcases List.mem_cons.mp hx with h | h
    · subst h
      have h1 := scan_fst_le ys (refreshStep acc x)
      rw [refreshStep_fst] at h1
      omega
    · exact ih _ x h

theorem scan_snd_attained (l : List Str) :
    ∀ acc : Int × Int, (l.foldl refreshStep acc).2 = acc.2 ∨
      ∃ x ∈ l, (l.foldl refreshStep acc).2 = toInt x := by
  induction l with
  | nil => intro acc; simp
  | cons y ys ih =>
    intro acc
    simp only [List.foldl_cons]
    rcases ih (refreshStep acc y) with h | ⟨x, hx, h⟩
    · rw [refreshStep_snd] at h
      rcases max_choice acc.2 (toInt y) with h2 | h2
      · left; rw [h, h2]
      · right; exact ⟨y, List.mem_cons_self _ _, by rw [h, h2]⟩
    · right; exact ⟨x, List.mem_cons_of_mem _ hx, h⟩

theorem scan_fst_attained (l : List Str) :
    ∀ acc : Int × Int, (l.foldl refreshStep acc).1 = acc.1 ∨
      ∃ x ∈ l, (l.foldl refreshStep acc).1 = toInt x := by
  induction l with
  | nil => intro acc; simp
  | cons y ys ih =>
    intro acc
    simp only [List.foldl_cons]
    rcases ih (refreshStep acc y) with h | ⟨x, hx, h⟩
    · rw [refreshStep_fst] at h
      rcases min_choice acc.1 (toInt y) with h2 | h2
      · left; rw [h, h2]
      · right; exact ⟨y, List.mem_cons_self _ _, by rw [h, h2]⟩
    · right; exact ⟨x, List.mem_cons_of_mem _ hx, h⟩

/-- The scan computes the minimum and the maximum of the members and the indices seen. -/
theorem scan_eq (l : List Str) (acc : Int × Int) :
    l.foldl refreshStep acc =
      (l.foldl (fun m x => min m (toInt x)) acc.1, l.foldl (fun m x => max m (toInt x)) acc.2) := by
  induction l generalizing acc with
  | nil => rfl
  | cons y ys ih =>
    simp only [List.foldl_cons]
    rw [ih, refreshStep_fst, refreshStep_snd]

theorem toInt_range (x : Str) : INT_MIN ≤ toInt x ∧ toInt x ≤ INT_MAX := by
  have hc : ∀ y : Int, INT_MIN ≤ clampLong y ∧ clampLong y ≤ INT_MAX := by
    intro y
    unfold clampLong INT_MIN INT_MAX
    split
    · omega
    · split <;> omega
  unfold toInt
  split
  · unfold INT_MIN INT_MAX; omega
  · split
    · exact hc _
    · split <;> exact hc _

@[simp] theorem refresh_logFile (s : State) : (refreshLogFiles s).logFile = s.logFile := rfl

@[simp] theorem refresh_fs (s : State) : (refreshLogFiles s).fs = s.fs := rfl

@[simp] theorem refresh_dirty (s : State) : (refreshLogFiles s).dirty = s.dirty := rfl

@[simp] theorem refresh_con (s : State) : (refreshLogFiles s).con = s.con := rfl

theorem refresh_newest_ge (s : State) : s.newestFile ≤ (refreshLogFiles s).newestFile :=
  scan_snd_ge _ (s.oldestFile, s.newestFile)

theorem refresh_synced (s : State) : Synced (refreshLogFiles s) := by
  intro e he
  exact scan_snd_mem _ (s.oldestFile, s.newestFile) e.1 (List.mem_map_of_mem _ he)

theorem refresh_inRange (s : State) (h : InRange s) : InRange (refreshLogFiles s) := by
  rcases scan_snd_attained (s.fs.map (fun e => e.1)) (s.oldestFile, s.newestFile) with h1 | ⟨x, _, h1⟩
  · unfold InRange refreshLogFiles
    simp only [h1]
    exact h
  · unfold InRange refreshLogFiles
    simp only [h1]
    exact toInt_range x

/-- On a synced state the scan leaves `newestFile` alone. -/
theorem refresh_newest_of_synced (s : State) (h : Synced s) :
    (refreshLogFiles s).newestFile = s.newestFile := by
  rcases scan_snd_attained (s.fs.map (fun e => e.1)) (s.oldestFile, s.newestFile) with h1 | ⟨x, hx, h1⟩
  · exact h1
  · obtain ⟨e, he, rfl⟩ := List.mem_map.mp hx
    have h2 := h e he
    have h3 := refresh_newest_ge s
    unfold refreshLogFiles at h3 ⊢
    simp only at h3 ⊢
    omega

/-! ### The storage model -/

theorem fsRead_nil (m : Str) : fsRead [] m = none := rfl

theorem fsRead_cons (e : Str × Str) (fs : FileSys) (m : Str) :
    fsRead (e :: fs) m = if e.1 = m then some e.2 else fsRead fs m := by
  unfold fsRead
  by_cases h : e.1 = m <;> simp [List.find?, h]

theorem fsExists_cons (e : Str × Str) (fs : FileSys) (m : Str) :
    fsExists (e :: fs) m = (decide (e.1 = m) || fsExists fs m) := by
  simp [fsExists]

theorem fsExists_eq_isSome (fs : FileSys) (m : Str) : fsExists fs m = (fsRead fs m).isSome := by
  induction fs with
  | nil => rfl
  | cons e fs ih =>
    rw [fsExists_cons, fsRead_cons, ih]
    by_cases h : e.1 = m <;> simp [h]

theorem fsExists_iff_mem (fs : FileSys) (m : Str) :
    fsExists fs m = true ↔ m ∈ fs.map (fun e => e.1) := by
  simp [fsExists]

theorem fsRead_append (fs : FileSys) (n b m : Str) :
    fsRead (fsAppend fs n b) m =
      if m = n then (fsRead fs n).map (fun c => c ++ b) else fsRead fs m := by
  induction fs with
  | nil => simp [fsAppend, fsRead_nil]
  | cons e fs ih =>
    have hstep : fsAppend (e :: fs) n b =
        (if e.1 = n then (e.1, e.2 ++ b) else e) :: fsAppend fs n b := by
      simp [fsAppend]
    rw [hstep, fsRead_cons, ih, fsRead_cons, fsRead_cons]
    by_cases h1 : e.1 = n <;> by_cases h2 : m = n
    · subst h2; simp [h1]
    · have h3 : ¬ e.1 = m := fun h => h2 (h ▸ h1)
      have h4 : ¬ n = m := fun h => h2 h.symm
      simp [h1, h2, h3, h4]
    · subst h2; simp [h1]
    · simp [h1, h2]

theorem names_append (fs : FileSys) (n b : Str) :
    (fsAppend fs n b).map (fun e => e.1) = fs.map (fun e => e.1) := by
  induction fs with
  | nil => rfl
  | cons e fs ih =>
    have hstep : fsAppend (e :: fs) n b =
        (if e.1 = n then (e.1, e.2 ++ b) else e) :: fsAppend fs n b := by
      simp [fsAppend]
    rw [hstep, List.map_cons, ih, List.map_cons]
    by_cases h1 : e.1 = n <;> simp [h1]

theorem fsRead_truncate (fs : FileSys) (n m : Str) :
    fsRead (fs.map (fun e => if e.1 = n then (e.1, []) else e)) m =
      if m = n then (fsRead fs n).map (fun _ => []) else fsRead fs m := by
  induction fs with
  | nil => simp [fsRead_nil]
  | cons e fs ih =>
    rw [List.map_cons, fsRead_cons, ih, fsRead_cons, fsRead_cons]
    by_cases h1 : e.1 = n <;> by_cases h2 : m = n
    · subst h2; simp [h1]
    · have h3 : ¬ e.1 = m := fun h => h2 (h ▸ h1)
      have h4 : ¬ n = m := fun h => h2 h.symm
      simp [h1, h2, h3, h4]
    · subst h2; simp [h1]
    · simp [h1, h2]

theorem fsRead_snoc (fs : FileSys) (e : Str × Str) (m : Str) :
    fsRead (fs ++ [e]) m =
      match fsRead fs m with
      | some c => some c
      | none => if e.1 = m then some e.2 else none := by
  induction fs with
  | nil => simp [fsRead_cons, fsRead_nil]
  | cons x fs ih =>
    rw [List.cons_append, fsRead_cons, fsRead_cons, ih]
    by_cases h : x.1 = m <;> simp [h]

theorem fsRead_create (fs : FileSys) (n m : Str) :
    fsRead (fsCreate fs n) m = if m = n then some [] else fsRead fs m := by
  unfold fsCreate
  by_cases hex : fsExists fs n = true
  · rw [if_pos hex, fsRead_truncate]
    rw [fsExists_eq_isSome] at hex
    by_cases h2 : m = n
    · rw [if_pos h2, if_pos h2]
      cases hr : fsRead fs n with
      | none => rw [hr] at hex; simp at hex
      | some c => rfl
    · rw [if_neg h2, if_neg h2]
  · rw [if_neg hex, fsRead_snoc]
    rw [fsExists_eq_isSome] at hex
    by_cases h2 : m = n
    · subst h2
      cases hr : fsRead fs m with
      | none => simp
      | some c => rw [hr] at hex; simp at hex
    · have : ¬ n = m := fun h => h2 h.symm
      cases hr : fsRead fs m <;> simp [h2, this]

theorem fsRead_touch (fs : FileSys) (n m : Str) :
    fsRead (fsTouch fs n) m = if m = n then some ((fsRead fs n).getD []) else fsRead fs m := by
  unfold fsTouch
  by_cases hex : fsExists fs n = true
  · rw [if_pos hex]
    rw [fsExists_eq_isSome] at hex
    by_cases h2 : m = n
    · subst h2
      cases hr : fsRead fs m with
      | none => rw [hr] at hex; simp at hex
      | some c => simp
    · rw [if_neg h2]
  · rw [if_neg hex, fsRead_snoc]
    rw [fsExists_eq_isSome] at hex
    by_cases h2 : m = n
    · subst h2
      cases hr : fsRead fs m with
      | none => simp
      | some c => rw [hr] at hex; simp at hex
    · have : ¬ n = m := fun h => h2 h.symm
      cases hr : fsRead fs m <;> simp [h2, this]

theorem fsRead_remove (fs : FileSys) (n m : Str) :
    fsRead (fsRemove fs n) m = if m = n then none else fsRead fs m := by
  induction fs with
  | nil => simp [fsRemove, fsRead_nil]
  | cons e fs ih =>
    unfold fsRemove at ih ⊢
    by_cases h1 : e.1 = n
    · rw [List.filter_cons_of_neg (by simp [h1]), ih, fsRead_cons]
      by_cases h2 : m = n
      · simp [h2]
      · have : ¬ e.1 = m := fun h => h2 (h ▸ h1)
        simp [h2, this]
    · rw [List.filter_cons_of_pos (by simp [h1]), fsRead_cons, ih, fsRead_cons]
      by_cases h2 : m = n
      · subst h2
        simp [h1]
      · simp [h2]

theorem mem_names_create (fs : FileSys) (n x : Str) :
    x ∈ (fsCreate fs n).map (fun e => e.1) ↔ x = n ∨ x ∈ fs.map (fun e => e.1) := by
  rw [← fsExists_iff_mem, ← fsExists_iff_mem, fsExists_eq_isSome, fsExists_eq_isSome,
    fsRead_create]
  by_cases h : x = n <;> simp [h]

theorem mem_names_touch (fs : FileSys) (n x : Str) :
    x ∈ (fsTouch fs n).map (fun e => e.1) ↔ x = n ∨ x ∈ fs.map (fun e => e.1) := by
  rw [← fsExists_iff_mem, ← fsExists_iff_mem, fsExists_eq_isSome, fsExists_eq_isSome,
    fsRead_touch]
  by_cases h : x = n <;> simp [h]

theorem mem_names_remove (fs : FileSys) (n x : Str) :
    x ∈ (fsRemove fs n).map (fun e => e.1) ↔ x ≠ n ∧ x ∈ fs.map (fun e => e.1) := by
  rw [← fsExists_iff_mem, ← fsExists_iff_mem, fsExists_eq_isSome, fsExists_eq_isSome,
    fsRead_remove]
  by_cases h : x = n <;> simp [h]

theorem mem_names_append (fs : FileSys) (n b x : Str) :
    x ∈ (fsAppend fs n b).map (fun e => e.1) ↔ x ∈ fs.map (fun e => e.1) := by
  rw [names_append]

/-! ### The blocks of `newLogFile` -/

theorem reclaim_enough (nameOf : Str → Str) (env : Env) (s : State)
    (h : ¬ env.freeSpace < KEEP_SPACE) : reclaim nameOf env s = (some false, s) := by
  simp [reclaim, h]

theorem reclaim_refuse (nameOf : Str → Str) (env : Env) (s : State)
    (h : env.freeSpace < KEEP_SPACE)
    (hc : isCurrent nameOf s (logDir ++ intString s.oldestFile) = true) :
    reclaim nameOf env s = (none, say Msg.cannotDelete s) := by
  simp [reclaim, h, hc]

theorem reclaim_delete (nameOf : Str → Str) (env : Env) (s : State)
    (h : env.freeSpace < KEEP_SPACE)
    (hc : isCurrent nameOf s (logDir ++ intString s.oldestFile) = false) :
    reclaim nameOf env s =
      (some true, say (Msg.deleting (logDir ++ intString s.oldestFile)
          (fsExists s.fs (intString s.oldestFile)))
        { s with fs := fsRemove s.fs (intString s.oldestFile) }) := by
  simp [reclaim, h, hc]

theorem fileSize_pos_some (fs : FileSys) (o : Option File) (h : 0 < fileSize fs o) :
    ∃ f, o = some f := by
  cases o with
  | none => simp [fileSize] at h
  | some f => exact ⟨f, rfl⟩

/-- A complete write stores the whole marker. -/
theorem marker_of_complete (env : Env)
    (h : (timeStamp env.now).length ≤ env.written (timeStamp env.now).length) :
    marker env = timeStamp env.now := by
  unfold marker accepted
  rw [min_eq_right h, List.take_length]

theorem marker_okEnv (free : Nat) : marker (okEnv free) = timeStamp noon :=
  marker_of_complete (okEnv free) (le_refl _)

/-- What is stored of a marker: as many of its bytes as the write takes. -/
theorem marker_eq_take (env : Env) :
    marker env = (timeStamp env.now).take (env.written (timeStamp env.now).length) := by
  unfold marker accepted
  rw [List.take_eq_take]
  omega

theorem rotate_small (env : Env) (s : State) (h : ¬ fileSize s.fs s.logFile > SINGLE_FILE_SIZE) :
    rotate env s =
      if s.dirty then (false, { flushFile (printTime env s) with dirty := false })
      else (false, s) := by
  simp only [rotate, if_neg h]

theorem rotate_fail (env : Env) (s : State) (h : fileSize s.fs s.logFile > SINGLE_FILE_SIZE)
    (hc : env.canOpen (intString (wrapInt (s.newestFile + 1))) Mode.wPlus = false) :
    rotate env s =
      (false, say (Msg.failedCreate (intString (wrapInt (s.newestFile + 1))))
        (flushFile (printTime env s))) := by
  simp only [rotate, if_pos h, fsOpen, hc]
  rfl

theorem rotate_ok (env : Env) (s : State) (f : File) (hf : s.logFile = some f)
    (h : fileSize s.fs s.logFile > SINGLE_FILE_SIZE)
    (hc : env.canOpen (intString (wrapInt (s.newestFile + 1))) Mode.wPlus = true) :
    rotate env s =
      (true,
        { logFile :=
            if env.canOpen (intString (wrapInt (s.newestFile + 1))) Mode.aPlus = true then
              some { name := intString (wrapInt (s.newestFile + 1)), pending := [] }
            else none
          oldestFile := s.oldestFile
          newestFile := s.newestFile
          dirty := false
          fs :=
            if env.canOpen (intString (wrapInt (s.newestFile + 1))) Mode.aPlus = true then
              fsTouch (fsAppend (fsAppend (fsCreate s.fs (intString (wrapInt (s.newestFile + 1))))
                f.name (f.pending ++ marker env))
                (intString (wrapInt (s.newestFile + 1))) (marker env))
                (intString (wrapInt (s.newestFile + 1)))
            else
              fsAppend (fsAppend (fsCreate s.fs (intString (wrapInt (s.newestFile + 1))))
                f.name (f.pending ++ marker env))
                (intString (wrapInt (s.newestFile + 1))) (marker env)
          con := s.con
          out := s.out ++ [Msg.closedFile f.fullName
              (fileSize (fsCreate s.fs (intString (wrapInt (s.newestFile + 1))))
                (some { f with pending := f.pending ++ marker env })),
            Msg.openFile (intString (wrapInt (s.newestFile + 1)))]
          ticker := s.ticker }) := by
  simp only [rotate, if_pos h, fsOpen, hc, if_true]
  by_cases ha : env.canOpen (intString (wrapInt (s.newestFile + 1))) Mode.aPlus = true
  · simp [ha, printTime, hf, fileWrite, say, closeFile, assignFile, commit, File.fullName]
  · simp [ha, printTime, hf, fileWrite, say, closeFile, assignFile, commit, File.fullName]

/-- C1 (P1, no self-deletion) fails on the code: with the `File::name()` of
LittleFS the guard of `newLogFile` compares the short name `0` with the path
`/log/0`, so under space pressure the check hands the path of the open segment
to `remove` and the open segment's file is gone afterwards. -/
theorem newLogFile_removes_open_segment :
    lonely.logFile = some { name := ['0'], pending := [] } ∧
    fsExists lonely.fs ['0'] = true ∧
    (newLogFile shortName (okEnv 1000) lonely).logFile = some { name := ['0'], pending := [] } ∧
    (newLogFile shortName (okEnv 1000) lonely).out = [Msg.deleting "/log/0".toList true] ∧
    fsExists (newLogFile shortName (okEnv 1000) lonely).fs ['0'] = false := by
  decide

/-- C5 (refresh recomputes min/max, Scenario C) fails on the code: the scan of
`_refreshLogFiles` starts from the current members, so after segment `0` has
been deleted `getMin` is still `0` although the lowest segment left is `1`, and
the next check asks again for the deletion of `/log/0`. -/
theorem refresh_keeps_deleted_oldest :
    (newLogFile shortName (okEnv 1000) fourSegments).fs.map (fun e => e.1) = [['1'], ['2'], ['3']] ∧
    getMin (newLogFile shortName (okEnv 1000) fourSegments) = 0 ∧
    getMax (newLogFile shortName (okEnv 1000) fourSegments) = 3 ∧
    getMin (refreshLogFiles (newLogFile shortName (okEnv 1000) fourSegments)) = 0 ∧
    (newLogFile shortName (okEnv 1000) (newLogFile shortName (okEnv 1000) fourSegments)).out =
      [Msg.deleting "/log/0".toList true, Msg.deleting "/log/0".toList false] := by
  decide

theorem toInt_of_no_number (x : Str) (h : hasLeadingNumber x = false) : toInt x = 0 := by
  unfold hasLeadingNumber at h
  unfold toInt
  cases hd : List.dropWhile isSpace x with
  | nil => rfl
  | cons c r =>
    rw [hd] at h
    simp only at h ⊢
    have hz : clampLong 0 = 0 := by decide
    by_cases hm : c = '-'
    · rw [if_pos (Or.inl hm)] at h
      rw [if_pos hm]
      cases r with
      | nil => simpa [readDigits] using hz
      | cons d r' =>
        simp only at h
        simpa [readDigits, h] using hz
    · rw [if_neg hm]
      by_cases hp : c = '+'
      · rw [if_pos (Or.inr hp)] at h
        rw [if_pos hp]
        cases r with
        | nil => simpa [readDigits] using hz
        | cons d r' =>
          simp only at h
          simpa [readDigits, h] using hz
      · rw [if_neg (by simp [hm, hp])] at h
        rw [if_neg hp]
        simpa [readDigits, h] using hz

theorem foldl_min_comm (l : List Str) :
    ∀ a b : Int, l.foldl (fun m x => min m (toInt x)) (min a b) =
      min (l.foldl (fun m x => min m (toInt x)) a) b := by
  induction l with
  | nil => intro a b; rfl
  | cons y ys ih =>
    intro a b
    simp only [List.foldl_cons]
    have hc : min (min a b) (toInt y) = min (min a (toInt y)) b := by omega
    rw [hc, ih]

theorem foldl_max_comm (l : List Str) :
    ∀ a b : Int, l.foldl (fun m x => max m (toInt x)) (max a b) =
      max (l.foldl (fun m x => max m (toInt x)) a) b := by
  induction l with
  | nil => intro a b; rfl
  | cons y ys ih =>
    intro a b
    simp only [List.foldl_cons]
    have hc : max (max a b) (toInt y) = max (max a (toInt y)) b := by omega
    rw [hc, ih]

/-- An entry put anywhere in the listing moves the scan's result by its index only. -/
theorem scan_insert (l1 l2 : List Str) (x : Str) (acc : Int × Int) :
    (l1 ++ x :: l2).foldl refreshStep acc =
      (min ((l1 ++ l2).foldl refreshStep acc).1 (toInt x),
        max ((l1 ++ l2).foldl refreshStep acc).2 (toInt x)) := by
  rw [scan_eq, scan_eq (l1 ++ l2)]
  simp only [List.foldl_append, List.foldl_cons, foldl_min_comm, foldl_max_comm]

/-- C6 as stated fails: in a directory that holds segment `5`, the entry `readme`
is read as index `0` and pulls `oldestFile` down to `0`. -/
theorem refresh_counts_readme :
    getMin (refreshLogFiles (State.fresh [("5".toList, [])] [])) = 5 ∧
    getMax (refreshLogFiles (State.fresh [("5".toList, [])] [])) = 5 ∧
    hasLeadingNumber "readme".toList = false ∧
    getMin (refreshLogFiles (State.fresh [("5".toList, []), ("readme".toList, [])] [])) = 0 ∧
    getMax (refreshLogFiles (State.fresh [("5".toList, []), ("readme".toList, [])] [])) = 5 := by
  decide

/-- C6, amended: `_refreshLogFiles` has no test for names that are not numbers;
`toInt` reads such a name as index `0`.  Adding an entry whose name has no
leading number, anywhere in the listing, makes `oldestFile` the minimum of `0`
and the value computed without it, and `newestFile` the maximum of `0` and the
value computed without it. -/
theorem refresh_nonNumeric_entry (s : State) (fs1 fs2 : FileSys) (name content : Str)
    (h : hasLeadingNumber name = false) :
    getMin (refreshLogFiles { s with fs := fs1 ++ (name, content) :: fs2 }) =
        min (getMin (refreshLogFiles { s with fs := fs1 ++ fs2 })) 0 ∧
      getMax (refreshLogFiles { s with fs := fs1 ++ (name, content) :: fs2 }) =
        max (getMax (refreshLogFiles { s with fs := fs1 ++ fs2 })) 0 := by
  have hx := toInt_of_no_number name h
  simp only [getMin, getMax, refreshLogFiles, List.map_append, List.map_cons, scan_insert, hx]
  trivial

theorem refresh_nonNumeric_entry_witness :
    hasLeadingNumber "readme".toList = false ∧
      getMin (refreshLogFiles
        { State.fresh [] [] with fs := [("5".toList, [])] ++ ("readme".toList, []) :: [] }) =
        min (getMin (refreshLogFiles { State.fresh [] [] with fs := [("5".toList, [])] ++ [] })) 0 :=
  ⟨by decide, (refresh_nonNumeric_entry (State.fresh [] []) [("5".toList, [])] []
    "readme".toList [] (by decide)).1⟩

/-! ### What the blocks leave alone -/

/-- The three ways the reclamation block can end. -/
theorem reclaim_cases (nameOf : Str → Str) (env : Env) (s : State) :
    reclaim nameOf env s = (some false, s) ∨
    reclaim nameOf env s = (none, say Msg.cannotDelete s) ∨
    reclaim nameOf env s =
      (some true, say (Msg.deleting (logDir ++ intString s.oldestFile)
          (fsExists s.fs (intString s.oldestFile)))
        { s with fs := fsRemove s.fs (intString s.oldestFile) }) := by
  by_cases h : env.freeSpace < KEEP_SPACE
  · by_cases hc : isCurrent nameOf s (logDir ++ intString s.oldestFile) = true
    · exact Or.inr (Or.inl (reclaim_refuse nameOf env s h hc))
    · exact Or.inr (Or.inr (reclaim_delete nameOf env s h (by simpa using hc)))
  · exact Or.inl (reclaim_enough nameOf env s h)

theorem reclaim_newest (nameOf : Str → Str) (env : Env) (s : State) :
    (reclaim nameOf env s).2.newestFile = s.newestFile := by
  rcases reclaim_cases nameOf env s with h | h | h <;> rw [h] <;> rfl

theorem reclaim_logFile (nameOf : Str → Str) (env : Env) (s : State) :
    (reclaim nameOf env s).2.logFile = s.logFile := by
  rcases reclaim_cases nameOf env s with h | h | h <;> rw [h] <;> rfl

theorem reclaim_names (nameOf : Str → Str) (env : Env) (s : State) (x : Str)
    (hx : x ∈ (reclaim nameOf env s).2.fs.map (fun e => e.1)) : x ∈ s.fs.map (fun e => e.1) := by
  rcases reclaim_cases nameOf env s with h | h | h <;> rw [h] at hx
  · exact hx
  · exact hx
  · exact ((mem_names_remove _ _ _).mp hx).2

theorem rotate_newest (env : Env) (s : State) : (rotate env s).2.newestFile = s.newestFile := by
  by_cases h : fileSize s.fs s.logFile > SINGLE_FILE_SIZE
  · by_cases hc : env.canOpen (intString (wrapInt (s.newestFile + 1))) Mode.wPlus = true
    · obtain ⟨f, hf⟩ := fileSize_pos_some _ _ (Nat.lt_of_le_of_lt (Nat.zero_le _) h)
      rw [rotate_ok env s f hf h hc]
    · rw [rotate_fail env s h (by simpa using hc)]
      rfl
  · rw [rotate_small env s h]
    split <;> rfl

theorem newLogFile_newest_ge (nameOf : Str → Str) (env : Env) (s : State) :
    s.newestFile ≤ (newLogFile nameOf env s).newestFile := by
  have h1 := reclaim_newest nameOf env s
  unfold newLogFile
  rcases hr : reclaim nameOf env s with ⟨o, s1⟩
  rw [hr] at h1
  simp only at h1
  cases o with
  | none => simp only; rw [h1]
  | some b =>
    simp only
    have h2 := rotate_newest env s1
    split
    · have h3 := refresh_newest_ge (rotate env s1).2
      omega
    · omega

/-- The four ways `begin` can end. -/
theorem begin_cases (nameOf : Str → Str) (env : Env) (n : Nat) (s : State) :
    begin nameOf env n s = (false, say (Msg.failedOpen
        (logDir ++ intString (beginScan s).newestFile)) (beginScan s)) ∨
    begin nameOf env n s = (false, say (Msg.failedCreate
        (logDir ++ intString (beginScan s).newestFile)) (beginScan s)) ∨
    begin nameOf env n s = (true,
      { newLogFile nameOf env
          (say (Msg.openFile (logDir ++ intString (beginScan s).newestFile))
            (assignFile (some { name := intString (beginScan s).newestFile, pending := [] })
              { beginScan s with
                fs := fsTouch (beginScan s).fs (intString (beginScan s).newestFile) })) with
        ticker := some (n % 65536) }) ∨
    begin nameOf env n s = (true,
      { newLogFile nameOf env
          (beginCreate env { name := intString (beginScan s).newestFile, pending := [] }
            (fsCreate (beginScan s).fs (intString (beginScan s).newestFile)) (beginScan s)) with
        ticker := some (n % 65536) }) := by
  unfold begin
  simp only
  by_cases hex : fsExists (beginScan s).fs (intString (beginScan s).newestFile) = true
  · rw [if_pos hex]
    by_cases hc : env.canOpen (intString (beginScan s).newestFile) Mode.aPlus = true
    · simp [fsOpen, hc]
    · simp [fsOpen, hc]
  · rw [if_neg hex]
    by_cases hc : env.canOpen (intString (beginScan s).newestFile) Mode.wPlus = true
    · simp [fsOpen, hc]
    · simp [fsOpen, hc]

theorem beginScan_newest_ge (s : State) : s.newestFile ≤ (beginScan s).newestFile := by
  have h0 := refresh_newest_ge s
  unfold beginScan
  simp only
  split
  · rename_i h
    rw [h] at h0
    have h1 : INT_MIN ≤ (0 : Int) := by decide
    exact le_trans h0 h1
  · exact h0

theorem beginCreate_newest_ge (env : Env) (f : File) (fs1 : FileSys) (s1 : State) :
    s1.newestFile ≤ (beginCreate env f fs1 s1).newestFile :=
  refresh_newest_ge _

theorem begin_newest_ge (nameOf : Str → Str) (env : Env) (n : Nat) (s : State) :
    s.newestFile ≤ (begin nameOf env n s).2.newestFile := by
  have h0 := beginScan_newest_ge s
  rcases begin_cases nameOf env n s with h | h | h | h <;> rw [h]
  · exact h0
  · exact h0
  · exact le_trans h0 (newLogFile_newest_ge nameOf env _)
  · exact le_trans h0 (le_trans (beginCreate_newest_ge env _ _ _) (newLogFile_newest_ge nameOf env _))

theorem doLog_newest (env : Env) (size : Int) (s : State) :
    (doLog env size s).2.newestFile = s.newestFile := by
  unfold doLog
  cases s.logFile with
  | none => rfl
  | some f =>
    simp only
    split_ifs <;> rfl

theorem step_newest_ge (nameOf : Str → Str) (s : State) (op : Op) :
    s.newestFile ≤ (step nameOf s op).newestFile := by
  cases op with
  | begin env n => exact begin_newest_ge nameOf env n s
  | newLogFile env => exact newLogFile_newest_ge nameOf env s
  | doLog env size => exact le_of_eq (doLog_newest env size s).symm

theorem run_newest_ge (nameOf : Str → Str) (ops : List Op) :
    ∀ s : State, s.newestFile ≤ (run nameOf ops s).newestFile := by
  induction ops with
  | nil => intro s; exact le_refl _
  | cons op ops ih =>
    intro s
    exact le_trans (step_newest_ge nameOf s op) (ih (step nameOf s op))

/-! ### Invariants of the reachable states -/

theorem synced_iff (s : State) :
    Synced s ↔ ∀ x ∈ s.fs.map (fun e => e.1), toInt x ≤ s.newestFile := by
  constructor
  · intro h x hx
    obtain ⟨e, he, rfl⟩ := List.mem_map.mp hx
    exact h e he
  · intro h e he
    exact h e.1 (List.mem_map_of_mem _ he)

theorem inRange_congr (s t : State) (h : t.newestFile = s.newestFile) (hs : InRange s) :
    InRange t := by
  unfold InRange at hs ⊢
  rw [h]
  exact hs

theorem names_commit (fs : FileSys) (o : Option File) :
    (commit fs o).map (fun e => e.1) = fs.map (fun e => e.1) := by
  cases o with
  | none => rfl
  | some f => exact names_append fs f.name f.pending

theorem flushed_eq_none (o : Option File) : flushed o = none ↔ o = none := by
  cases o <;> simp [flushed]

theorem fileWrite_eq_none (b : Str) (o : Option File) : fileWrite b o = none ↔ o = none := by
  cases o <;> simp [fileWrite]

/-- When the size block sets no `needRefresh`, the directory keeps its names and
the handle stays as it was (open or null). -/
theorem rotate_keep (env : Env) (s : State) (h : (rotate env s).1 = false) :
    (rotate env s).2.fs.map (fun e => e.1) = s.fs.map (fun e => e.1) ∧
      ((rotate env s).2.logFile = none ↔ s.logFile = none) := by
  by_cases hb : fileSize s.fs s.logFile > SINGLE_FILE_SIZE
  · by_cases hc : env.canOpen (intString (wrapInt (s.newestFile + 1))) Mode.wPlus = true
    · obtain ⟨f, hf⟩ := fileSize_pos_some _ _ (Nat.lt_of_le_of_lt (Nat.zero_le _) hb)
      rw [rotate_ok env s f hf hb hc] at h
      simp at h
    · rw [rotate_fail env s hb (by simpa using hc)]
      simp only [say, flushFile, printTime, names_commit, flushed_eq_none, fileWrite_eq_none]
      trivial
  · rw [rotate_small env s hb]
    split
    · simp only [flushFile, printTime, names_commit, flushed_eq_none, fileWrite_eq_none]
      trivial
    · exact ⟨rfl, Iff.rfl⟩

theorem newLogFile_inRange (nameOf : Str → Str) (env : Env) (s : State) (h : InRange s) :
    InRange (newLogFile nameOf env s) := by
  have h1 := reclaim_newest nameOf env s
  unfold newLogFile
  rcases hr : reclaim nameOf env s with ⟨o, s1⟩
  rw [hr] at h1
  simp only at h1
  cases o with
  | none => exact inRange_congr s s1 h1 h
  | some b =>
    simp only
    have h2 : InRange (rotate env s1).2 :=
      inRange_congr s _ ((rotate_newest env s1).trans h1) h
    split
    · exact refresh_inRange _ h2
    · exact h2

theorem newLogFile_synced (nameOf : Str → Str) (env : Env) (s : State)
    (h : s.logFile ≠ none → Synced s) :
    (newLogFile nameOf env s).logFile ≠ none → Synced (newLogFile nameOf env s) := by
  unfold newLogFile
  rcases reclaim_cases nameOf env s with hr | hr | hr <;> rw [hr] <;> simp only
  · by_cases hrot : (rotate env s).1 = true
    · rw [hrot]
      intro _
      exact refresh_synced _
    · have hrot2 : (rotate env s).1 = false := by simpa using hrot
      rw [hrot2]
      simp only [Bool.or_self, Bool.false_eq_true, if_false]
      obtain ⟨hn, hl⟩ := rotate_keep env s hrot2
      intro hne
      have hs := h (fun hnone => hne (hl.mpr hnone))
      rw [synced_iff] at hs ⊢
      rw [hn, rotate_newest]
      exact hs
  · exact h
  · intro _
    simp only [Bool.true_or, if_true]
    exact refresh_synced _

theorem doLog_fs (env : Env) (size : Int) (s : State) : (doLog env size s).2.fs = s.fs := by
  unfold doLog
  cases s.logFile with
  | none => rfl
  | some f =>
    simp only
    split_ifs <;> rfl

theorem doLog_logFile_none (env : Env) (size : Int) (s : State) :
    (doLog env size s).2.logFile = none ↔ s.logFile = none := by
  unfold doLog
  cases hf : s.logFile with
  | none => simp [say, hf]
  | some f =>
    simp only
    split_ifs <;> simp [say, hf]

theorem beginScan_inRange (s : State) (h : InRange s) : InRange (beginScan s) := by
  have h0 := refresh_inRange s h
  unfold beginScan
  simp only
  split
  · unfold InRange INT_MIN INT_MAX
    simp only
    omega
  · exact h0

theorem beginScan_synced (s : State) : Synced (beginScan s) := by
  have h0 := refresh_synced s
  unfold beginScan
  simp only
  split
  · rename_i hmin
    intro e he
    have h1 := h0 e he
    rw [hmin] at h1
    have h2 : INT_MIN ≤ (0 : Int) := by decide
    exact le_trans h1 h2
  · exact h0

theorem beginCreate_inRange (env : Env) (f : File) (fs1 : FileSys) (s1 : State)
    (h : InRange s1) : InRange (beginCreate env f fs1 s1) := by
  unfold beginCreate
  simp only
  refine inRange_congr (refreshLogFiles _) _ rfl (refresh_inRange _ ?_)
  exact inRange_congr s1 _ rfl h

theorem beginCreate_synced (env : Env) (f : File) (fs1 : FileSys) (s1 : State) :
    Synced (beginCreate env f fs1 s1) := by
  unfold beginCreate
  simp only
  intro e he
  exact refresh_synced _ e he

theorem begin_inv (nameOf : Str → Str) (env : Env) (n : Nat) (s : State) (h : InRange s) :
    InRange (begin nameOf env n s).2 ∧
      ((begin nameOf env n s).2.logFile ≠ none → Synced (begin nameOf env n s).2) := by
  have hr := beginScan_inRange s h
  have hs := beginScan_synced s
  rcases begin_cases nameOf env n s with hb | hb | hb | hb <;> rw [hb]
  · exact ⟨hr, fun _ => hs⟩
  · exact ⟨hr, fun _ => hs⟩
  · have hs2 : Synced (say (Msg.openFile (logDir ++ intString (beginScan s).newestFile))
        (assignFile (some { name := intString (beginScan s).newestFile, pending := [] })
          { beginScan s with
            fs := fsTouch (beginScan s).fs (intString (beginScan s).newestFile) })) := by
      rw [synced_iff]
      intro x hx
      simp only [say, assignFile, names_commit] at hx
      rcases (mem_names_touch _ _ _).mp hx with hx | hx
      · rw [hx]
        exact le_of_eq (toInt_intString _ hr.1 hr.2)
      · exact (synced_iff _).mp hs x hx
    exact ⟨newLogFile_inRange nameOf env _ hr, newLogFile_synced nameOf env _ (fun _ => hs2)⟩
  · exact ⟨newLogFile_inRange nameOf env _ (beginCreate_inRange env _ _ _ hr),
      newLogFile_synced nameOf env _ (fun _ => beginCreate_synced env _ _ _)⟩

/-- In every reachable state `newestFile` is an `int`, and once a segment is open
no directory entry has an index above it. -/
theorem reachable_inv (nameOf : Str → Str) (s : State) (h : Reachable nameOf s) :
    InRange s ∧ (s.logFile ≠ none → Synced s) := by
  induction h with
  | fresh fs con =>
    have hmm : INT_MIN ≤ INT_MAX := by decide
    refine ⟨⟨le_refl _, hmm⟩, ?_⟩
    intro hne
    exact absurd rfl hne
  | step s op _ ih =>
    cases op with
    | begin env n => exact begin_inv nameOf env n s ih.1
    | newLogFile env =>
      exact ⟨newLogFile_inRange nameOf env s ih.1, newLogFile_synced nameOf env s ih.2⟩
    | doLog env size =>
      refine ⟨inRange_congr s _ (doLog_newest env size s) ih.1, ?_⟩
      intro hne
      have hs := ih.2 (fun hnone => hne ((doLog_logFile_none env size s).mpr hnone))
      rw [synced_iff] at hs ⊢
      show ∀ x ∈ (doLog env size s).2.fs.map (fun e => e.1), toInt x ≤ (doLog env size s).2.newestFile
      rw [doLog_fs, doLog_newest]
      exact hs

theorem wrapInt_succ (n : Int) (h1 : INT_MIN ≤ n) (h2 : n < INT_MAX) : wrapInt (n + 1) = n + 1 := by
  unfold INT_MIN at h1
  unfold INT_MAX at h2
  unfold wrapInt
  omega

/-- After a successful creation the directory holds the old names and the new one. -/
theorem rotate_ok_names (env : Env) (s : State) (f : File) (hf : s.logFile = some f)
    (h : fileSize s.fs s.logFile > SINGLE_FILE_SIZE)
    (hc : env.canOpen (intString (wrapInt (s.newestFile + 1))) Mode.wPlus = true) (x : Str) :
    x ∈ (rotate env s).2.fs.map (fun e => e.1) ↔
      x = intString (wrapInt (s.newestFile + 1)) ∨ x ∈ s.fs.map (fun e => e.1) := by
  rw [rotate_ok env s f hf h hc]
  simp only
  split
  · rw [mem_names_touch, mem_names_append, mem_names_append, mem_names_create]
    tauto
  · rw [mem_names_append, mem_names_append, mem_names_create]

theorem rotate_ok_logFile (env : Env) (s : State) (f : File) (hf : s.logFile = some f)
    (h : fileSize s.fs s.logFile > SINGLE_FILE_SIZE)
    (hc : env.canOpen (intString (wrapInt (s.newestFile + 1))) Mode.wPlus = true) :
    (rotate env s).2.logFile =
      if env.canOpen (intString (wrapInt (s.newestFile + 1))) Mode.aPlus = true then
        some { name := intString (wrapInt (s.newestFile + 1)), pending := [] }
      else none := by
  rw [rotate_ok env s f hf h hc]

theorem rotate_ok_fst (env : Env) (s : State) (f : File) (hf : s.logFile = some f)
    (h : fileSize s.fs s.logFile > SINGLE_FILE_SIZE)
    (hc : env.canOpen (intString (wrapInt (s.newestFile + 1))) Mode.wPlus = true) :
    (rotate env s).1 = true := by
  rw [rotate_ok env s f hf h hc]

theorem refresh_newest_attained (s : State) :
    (refreshLogFiles s).newestFile = s.newestFile ∨
      ∃ x ∈ s.fs.map (fun e => e.1), (refreshLogFiles s).newestFile = toInt x :=
  scan_snd_attained _ (s.oldestFile, s.newestFile)

/-- A check that gets past the reclamation block and rotates ends with a rescan. -/
theorem newLogFile_of_rotate (nameOf : Str → Str) (env : Env) (s s1 : State) (b : Bool)
    (hr : reclaim nameOf env s = (some b, s1)) (h1 : (rotate env s1).1 = true) :
    newLogFile nameOf env s = refreshLogFiles (rotate env s1).2 := by
  unfold newLogFile
  rw [hr]
  simp only [h1, Bool.or_true, if_true]

/-- The successful rotation on a state whose `newestFile` bounds the directory. -/
theorem rotation_result_of_inv (nameOf : Str → Str) (env : Env) (s s1 : State) (b : Bool)
    (hrange : InRange s) (hsync : s.logFile ≠ none → Synced s)
    (hr : reclaim nameOf env s = (some b, s1))
    (hbig : fileSize s1.fs s1.logFile > SINGLE_FILE_SIZE)
    (hc : env.canOpen (intString (s.newestFile + 1)) Mode.wPlus = true)
    (hmax : s.newestFile < INT_MAX) :
    (∀ e ∈ s.fs, toInt e.1 < s.newestFile + 1) ∧
    fsExists (newLogFile nameOf env s).fs (intString (s.newestFile + 1)) = true ∧
    (newLogFile nameOf env s).logFile =
      (if env.canOpen (intString (s.newestFile + 1)) Mode.aPlus = true then
        some { name := intString (s.newestFile + 1), pending := [] } else none) ∧
    (newLogFile nameOf env s).newestFile = s.newestFile + 1 := by
  obtain ⟨f, hf⟩ := fileSize_pos_some _ _ (Nat.lt_of_le_of_lt (Nat.zero_le _) hbig)
  have hl1 : s1.logFile = s.logFile := by
    have := reclaim_logFile nameOf env s
    rw [hr] at this
    exact this
  have hn1 : s1.newestFile = s.newestFile := by
    have := reclaim_newest nameOf env s
    rw [hr] at this
    exact this
  have hsub : ∀ x ∈ s1.fs.map (fun e => e.1), x ∈ s.fs.map (fun e => e.1) := by
    intro x hx
    have := reclaim_names nameOf env s x
    rw [hr] at this
    exact this hx
  have hs : Synced s := hsync (by rw [← hl1, hf]; simp)
  have hw : wrapInt (s1.newestFile + 1) = s.newestFile + 1 := by
    rw [hn1]
    exact wrapInt_succ _ hrange.1 hmax
  have hc1 : env.canOpen (intString (wrapInt (s1.newestFile + 1))) Mode.wPlus = true := by
    rw [hw]
    exact hc
  have hnames := rotate_ok_names env s1 f hf hbig hc1
  have hlog := rotate_ok_logFile env s1 f hf hbig hc1
  rw [hw] at hlog
  simp only [hw] at hnames
  rw [newLogFile_of_rotate nameOf env s s1 b hr (rotate_ok_fst env s1 f hf hbig hc1)]
  have hti : toInt (intString (s.newestFile + 1)) = s.newestFile + 1 :=
    toInt_intString _ (by have := hrange.1; omega) (by omega)
  refine ⟨?_, ?_, ?_, ?_⟩
  · intro e he
    have := hs e he
    omega
  · rw [refresh_fs, fsExists_iff_mem]
    exact (hnames _).mpr (Or.inl rfl)
  · rw [refresh_logFile]
    exact hlog
  · have hge := (synced_iff _).mp (refresh_synced (rotate env s1).2)
      (intString (s.newestFile + 1)) ((hnames _).mpr (Or.inl rfl))
    rw [hti] at hge
    rcases refresh_newest_attained (rotate env s1).2 with h1 | ⟨x, hx, h1⟩
    · rw [rotate_newest, hn1] at h1
      rw [h1] at hge
      omega
    · rcases (hnames x).mp hx with hx1 | hx1
      · rw [h1, hx1, hti]
      · have h3 := (synced_iff s).mp hs x (hsub x hx1)
        rw [h1] at hge ⊢
        omega

/-- The successful rotation on a reachable state. -/
theorem rotation_result (nameOf : Str → Str) (env : Env) (s s1 : State) (b : Bool)
    (hreach : Reachable nameOf s)
    (hr : reclaim nameOf env s = (some b, s1))
    (hbig : fileSize s1.fs s1.logFile > SINGLE_FILE_SIZE)
    (hc : env.canOpen (intString (s.newestFile + 1)) Mode.wPlus = true)
    (hmax : s.newestFile < INT_MAX) :
    (∀ e ∈ s.fs, toInt e.1 < s.newestFile + 1) ∧
    fsExists (newLogFile nameOf env s).fs (intString (s.newestFile + 1)) = true ∧
    (newLogFile nameOf env s).logFile =
      (if env.canOpen (intString (s.newestFile + 1)) Mode.aPlus = true then
        some { name := intString (s.newestFile + 1), pending := [] } else none) ∧
    (newLogFile nameOf env s).newestFile = s.newestFile + 1 :=
  rotation_result_of_inv nameOf env s s1 b (reachable_inv nameOf s hreach).1
    (reachable_inv nameOf s hreach).2 hr hbig hc hmax

theorem bigText_length : bigText.length = 33000 := by
  unfold bigText
  exact List.length_replicate _ _

theorem begun_eq :
    begun =
      { logFile := some { name := ['0'], pending := [] }, oldestFile := 0, newestFile := 0,
        dirty := false, fs := [(['0'], timeStamp noon)], con := bigText,
        out := [Msg.createFile "/log/0".toList], ticker := some 600 } := by
  rfl

theorem doLog_open (env : Env) (size : Int) (s : State) (f : File) (hf : s.logFile = some f)
    (hx : 0 < s.con.length) (hw : env.written (readLen s.con.length size) = readLen s.con.length size) :
    doLog env size s =
      (((readLen s.con.length size : Nat) : Int),
        { s with
          con := s.con.drop (readLen s.con.length size)
          logFile := some { f with pending := f.pending ++ s.con.take (readLen s.con.length size) }
          dirty := true }) := by
  unfold doLog
  rw [hf]
  simp only [gt_iff_lt, hx, if_true, hw, min_self, ne_eq, not_true_eq_false, if_false]
  congr 3
  rw [List.take_take, min_self]

theorem doLog_all (con : Str) (h : con.length = 33000) (s : State) (f : File)
    (hf : s.logFile = some f) (hcon : s.con = con) :
    (doLog (okEnv 200000) 33000 s).2 =
      { s with con := [], logFile := some { f with pending := f.pending ++ con }, dirty := true } := by
  subst hcon
  have hlen : readLen s.con.length 33000 = 33000 := by
    rw [h]; decide
  have hpos : 0 < s.con.length := by
    rw [h]; decide
  have hw : ∀ n : Nat, (okEnv 200000).written n = n := fun _ => rfl
  rw [doLog_open (okEnv 200000) 33000 s f hf hpos (hw _)]
  have h1 : List.take 33000 s.con = s.con := List.take_of_length_le (le_of_eq h)
  have h2 : List.drop 33000 s.con = [] := List.drop_of_length_le (le_of_eq h)
  simp only [hlen, h1, h2]

theorem fullSegment_eq :
    fullSegment =
      { logFile := some { name := ['0'], pending := bigText }, oldestFile := 0, newestFile := 0,
        dirty := true, fs := [(['0'], timeStamp noon)], con := [],
        out := [Msg.createFile "/log/0".toList], ticker := some 600 } := by
  rw [fullSegment, step, begun_eq,
    doLog_all bigText bigText_length _ { name := ['0'], pending := [] } rfl rfl]
  rfl

theorem fileSize_some (fs : FileSys) (f : File) :
    fileSize fs (some f) = ((fsRead fs f.name).getD []).length + f.pending.length := rfl

theorem fullSegment_reachable : Reachable shortName fullSegment :=
  Reachable.step _ _ (Reachable.step _ _ (Reachable.fresh [] bigText))

theorem fileSize_big (fs : FileSys) (name con : Str) (h : con.length = 33000) :
    fileSize fs (some { name := name, pending := con }) > SINGLE_FILE_SIZE := by
  rw [fileSize_some]
  simp only [h]
  unfold SINGLE_FILE_SIZE
  omega

theorem fullSegment_size : fileSize fullSegment.fs fullSegment.logFile > SINGLE_FILE_SIZE := by
  rw [fullSegment_eq]
  exact fileSize_big _ _ bigText bigText_length

theorem fullSegment_newest : fullSegment.newestFile = 0 := by
  rw [fullSegment_eq]

theorem run_reachable (nameOf : Str → Str) (ops : List Op) :
    ∀ s, Reachable nameOf s → Reachable nameOf (run nameOf ops s) := by
  induction ops with
  | nil => intro s h; exact h
  | cons op ops ih =>
    intro s h
    exact ih (step nameOf s op) (Reachable.step s op h)

/-- C2 as stated fails: an index is assigned to a new segment twice.  On LittleFS
`begin` under space pressure creates segment `0` and the check it runs removes
it (the guard slip); the next `begin` creates segment `0` again.  With a
`File::name()` that gives the path the same happens when the reopen in `begin`
fails: no segment is open, the next check removes segment `0`, and the next
`begin` creates it again.  `getMax` is 0 throughout. -/
theorem begin_reuses_index :
    (run shortName [Op.begin (okEnv 1000) 600, Op.begin (okEnv 200000) 600]
        (State.fresh [] [])).out =
      [Msg.createFile "/log/0".toList, Msg.deleting "/log/0".toList true,
        Msg.createFile "/log/0".toList] ∧
    getMax (run shortName [Op.begin (okEnv 1000) 600] (State.fresh [] [])) = 0 ∧
    fsExists (run shortName [Op.begin (okEnv 1000) 600] (State.fresh [] [])).fs ['0'] = false ∧
    getMax (run shortName [Op.begin (okEnv 1000) 600, Op.begin (okEnv 200000) 600]
        (State.fresh [] [])) = 0 ∧
    fsRead (run shortName [Op.begin (okEnv 1000) 600, Op.begin (okEnv 200000) 600]
        (State.fresh [] [])).fs ['0'] = some (timeStamp noon) ∧
    (run fullPathName [Op.begin noReopenEnv 600, Op.newLogFile (okEnv 1000),
        Op.begin (okEnv 200000) 600] (State.fresh [] [])).out =
      [Msg.createFile "/log/0".toList, Msg.deleting "/log/0".toList true,
        Msg.createFile "/log/0".toList] := by
  decide

/-- C2, amended: over every sequence of `begin`, `newLogFile` and `doLog` calls
`getMax` never decreases; in every reachable state, a rotation check that gets
to the size block, finds the open segment above `SINGLE_FILE_SIZE` and succeeds
in creating the next segment, with `newestFile < INT_MAX`, creates and opens the
segment named `newestFile + 1`, an index above every index in the directory, and
`getMax` is that index afterwards; and the index such a rotation assigns is
above `getMax` and above every index the directory held in any earlier state
with an open segment, so that a rotation below `INT_MAX` never assigns an index
again.  (The segment `begin` creates is named after `getMax`, not after
`getMax + 1`.) -/
theorem segment_ids_monotonic (nameOf : Str → Str) :
    (∀ (ops : List Op) (s : State), getMax s ≤ getMax (run nameOf ops s)) ∧
    (∀ (env : Env) (s s1 : State) (needRefresh : Bool),
      Reachable nameOf s →
      reclaim nameOf env s = (some needRefresh, s1) →
      fileSize s1.fs s1.logFile > SINGLE_FILE_SIZE →
      env.canOpen (intString (s.newestFile + 1)) Mode.wPlus = true →
      s.newestFile < INT_MAX →
      (∀ e ∈ s.fs, toInt e.1 < s.newestFile + 1) ∧
      fsExists (newLogFile nameOf env s).fs (intString (s.newestFile + 1)) = true ∧
      (newLogFile nameOf env s).logFile =
        (if env.canOpen (intString (s.newestFile + 1)) Mode.aPlus = true then
          some { name := intString (s.newestFile + 1), pending := [] } else none) ∧
      getMax (newLogFile nameOf env s) = getMax s + 1) ∧
    (∀ (ops : List Op) (env : Env) (s0 s1 : State) (needRefresh : Bool),
      Reachable nameOf s0 →
      s0.logFile ≠ none →
      reclaim nameOf env (run nameOf ops s0) = (some needRefresh, s1) →
      fileSize s1.fs s1.logFile > SINGLE_FILE_SIZE →
      env.canOpen (intString ((run nameOf ops s0).newestFile + 1)) Mode.wPlus = true →
      (run nameOf ops s0).newestFile < INT_MAX →
      getMax s0 < getMax (newLogFile nameOf env (run nameOf ops s0)) ∧
      ∀ e ∈ s0.fs, toInt e.1 < getMax (newLogFile nameOf env (run nameOf ops s0)) ∧
        e.1 ≠ intString (getMax (newLogFile nameOf env (run nameOf ops s0)))) := by
  refine ⟨fun ops s => run_newest_ge nameOf ops s,
    fun env s s1 b hreach hr hbig hc hmax =>
      rotation_result nameOf env s s1 b hreach hr hbig hc hmax, ?_⟩
  intro ops env s0 s1 b hreach hopen hr hbig hc hmax
  have hreach1 := run_reachable nameOf ops s0 hreach
  obtain ⟨_, _, _, hnew⟩ := rotation_result nameOf env _ s1 b hreach1 hr hbig hc hmax
  have hmono : s0.newestFile ≤ (run nameOf ops s0).newestFile := run_newest_ge nameOf ops s0
  have hsync : Synced s0 := (reachable_inv nameOf s0 hreach).2 hopen
  have hrange := (reachable_inv nameOf _ hreach1).1
  have hk : getMax (newLogFile nameOf env (run nameOf ops s0)) =
      (run nameOf ops s0).newestFile + 1 := hnew
  rw [hk]
  refine ⟨by unfold getMax; omega, ?_⟩
  intro e he
  have hle := hsync e he
  refine ⟨by omega, ?_⟩
  intro heq
  have ht : toInt e.1 = (run nameOf ops s0).newestFile + 1 := by
    rw [heq]
    apply toInt_intString
    · unfold InRange INT_MIN at hrange
      unfold INT_MIN
      omega
    · unfold INT_MAX at hmax ⊢
      omega
  omega

theorem run_single (nameOf : Str → Str) (op : Op) (s : State) :
    run nameOf [op] s = step nameOf s op := rfl

theorem run_doLog_begun : run shortName [Op.doLog (okEnv 200000) 33000] begun = fullSegment := by
  rw [run_single, fullSegment]

theorem segment_ids_monotonic_witness :
    Reachable shortName fullSegment ∧
    reclaim shortName (okEnv 200000) fullSegment = (some false, fullSegment) ∧
    fileSize fullSegment.fs fullSegment.logFile > SINGLE_FILE_SIZE ∧
    fullSegment.newestFile < INT_MAX ∧
    getMax (newLogFile shortName (okEnv 200000) fullSegment) = getMax fullSegment + 1 ∧
    run shortName [Op.doLog (okEnv 200000) 33000] begun = fullSegment ∧
    begun.logFile ≠ none ∧
    getMax begun < getMax (newLogFile shortName (okEnv 200000)
      (run shortName [Op.doLog (okEnv 200000) 33000] begun)) :=
  ⟨fullSegment_reachable,
    reclaim_enough shortName (okEnv 200000) fullSegment (by decide),
    fullSegment_size,
    by rw [fullSegment_newest]; decide,
    ((segment_ids_monotonic shortName).2.1 (okEnv 200000) fullSegment fullSegment false
      fullSegment_reachable
      (reclaim_enough shortName (okEnv 200000) fullSegment (by decide))
      fullSegment_size rfl (by rw [fullSegment_newest]; decide)).2.2.2,
    run_doLog_begun,
    by rw [begun_eq]; simp,
    ((segment_ids_monotonic shortName).2.2 [Op.doLog (okEnv 200000) 33000] (okEnv 200000)
      begun fullSegment false (Reachable.step _ _ (Reachable.fresh [] bigText))
      (by rw [begun_eq]; simp)
      (by rw [run_doLog_begun]; exact reclaim_enough shortName (okEnv 200000) fullSegment (by decide))
      fullSegment_size
      (by rw [run_doLog_begun]; rfl)
      (by rw [run_doLog_begun, fullSegment_newest]; decide)).1⟩

/-! ### The size rotation and the previous segment -/

/-- What a successful rotation leaves under the name of the segment it closes:
the committed bytes, the buffered bytes, and one marker. -/
theorem rotate_ok_previous (env : Env) (s : State) (f : File) (hf : s.logFile = some f)
    (hnew : f.name ≠ intString (wrapInt (s.newestFile + 1)))
    (h : fileSize s.fs s.logFile > SINGLE_FILE_SIZE)
    (hc : env.canOpen (intString (wrapInt (s.newestFile + 1))) Mode.wPlus = true) :
    fsRead (rotate env s).2.fs f.name =
      (fsRead s.fs f.name).map (fun c => c ++ (f.pending ++ marker env)) := by
  rw [rotate_ok env s f hf h hc]
  simp only
  split
  · rw [fsRead_touch, if_neg hnew, fsRead_append, if_neg hnew, fsRead_append, if_pos rfl,
      fsRead_create, if_neg hnew]
  · rw [fsRead_append, if_neg hnew, fsRead_append, if_pos rfl, fsRead_create, if_neg hnew]

theorem fsRead_of_exists (fs : FileSys) (n : Str) (h : fsExists fs n = true) :
    fsRead fs n = some ((fsRead fs n).getD []) := by
  rw [fsExists_eq_isSome] at h
  cases hr : fsRead fs n with
  | none => rw [hr] at h; simp at h
  | some c => rfl

/-- The size block on the state the reclamation block hands over. -/
theorem rotate_after_reclaim (env : Env) (s s1 : State) (f : File)
    (hf : s.logFile = some f) (hf1 : s1.logFile = some f)
    (hread : fsRead s1.fs f.name = fsRead s.fs f.name)
    (hn : s1.newestFile = s.newestFile)
    (hex : fsExists s.fs f.name = true)
    (hnew : f.name ≠ intString (wrapInt (s.newestFile + 1)))
    (hbig : fileSize s.fs s.logFile > SINGLE_FILE_SIZE)
    (hc : env.canOpen (intString (wrapInt (s.newestFile + 1))) Mode.wPlus = true) :
    (rotate env s1).1 = true ∧
      fsRead (refreshLogFiles (rotate env s1).2).fs f.name =
        some (contentOf s f.name ++ marker env) ∧
      (refreshLogFiles (rotate env s1).2).logFile =
        (if env.canOpen (intString (wrapInt (s.newestFile + 1))) Mode.aPlus = true then
          some { name := intString (wrapInt (s.newestFile + 1)), pending := [] }
        else none) ∧
      (refreshLogFiles (rotate env s1).2).dirty = false := by
  have hcontent : contentOf s f.name = (fsRead s.fs f.name).getD [] ++ f.pending := by
    simp [contentOf, hf]
  have hbig1 : fileSize s1.fs s1.logFile > SINGLE_FILE_SIZE := by
    rw [hf1, fileSize_some, hread]
    rw [hf, fileSize_some] at hbig
    exact hbig
  rw [← hn] at hnew hc
  refine ⟨rotate_ok_fst env s1 f hf1 hbig1 hc, ?_, ?_, ?_⟩
  · rw [refresh_fs, rotate_ok_previous env s1 f hf1 hnew hbig1 hc, hread,
      fsRead_of_exists _ _ hex, hcontent]
    simp
  · rw [refresh_logFile, rotate_ok_logFile env s1 f hf1 hbig1 hc, hn]
  · rw [refresh_dirty, rotate_ok env s1 f hf1 hbig1 hc]

/-- The check as a whole, when the reclamation block lets the open segment be. -/
theorem newLogFile_rotation (nameOf : Str → Str) (env : Env) (s : State) (f : File)
    (hf : s.logFile = some f)
    (hex : fsExists s.fs f.name = true)
    (hnew : f.name ≠ intString (wrapInt (s.newestFile + 1)))
    (hrec : ¬ env.freeSpace < KEEP_SPACE ∨
      (isCurrent nameOf s (logDir ++ intString s.oldestFile) = false ∧
        intString s.oldestFile ≠ f.name))
    (hbig : fileSize s.fs s.logFile > SINGLE_FILE_SIZE)
    (hc : env.canOpen (intString (wrapInt (s.newestFile + 1))) Mode.wPlus = true) :
    fsRead (newLogFile nameOf env s).fs f.name =
        some (contentOf s f.name ++ marker env) ∧
      (newLogFile nameOf env s).logFile =
        (if env.canOpen (intString (wrapInt (s.newestFile + 1))) Mode.aPlus = true then
          some { name := intString (wrapInt (s.newestFile + 1)), pending := [] }
        else none) ∧
      (newLogFile nameOf env s).dirty = false := by
  by_cases hfree : env.freeSpace < KEEP_SPACE
  · rcases hrec with hfree2 | ⟨hcur, hold⟩
    · exact absurd hfree hfree2
    · have hr := reclaim_delete nameOf env s hfree hcur
      have hne : ¬ f.name = intString s.oldestFile := fun h => hold h.symm
      have hread : fsRead (fsRemove s.fs (intString s.oldestFile)) f.name = fsRead s.fs f.name := by
        rw [fsRead_remove, if_neg hne]
      have h := rotate_after_reclaim env s
        (say (Msg.deleting (logDir ++ intString s.oldestFile)
            (fsExists s.fs (intString s.oldestFile)))
          { s with fs := fsRemove s.fs (intString s.oldestFile) })
        f hf hf hread rfl hex hnew hbig hc
      rw [newLogFile_of_rotate nameOf env s _ true hr h.1]
      exact h.2
  · have hr := reclaim_enough nameOf env s hfree
    have h := rotate_after_reclaim env s s f hf hf rfl rfl hex hnew hbig hc
    rw [newLogFile_of_rotate nameOf env s s false hr h.1]
    exact h.2

theorem wrapInt_range (x : Int) : INT_MIN ≤ wrapInt x ∧ wrapInt x ≤ INT_MAX := by
  unfold wrapInt INT_MIN INT_MAX
  omega

theorem wrapInt_succ_ne (n : Int) : wrapInt (n + 1) ≠ n := by
  unfold wrapInt
  omega

/-- The name of the next segment differs from the name of the newest one. -/
theorem next_name_ne (s : State) (h : InRange s) :
    intString s.newestFile ≠ intString (wrapInt (s.newestFile + 1)) := by
  intro heq
  have := intString_injective _ _ h.1 h.2 (wrapInt_range _).1 (wrapInt_range _).2 heq
  exact wrapInt_succ_ne _ this.symm

theorem timeStamp_ne_nil (t : Tm) : timeStamp t ≠ [] := by
  simp [timeStamp]

/-- C3 as stated fails (Scenario B, free space above the floor): segment `0` holds a
marker and 33000 bytes; the rotation writes one more marker into it before
closing it, so what is stored under `0` afterwards is not what it held. -/
theorem rotation_appends_marker :
    contentOf fullSegment ['0'] = timeStamp noon ++ bigText ∧
    fileSize fullSegment.fs fullSegment.logFile > SINGLE_FILE_SIZE ∧
    fsRead (newLogFile shortName (okEnv 200000) fullSegment).fs ['0'] =
      some (timeStamp noon ++ bigText ++ timeStamp noon) ∧
    fsRead (newLogFile shortName (okEnv 200000) fullSegment).fs ['0'] ≠
      some (contentOf fullSegment ['0']) := by
  have hf : fullSegment.logFile = some { name := ['0'], pending := bigText } := by
    rw [fullSegment_eq]
  have hc : contentOf fullSegment ['0'] = timeStamp noon ++ bigText := by
    rw [fullSegment_eq]
    rfl
  have h := (newLogFile_rotation shortName (okEnv 200000) fullSegment
    { name := ['0'], pending := bigText } hf
    (by rw [fullSegment_eq]; decide)
    (by rw [fullSegment_newest]; decide)
    (Or.inl (by decide)) fullSegment_size rfl).1
  rw [marker_okEnv] at h
  refine ⟨hc, fullSegment_size, ?_, ?_⟩
  · rw [h, hc]
  · rw [h]
    intro heq
    have h2 := Option.some.inj heq
    exact timeStamp_ne_nil noon (List.append_right_eq_self.mp h2)

/-- C3, amended: when the open segment is the newest one and its file exists, the
reclamation block neither ends the check nor removes the open segment (free
space is at least `KEEP_SPACE`, or the guard does not match and `oldestFile` is
not the open segment's index), the open segment is larger than
`SINGLE_FILE_SIZE` and the next segment can be created, then `newLogFile` closes
the previous segment and what is stored under its name afterwards is everything
it held before (committed and buffered bytes) followed by what `File::write`
took of the one timestamp marker the rotation prints into it, the whole marker
when that write is complete; the handle now belongs to the next segment (or is
null when the reopen failed) and `dirty` is false. -/
theorem rotation_closes_previous (nameOf : Str → Str) (env : Env) (s : State) (f : File)
    (hf : s.logFile = some f)
    (hex : fsExists s.fs f.name = true)
    (hnewest : f.name = intString s.newestFile)
    (hrange : InRange s)
    (hrec : ¬ env.freeSpace < KEEP_SPACE ∨
      (isCurrent nameOf s (logDir ++ intString s.oldestFile) = false ∧
        intString s.oldestFile ≠ f.name))
    (hbig : fileSize s.fs s.logFile > SINGLE_FILE_SIZE)
    (hc : env.canOpen (intString (wrapInt (s.newestFile + 1))) Mode.wPlus = true) :
    fsRead (newLogFile nameOf env s).fs f.name =
        some (contentOf s f.name ++
          (timeStamp env.now).take (env.written (timeStamp env.now).length)) ∧
      ((timeStamp env.now).length ≤ env.written (timeStamp env.now).length →
        fsRead (newLogFile nameOf env s).fs f.name =
          some (contentOf s f.name ++ timeStamp env.now)) ∧
      (newLogFile nameOf env s).logFile =
        (if env.canOpen (intString (wrapInt (s.newestFile + 1))) Mode.aPlus = true then
          some { name := intString (wrapInt (s.newestFile + 1)), pending := [] }
        else none) ∧
      (newLogFile nameOf env s).dirty = false := by
  obtain ⟨h1, h2, h3⟩ :=
    newLogFile_rotation nameOf env s f hf hex (hnewest ▸ next_name_ne s hrange) hrec hbig hc
  refine ⟨?_, ?_, h2, h3⟩
  · rw [h1, marker_eq_take]
  · intro hw
    rw [h1, marker_of_complete env hw]

theorem fullSegment_logFile :
    fullSegment.logFile = some { name := ['0'], pending := bigText } := by
  rw [fullSegment_eq]

theorem fullSegment_inRange : InRange fullSegment := by
  unfold InRange
  rw [fullSegment_newest]
  decide

theorem rotation_closes_previous_witness :
    fileSize fullSegment.fs fullSegment.logFile > SINGLE_FILE_SIZE ∧
    fsRead (newLogFile shortName (okEnv 200000) fullSegment).fs ['0'] =
      some (contentOf fullSegment ['0'] ++ timeStamp noon) :=
  ⟨fullSegment_size,
    (rotation_closes_previous shortName (okEnv 200000) fullSegment
      { name := ['0'], pending := bigText } fullSegment_logFile
      (by rw [fullSegment_eq]; decide)
      (by rw [fullSegment_newest]; decide)
      fullSegment_inRange (Or.inl (by decide)) fullSegment_size rfl).2.1 (le_refl _)⟩

/-! ### The idle flush and the failed rotation -/

/-- The size block when the open segment is small and `dirty` is set. -/
theorem idle_after_reclaim (env : Env) (s s1 : State) (f : File)
    (hf : s.logFile = some f) (hf1 : s1.logFile = some f)
    (hread : fsRead s1.fs f.name = fsRead s.fs f.name)
    (hd : s1.dirty = true)
    (hex : fsExists s.fs f.name = true)
    (hsmall : ¬ fileSize s.fs s.logFile > SINGLE_FILE_SIZE) :
    (rotate env s1).1 = false ∧
      (rotate env s1).2.dirty = false ∧
      (rotate env s1).2.logFile = some { name := f.name, pending := [] } ∧
      fsRead (rotate env s1).2.fs f.name = some (contentOf s f.name ++ marker env) := by
  have hcontent : contentOf s f.name = (fsRead s.fs f.name).getD [] ++ f.pending := by
    simp [contentOf, hf]
  have hsmall1 : ¬ fileSize s1.fs s1.logFile > SINGLE_FILE_SIZE := by
    rw [hf1, fileSize_some, hread]
    rw [hf, fileSize_some] at hsmall
    exact hsmall
  rw [rotate_small env s1 hsmall1, if_pos hd]
  refine ⟨rfl, rfl, ?_, ?_⟩
  · simp [flushFile, printTime, hf1, fileWrite, flushed]
  · simp only [flushFile, printTime, hf1, fileWrite, commit]
    rw [fsRead_append, if_pos rfl, hread, fsRead_of_exists _ _ hex, hcontent]
    simp

/-- The check as a whole when the open segment is small and `dirty` is set. -/
theorem newLogFile_idle (nameOf : Str → Str) (env : Env) (s : State) (f : File)
    (hf : s.logFile = some f)
    (hd : s.dirty = true)
    (hex : fsExists s.fs f.name = true)
    (hrec : ¬ env.freeSpace < KEEP_SPACE ∨
      (isCurrent nameOf s (logDir ++ intString s.oldestFile) = false ∧
        intString s.oldestFile ≠ f.name))
    (hsmall : ¬ fileSize s.fs s.logFile > SINGLE_FILE_SIZE) :
    (newLogFile nameOf env s).dirty = false ∧
      (newLogFile nameOf env s).logFile = some { name := f.name, pending := [] } ∧
      fsRead (newLogFile nameOf env s).fs f.name =
        some (contentOf s f.name ++ marker env) := by
  by_cases hfree : env.freeSpace < KEEP_SPACE
  · rcases hrec with hfree2 | ⟨hcur, hold⟩
    · exact absurd hfree hfree2
    · have hr := reclaim_delete nameOf env s hfree hcur
      have hne : ¬ f.name = intString s.oldestFile := fun h => hold h.symm
      have hread : fsRead (fsRemove s.fs (intString s.oldestFile)) f.name = fsRead s.fs f.name := by
        rw [fsRead_remove, if_neg hne]
      have h := idle_after_reclaim env s
        (say (Msg.deleting (logDir ++ intString s.oldestFile)
            (fsExists s.fs (intString s.oldestFile)))
          { s with fs := fsRemove s.fs (intString s.oldestFile) })
        f hf hf hread hd hex hsmall
      unfold newLogFile
      rw [hr]
      simp only [Bool.true_or, if_true, refresh_dirty, refresh_logFile, refresh_fs]
      exact h.2
  · have hr := reclaim_enough nameOf env s hfree
    have h := idle_after_reclaim env s s f hf hf rfl hd hex hsmall
    unfold newLogFile
    rw [hr]
    simp only [h.1, Bool.or_self, Bool.false_eq_true, if_false]
    exact h.2

/-- The size block when the next segment cannot be created. -/
theorem fail_after_reclaim (env : Env) (s s1 : State) (f : File)
    (hf : s.logFile = some f) (hf1 : s1.logFile = some f)
    (hread : fsRead s1.fs f.name = fsRead s.fs f.name)
    (hn : s1.newestFile = s.newestFile)
    (hex : fsExists s.fs f.name = true)
    (hbig : fileSize s.fs s.logFile > SINGLE_FILE_SIZE)
    (hc : env.canOpen (intString (wrapInt (s.newestFile + 1))) Mode.wPlus = false) :
    (rotate env s1).1 = false ∧
      (rotate env s1).2.dirty = s1.dirty ∧
      (rotate env s1).2.logFile = some { name := f.name, pending := [] } ∧
      fsRead (rotate env s1).2.fs f.name = some (contentOf s f.name ++ marker env) ∧
      (rotate env s1).2.fs.map (fun e => e.1) = s1.fs.map (fun e => e.1) := by
  have hcontent : contentOf s f.name = (fsRead s.fs f.name).getD [] ++ f.pending := by
    simp [contentOf, hf]
  have hbig1 : fileSize s1.fs s1.logFile > SINGLE_FILE_SIZE := by
    rw [hf1, fileSize_some, hread]
    rw [hf, fileSize_some] at hbig
    exact hbig
  rw [← hn] at hc
  rw [rotate_fail env s1 hbig1 hc]
  refine ⟨rfl, rfl, ?_, ?_, ?_⟩
  · simp [say, flushFile, printTime, hf1, fileWrite, flushed]
  · simp only [say, flushFile, printTime, hf1, fileWrite, commit]
    rw [fsRead_append, if_pos rfl, hread, fsRead_of_exists _ _ hex, hcontent]
    simp
  · simp only [say, flushFile, printTime, names_commit]

/-- C4 as stated fails: segment `0` is open, dirty and above `SINGLE_FILE_SIZE`, free
space is plentiful and the next segment cannot be created.  The check deletes
nothing and does not rotate (segment `0` stays the open one and the only file),
yet `dirty` is still true when it returns. -/
theorem failed_rotation_keeps_dirty :
    fullSegment.dirty = true ∧
    fullSegment.logFile = some { name := ['0'], pending := bigText } ∧
    (newLogFile shortName noCreateEnv fullSegment).logFile =
      some { name := ['0'], pending := [] } ∧
    (newLogFile shortName noCreateEnv fullSegment).fs.map (fun e => e.1) = [['0']] ∧
    (newLogFile shortName noCreateEnv fullSegment).dirty = true := by
  have hr := reclaim_enough shortName noCreateEnv fullSegment (by decide)
  have h := fail_after_reclaim noCreateEnv fullSegment fullSegment
    { name := ['0'], pending := bigText } fullSegment_logFile fullSegment_logFile rfl rfl
    (by rw [fullSegment_eq]; decide) fullSegment_size rfl
  have hnl : newLogFile shortName noCreateEnv fullSegment = (rotate noCreateEnv fullSegment).2 := by
    unfold newLogFile
    rw [hr]
    simp only [h.1, Bool.or_self, Bool.false_eq_true, if_false]
  rw [hnl]
  refine ⟨by rw [fullSegment_eq], fullSegment_logFile, h.2.2.1, ?_, ?_⟩
  · rw [h.2.2.2.2, fullSegment_eq]
    rfl
  · rw [h.2.1, fullSegment_eq]

/-- C4, amended: for a state with an open segment whose file exists and `dirty`
set, if the reclamation block neither ends the check nor removes the open
segment (free space is at least `KEEP_SPACE`, or the guard does not match and
`oldestFile` is not the open segment's index) and the open segment is not larger
than `SINGLE_FILE_SIZE`, then when `newLogFile` returns `dirty` is false, the same
segment is open with nothing left to commit, and what is stored under its name
is everything it held (committed and buffered bytes) followed by what
`File::write` took of one timestamp marker, the whole marker when that write is
complete. -/
theorem idle_commit (nameOf : Str → Str) (env : Env) (s : State) (f : File)
    (hf : s.logFile = some f)
    (hd : s.dirty = true)
    (hex : fsExists s.fs f.name = true)
    (hrec : ¬ env.freeSpace < KEEP_SPACE ∨
      (isCurrent nameOf s (logDir ++ intString s.oldestFile) = false ∧
        intString s.oldestFile ≠ f.name))
    (hsmall : ¬ fileSize s.fs s.logFile > SINGLE_FILE_SIZE) :
    (newLogFile nameOf env s).dirty = false ∧
      (newLogFile nameOf env s).logFile = some { name := f.name, pending := [] } ∧
      isFlushed (newLogFile nameOf env s) = true ∧
      fsRead (newLogFile nameOf env s).fs f.name =
        some (contentOf s f.name ++
          (timeStamp env.now).take (env.written (timeStamp env.now).length)) ∧
      ((timeStamp env.now).length ≤ env.written (timeStamp env.now).length →
        fsRead (newLogFile nameOf env s).fs f.name =
          some (contentOf s f.name ++ timeStamp env.now)) := by
  obtain ⟨h1, h2, h3⟩ := newLogFile_idle nameOf env s f hf hd hex hrec hsmall
  refine ⟨h1, h2, ?_, ?_, ?_⟩
  · simp [isFlushed, h2]
  · rw [h3, marker_eq_take]
  · intro hw
    rw [h3, marker_of_complete env hw]

theorem idle_commit_witness :
    smallDirty.dirty = true ∧
    ¬ fileSize smallDirty.fs smallDirty.logFile > SINGLE_FILE_SIZE ∧
    (newLogFile shortName (okEnv 200000) smallDirty).dirty = false ∧
    fsRead (newLogFile shortName (okEnv 200000) smallDirty).fs ['0'] =
      some (contentOf smallDirty ['0'] ++ timeStamp noon) ∧
    fsRead (newLogFile shortName fullDiskEnv smallDirty).fs ['0'] =
      some "boot ok\nhello".toList :=
  ⟨rfl, by decide,
    (idle_commit shortName (okEnv 200000) smallDirty { name := ['0'], pending := "hello".toList }
      rfl rfl (by decide) (Or.inl (by decide)) (by decide)).1,
    (idle_commit shortName (okEnv 200000) smallDirty { name := ['0'], pending := "hello".toList }
      rfl rfl (by decide) (Or.inl (by decide)) (by decide)).2.2.2.2 (le_refl _),
    (idle_commit shortName fullDiskEnv smallDirty { name := ['0'], pending := "hello".toList }
      rfl rfl (by decide) (Or.inl (by decide)) (by decide)).2.2.2.1⟩

/-- C7 (Scenario A) fails on the code: on LittleFS with free space below
`KEEP_SPACE`, `begin` on an empty directory creates segment `0`, and the
rotation check it runs right away removes it (the guard compares the short name
`0` with `/log/0`): `begin` returns true, but no segment `0` exists afterwards.
With free space above the floor the scenario holds. -/
theorem begin_removes_fresh_segment :
    (begin shortName (okEnv 1000) 600 (State.fresh [] [])).1 = true ∧
    (begin shortName (okEnv 1000) 600 (State.fresh [] [])).2.logFile =
      some { name := ['0'], pending := [] } ∧
    (begin shortName (okEnv 1000) 600 (State.fresh [] [])).2.out =
      [Msg.createFile "/log/0".toList, Msg.deleting "/log/0".toList true] ∧
    fsExists (begin shortName (okEnv 1000) 600 (State.fresh [] [])).2.fs ['0'] = false ∧
    fsRead (begin shortName (okEnv 200000) 600 (State.fresh [] [])).2.fs ['0'] =
      some (timeStamp noon) ∧
    getMin (begin shortName (okEnv 200000) 600 (State.fresh [] [])).2 = 0 ∧
    getMax (begin shortName (okEnv 200000) 600 (State.fresh [] [])).2 = 0 := by
  decide

/-- C8 as stated fails: when the file can be created but the reopen for append
fails, `begin` still returns true and no segment is open. -/
theorem begin_true_without_segment :
    (begin shortName noReopenEnv 600 (State.fresh [] [])).1 = true ∧
    (begin shortName noReopenEnv 600 (State.fresh [] [])).2.logFile = none ∧
    (begin fullPathName noReopenEnv 600 (State.fresh [] [])).1 = true ∧
    (begin fullPathName noReopenEnv 600 (State.fresh [] [])).2.logFile = none := by
  decide

/-- C8, amended: `begin` returns false exactly when its first `open` of the newest
segment fails: the open for append when the segment exists, the creation when
it does not.  (The reopen after the marker and the opens of the rotation check
are not tested.) -/
theorem begin_false_iff (nameOf : Str → Str) (env : Env) (n : Nat) (s : State) :
    (begin nameOf env n s).1 = false ↔
      env.canOpen (intString (beginScan s).newestFile)
        (if fsExists (beginScan s).fs (intString (beginScan s).newestFile) = true
          then Mode.aPlus else Mode.wPlus) = false := by
  unfold begin
  simp only
  by_cases hex : fsExists (beginScan s).fs (intString (beginScan s).newestFile) = true
  · rw [if_pos hex, if_pos hex]
    by_cases hc : env.canOpen (intString (beginScan s).newestFile) Mode.aPlus = true
    · simp [fsOpen, hc]
    · simp [fsOpen, hc]
  · rw [if_neg hex, if_neg hex]
    by_cases hc : env.canOpen (intString (beginScan s).newestFile) Mode.wPlus = true
    · simp [fsOpen, hc]
    · simp [fsOpen, hc]

/-- C9 as stated fails: segment `0` is the oldest and the open one, with buffered
bytes and `dirty` set.  When `File::name()` gives the path, the check under
space pressure refuses and returns with `dirty` still set and nothing flushed,
while with enough free space it flushes and clears `dirty`; when `File::name()`
gives the short name nothing is refused and the segment is removed. -/
theorem refusal_skips_later_steps :
    (newLogFile fullPathName (okEnv 1000) smallDirty).out = [Msg.cannotDelete] ∧
    (newLogFile fullPathName (okEnv 1000) smallDirty).dirty = true ∧
    fsRead (newLogFile fullPathName (okEnv 1000) smallDirty).fs ['0'] =
      some "boot ok\n".toList ∧
    (newLogFile fullPathName (okEnv 200000) smallDirty).dirty = false ∧
    fsRead (newLogFile fullPathName (okEnv 200000) smallDirty).fs ['0'] =
      some ("boot ok\nhello".toList ++ timeStamp noon) ∧
    (newLogFile shortName (okEnv 1000) smallDirty).out = [Msg.deleting "/log/0".toList true] ∧
    fsRead (newLogFile shortName (okEnv 1000) smallDirty).fs ['0'] = none := by
  decide

/-- C9, amended: when free space is below `KEEP_SPACE` and the guard finds that
the file to delete is the open one, `newLogFile` prints the warning and returns
at once: no size rotation, no idle flush, no rescan; the open segment, the dirty
flag, the directory and its contents, `oldestFile` and `newestFile` are what
they were. -/
theorem refusal_returns_at_once (nameOf : Str → Str) (env : Env) (s : State)
    (hfree : env.freeSpace < KEEP_SPACE)
    (hcur : isCurrent nameOf s (logDir ++ intString s.oldestFile) = true) :
    newLogFile nameOf env s = { s with out := s.out ++ [Msg.cannotDelete] } := by
  unfold newLogFile
  rw [reclaim_refuse nameOf env s hfree hcur]
  rfl

theorem refusal_returns_at_once_witness :
    (okEnv 1000).freeSpace < KEEP_SPACE ∧
    isCurrent fullPathName smallDirty (logDir ++ intString smallDirty.oldestFile) = true ∧
    newLogFile fullPathName (okEnv 1000) smallDirty =
      { smallDirty with out := smallDirty.out ++ [Msg.cannotDelete] } :=
  ⟨by decide, by decide,
    refusal_returns_at_once fullPathName (okEnv 1000) smallDirty (by decide) (by decide)⟩

/-- The check as a whole when the next segment cannot be created. -/
theorem newLogFile_fail (nameOf : Str → Str) (env : Env) (s : State) (f : File)
    (hf : s.logFile = some f)
    (hex : fsExists s.fs f.name = true)
    (hsync : Synced s)
    (hrec : ¬ env.freeSpace < KEEP_SPACE ∨
      (isCurrent nameOf s (logDir ++ intString s.oldestFile) = false ∧
        intString s.oldestFile ≠ f.name))
    (hbig : fileSize s.fs s.logFile > SINGLE_FILE_SIZE)
    (hc : env.canOpen (intString (wrapInt (s.newestFile + 1))) Mode.wPlus = false) :
    (newLogFile nameOf env s).logFile = some { name := f.name, pending := [] } ∧
      fsRead (newLogFile nameOf env s).fs f.name =
        some (contentOf s f.name ++ marker env) ∧
      (newLogFile nameOf env s).newestFile = s.newestFile ∧
      (newLogFile nameOf env s).dirty = s.dirty := by
  by_cases hfree : env.freeSpace < KEEP_SPACE
  · rcases hrec with hfree2 | ⟨hcur, hold⟩
    · exact absurd hfree hfree2
    · have hr := reclaim_delete nameOf env s hfree hcur
      have hne : ¬ f.name = intString s.oldestFile := fun h => hold h.symm
      have hread : fsRead (fsRemove s.fs (intString s.oldestFile)) f.name = fsRead s.fs f.name := by
        rw [fsRead_remove, if_neg hne]
      have h := fail_after_reclaim env s
        (say (Msg.deleting (logDir ++ intString s.oldestFile)
            (fsExists s.fs (intString s.oldestFile)))
          { s with fs := fsRemove s.fs (intString s.oldestFile) })
        f hf hf hread rfl hex hbig hc
      have hs2 : Synced (rotate env
          (say (Msg.deleting (logDir ++ intString s.oldestFile)
            (fsExists s.fs (intString s.oldestFile)))
          { s with fs := fsRemove s.fs (intString s.oldestFile) })).2 := by
        rw [synced_iff, h.2.2.2.2, rotate_newest]
        intro x hx
        exact (synced_iff s).mp hsync x ((mem_names_remove _ _ _).mp hx).2
      unfold newLogFile
      rw [hr]
      simp only [Bool.true_or, if_true, refresh_dirty, refresh_logFile, refresh_fs]
      refine ⟨h.2.2.1, h.2.2.2.1, ?_, h.2.1⟩
      rw [refresh_newest_of_synced _ hs2, rotate_newest]
      rfl
  · have hr := reclaim_enough nameOf env s hfree
    have h := fail_after_reclaim env s s f hf hf rfl rfl hex hbig hc
    unfold newLogFile
    rw [hr]
    simp only [h.1, Bool.or_self, Bool.false_eq_true, if_false]
    exact ⟨h.2.2.1, h.2.2.2.1, rotate_newest env s, h.2.1⟩

/-- The check that refuses the deletion returns with the warning only. -/
theorem newLogFile_refuse (nameOf : Str → Str) (env : Env) (s : State)
    (hfree : env.freeSpace < KEEP_SPACE)
    (hcur : isCurrent nameOf s (logDir ++ intString s.oldestFile) = true) :
    newLogFile nameOf env s = say Msg.cannotDelete s := by
  unfold newLogFile
  rw [reclaim_refuse nameOf env s hfree hcur]

theorem isFlushed_false (s : State) (f : File) (h : s.logFile = some f) (hp : f.pending ≠ []) :
    isFlushed s = false := by
  unfold isFlushed
  rw [h]
  simpa using hp

theorem say_logFile (m : Msg) (s : State) : (say m s).logFile = s.logFile := rfl

theorem say_fs (m : Msg) (s : State) : (say m s).fs = s.fs := rfl

theorem bigText_ne_nil : bigText ≠ [] := by
  intro h
  have := bigText_length
  rw [h] at this
  simp at this

/-- Under space pressure, when the guard does not match although the oldest
segment is the open one, and the next segment cannot be created, nothing is
left under the name of the open segment. -/
theorem newLogFile_loses_open (nameOf : Str → Str) (env : Env) (s : State) (f : File)
    (hf : s.logFile = some f)
    (hfree : env.freeSpace < KEEP_SPACE)
    (hcur : isCurrent nameOf s (logDir ++ intString s.oldestFile) = false)
    (hold : intString s.oldestFile = f.name)
    (hbig : f.pending.length > SINGLE_FILE_SIZE)
    (hc : env.canOpen (intString (wrapInt (s.newestFile + 1))) Mode.wPlus = false) :
    fsRead (newLogFile nameOf env s).fs f.name = none := by
  have hbig1 : fileSize (say (Msg.deleting (logDir ++ intString s.oldestFile)
      (fsExists s.fs (intString s.oldestFile)))
      { s with fs := fsRemove s.fs (intString s.oldestFile) }).fs
      (say (Msg.deleting (logDir ++ intString s.oldestFile)
      (fsExists s.fs (intString s.oldestFile)))
      { s with fs := fsRemove s.fs (intString s.oldestFile) }).logFile > SINGLE_FILE_SIZE := by
    rw [say_logFile]
    simp only [hf, fileSize_some]
    omega
  unfold newLogFile
  rw [reclaim_delete nameOf env s hfree hcur]
  simp only [Bool.true_or, if_true, refresh_fs]
  rw [rotate_fail env _ hbig1 hc, say_fs]
  cases hread : fsRead (flushFile (printTime env (say (Msg.deleting (logDir ++ intString s.oldestFile)
      (fsExists s.fs (intString s.oldestFile)))
      { s with fs := fsRemove s.fs (intString s.oldestFile) }))).fs f.name with
  | none => rfl
  | some c =>
    exfalso
    have hex : fsExists (flushFile (printTime env (say (Msg.deleting
        (logDir ++ intString s.oldestFile) (fsExists s.fs (intString s.oldestFile)))
        { s with fs := fsRemove s.fs (intString s.oldestFile) }))).fs f.name = true := by
      rw [fsExists_eq_isSome, hread]
      rfl
    rw [fsExists_iff_mem] at hex
    simp only [flushFile, names_commit, printTime, say_fs] at hex
    exact ((mem_names_remove _ _ _).mp hex).1 hold.symm

/-- C10 as stated fails: segment `0` is the oldest and the open one, holds more than
`SINGLE_FILE_SIZE` bytes still buffered, free space is short and the next
segment cannot be created.  When `File::name()` gives the path the check
refuses the deletion and returns before the size block, so the segment has not
been flushed.  With the `File::name()` of LittleFS the guard does not match, the
file of the open segment is removed, and nothing is left under its name. -/
theorem refused_check_does_not_flush :
    fileSize fullSegment.fs fullSegment.logFile > SINGLE_FILE_SIZE ∧
    tightNoCreateEnv.canOpen (intString (wrapInt (fullSegment.newestFile + 1))) Mode.wPlus = false ∧
    (newLogFile fullPathName tightNoCreateEnv fullSegment).logFile =
      some { name := ['0'], pending := bigText } ∧
    isFlushed (newLogFile fullPathName tightNoCreateEnv fullSegment) = false ∧
    fsRead (newLogFile fullPathName tightNoCreateEnv fullSegment).fs ['0'] =
      some (timeStamp noon) ∧
    fsRead (newLogFile shortName tightNoCreateEnv fullSegment).fs ['0'] = none := by
  have hr : newLogFile fullPathName tightNoCreateEnv fullSegment =
      say Msg.cannotDelete fullSegment :=
    newLogFile_refuse fullPathName tightNoCreateEnv fullSegment (by decide)
      (by rw [fullSegment_eq]; decide)
  have hl : (newLogFile fullPathName tightNoCreateEnv fullSegment).logFile =
      some { name := ['0'], pending := bigText } := by
    rw [hr, say_logFile, fullSegment_logFile]
  have hlen : ({ name := ['0'], pending := bigText } : File).pending.length >
      SINGLE_FILE_SIZE := by
    rw [bigText_length]
    decide
  refine ⟨fullSegment_size, rfl, hl, ?_, ?_, ?_⟩
  · exact isFlushed_false _ _ hl bigText_ne_nil
  · rw [hr, say_fs, fullSegment_eq]
    rfl
  · exact newLogFile_loses_open shortName tightNoCreateEnv fullSegment
      { name := ['0'], pending := bigText } fullSegment_logFile (by decide)
      (by rw [fullSegment_eq]; decide) (by rw [fullSegment_eq]; decide) hlen
      (by rw [fullSegment_newest]; decide)

/-- C10, amended: in a reachable state whose open segment's file exists and is
larger than `SINGLE_FILE_SIZE`, if the reclamation block neither ends the check
nor removes the open segment (free space is at least `KEEP_SPACE`, or the guard
does not match and `oldestFile` is not the open segment's index) and the next
segment cannot be created, then after `newLogFile` the same segment is still the
open one, it has been flushed, what is stored under its name is everything it
held (committed and buffered bytes) followed by what `File::write` took of one
timestamp marker (the whole marker when that write is complete), so that every
byte it held is still there, and `getMax` is unchanged. -/
theorem failed_rotation_keeps_segment (nameOf : Str → Str) (env : Env) (s : State) (f : File)
    (hreach : Reachable nameOf s)
    (hf : s.logFile = some f)
    (hex : fsExists s.fs f.name = true)
    (hrec : ¬ env.freeSpace < KEEP_SPACE ∨
      (isCurrent nameOf s (logDir ++ intString s.oldestFile) = false ∧
        intString s.oldestFile ≠ f.name))
    (hbig : fileSize s.fs s.logFile > SINGLE_FILE_SIZE)
    (hc : env.canOpen (intString (wrapInt (s.newestFile + 1))) Mode.wPlus = false) :
    (newLogFile nameOf env s).logFile = some { name := f.name, pending := [] } ∧
      isFlushed (newLogFile nameOf env s) = true ∧
      fsRead (newLogFile nameOf env s).fs f.name =
        some (contentOf s f.name ++
          (timeStamp env.now).take (env.written (timeStamp env.now).length)) ∧
      ((timeStamp env.now).length ≤ env.written (timeStamp env.now).length →
        fsRead (newLogFile nameOf env s).fs f.name =
          some (contentOf s f.name ++ timeStamp env.now)) ∧
      contentOf s f.name <+: contentOf (newLogFile nameOf env s) f.name ∧
      getMax (newLogFile nameOf env s) = getMax s := by
  have hsync : Synced s := (reachable_inv nameOf s hreach).2 (by rw [hf]; simp)
  obtain ⟨h1, h2, h3, _⟩ := newLogFile_fail nameOf env s f hf hex hsync hrec hbig hc
  refine ⟨h1, ?_, ?_, ?_, ?_, h3⟩
  · simp [isFlushed, h1]
  · rw [h2, marker_eq_take]
  · intro hw
    rw [h2, marker_of_complete env hw]
  · unfold contentOf
    rw [h2, h1]
    simp [contentOf, hf]

theorem failed_rotation_keeps_segment_witness :
    Reachable shortName fullSegment ∧
    fileSize fullSegment.fs fullSegment.logFile > SINGLE_FILE_SIZE ∧
    (newLogFile shortName noCreateEnv fullSegment).logFile =
      some { name := ['0'], pending := [] } ∧
    getMax (newLogFile shortName noCreateEnv fullSegment) = getMax fullSegment :=
  ⟨fullSegment_reachable, fullSegment_size,
    (failed_rotation_keeps_segment shortName noCreateEnv fullSegment
      { name := ['0'], pending := bigText } fullSegment_reachable fullSegment_logFile
      (by rw [fullSegment_eq]; decide) (Or.inl (by decide)) fullSegment_size rfl).1,
    (failed_rotation_keeps_segment shortName noCreateEnv fullSegment
      { name := ['0'], pending := bigText } fullSegment_reachable fullSegment_logFile
      (by rw [fullSegment_eq]; decide) (Or.inl (by decide)) fullSegment_size rfl).2.2.2.2.2⟩

/-! ### The guard with a `File::name()` that gives the path -/

theorem rotate_names_mono (env : Env) (s : State) (x : Str)
    (hx : x ∈ s.fs.map (fun e => e.1)) : x ∈ (rotate env s).2.fs.map (fun e => e.1) := by
  by_cases hrot : (rotate env s).1 = true
  · by_cases hb : fileSize s.fs s.logFile > SINGLE_FILE_SIZE
    · by_cases hc : env.canOpen (intString (wrapInt (s.newestFile + 1))) Mode.wPlus = true
      · obtain ⟨f, hf⟩ := fileSize_pos_some _ _ (Nat.lt_of_le_of_lt (Nat.zero_le _) hb)
        exact (rotate_ok_names env s f hf hb hc x).mpr (Or.inr hx)
      · rw [rotate_fail env s hb (by simpa using hc)] at hrot
        simp at hrot
    · rw [rotate_small env s hb] at hrot
      split at hrot <;> simp at hrot
  · rw [(rotate_keep env s (by simpa using hrot)).1]
    exact hx

/-- With a `File::name()` that gives the path, the guard of `newLogFile` works:
the file of the open segment is still there after the check. -/
theorem fullPathName_keeps_open_file (env : Env) (s : State) (f : File)
    (hf : s.logFile = some f) (hex : fsExists s.fs f.name = true) :
    fsExists (newLogFile fullPathName env s).fs f.name = true := by
  rw [fsExists_iff_mem] at hex ⊢
  unfold newLogFile
  rcases reclaim_cases fullPathName env s with hr | hr | hr
  · rw [hr]
    simp only
    split
    · rw [refresh_fs]
      exact rotate_names_mono env s _ hex
    · exact rotate_names_mono env s _ hex
  · rw [hr]
    exact hex
  · by_cases hfree : env.freeSpace < KEEP_SPACE
    · by_cases hcur : isCurrent fullPathName s (logDir ++ intString s.oldestFile) = true
      · rw [reclaim_refuse fullPathName env s hfree hcur]
        exact hex
      · rw [hr]
        simp only [Bool.true_or, if_true, refresh_fs]
        apply rotate_names_mono
        refine (mem_names_remove _ _ _).mpr ⟨?_, hex⟩
        intro heq
        apply hcur
        simp [isCurrent, hf, fullPathName, File.fullName, heq]
    · rw [reclaim_enough fullPathName env s hfree]
      simp only
      split
      · rw [refresh_fs]
        exact rotate_names_mono env s _ hex
      · exact rotate_names_mono env s _ hex

/-! ### The capture pump -/

theorem readLen_of_nonneg (x : Nat) (size : Int) (h : 0 ≤ size) :
    readLen x size = min x size.toNat := by
  unfold readLen
  split
  · rw [if_neg (by omega)]
    omega
  · omega

theorem doLog_none (env : Env) (size : Int) (s : State) (h : s.logFile = none) :
    doLog env size s = (0, say Msg.ewc s) := by
  unfold doLog
  rw [h]

theorem doLog_empty (env : Env) (size : Int) (s : State) (f : File) (h : s.logFile = some f)
    (hx : s.con = []) : doLog env size s = (0, s) := by
  unfold doLog
  rw [h, hx]
  rfl

/-- The call that finds a segment open and bytes waiting. -/
theorem doLog_some (env : Env) (size : Int) (s : State) (f : File) (h : s.logFile = some f)
    (hx : 0 < s.con.length) :
    (doLog env size s).1 = ((readLen s.con.length size : Nat) : Int) ∧
    (doLog env size s).2.con = s.con.drop (readLen s.con.length size) ∧
    (doLog env size s).2.logFile = some { f with pending := f.pending ++ List.take (min
      (env.written (readLen s.con.length size)) (readLen s.con.length size)) s.con } ∧
    (doLog env size s).2.fs = s.fs ∧
    (doLog env size s).2.dirty = true ∧
    (doLog env size s).2.out =
      (if min (env.written (readLen s.con.length size)) (readLen s.con.length size) =
          readLen s.con.length size then s.out
        else s.out ++ [Msg.writeFailed (min (env.written (readLen s.con.length size))
          (readLen s.con.length size)) (readLen s.con.length size)]) := by
  have ht : List.take (min (env.written (readLen s.con.length size)) (readLen s.con.length size))
      (List.take (readLen s.con.length size) s.con) =
      List.take (min (env.written (readLen s.con.length size)) (readLen s.con.length size))
        s.con := by
    rw [List.take_take]
    congr 1
    omega
  unfold doLog
  rw [h]
  simp only [gt_iff_lt, hx, if_true]
  by_cases hw : min (env.written (readLen s.con.length size)) (readLen s.con.length size)
      = readLen s.con.length size
  · simp [hw, ht]
  · simp [hw, say, ht]

/-- C11 as stated fails: five bytes are waiting and a segment is open, but the
flash takes nothing.  `doLog` consumes the five bytes and returns 5, and nothing
has been appended to the open segment. -/
theorem doLog_consumes_without_appending :
    chatty.con = "hello".toList ∧
    contentOf chatty ['0'] = "boot ok\n".toList ∧
    (doLog fullDiskEnv 10 chatty).1 = 5 ∧
    (doLog fullDiskEnv 10 chatty).2.con = [] ∧
    contentOf (doLog fullDiskEnv 10 chatty).2 ['0'] = "boot ok\n".toList := by
  decide

/-- C11, amended: for `size >= 0`, when no segment is open `doLog` returns 0,
reports `EWC` and leaves the console, `dirty` and all segments unchanged;
otherwise it consumes exactly `min(available, size)` bytes from the console,
returns that count (0, with nothing changed, when nothing is available), hands
them to `File::write`, and the open segment gains, in order, the bytes the write
accepts: all of them when the write is complete, the first `wr` otherwise.
`dirty` is set whenever the console had bytes available, in particular when the
count is positive. -/
theorem doLog_pump (env : Env) (size : Int) (s : State) (hsize : 0 ≤ size) :
    (s.logFile = none →
      (doLog env size s).1 = 0 ∧ (doLog env size s).2 = { s with out := s.out ++ [Msg.ewc] }) ∧
    (∀ f, s.logFile = some f →
      (doLog env size s).1 = ((min s.con.length size.toNat : Nat) : Int) ∧
      (doLog env size s).2.con = s.con.drop (min s.con.length size.toNat) ∧
      (doLog env size s).2.logFile = some { f with pending := f.pending ++ List.take (min
        (env.written (min s.con.length size.toNat)) (min s.con.length size.toNat)) s.con } ∧
      (doLog env size s).2.fs = s.fs ∧
      (doLog env size s).2.dirty = (s.dirty || decide (0 < s.con.length)) ∧
      (s.con = [] → (doLog env size s).2 = s)) := by
  constructor
  · intro hnone
    rw [doLog_none env size s hnone]
    exact ⟨rfl, rfl⟩
  · intro f hf
    have hlen := readLen_of_nonneg s.con.length size hsize
    by_cases hx : 0 < s.con.length
    · obtain ⟨h1, h2, h3, h4, h5, _⟩ := doLog_some env size s f hf hx
      rw [hlen] at h1 h2 h3
      refine ⟨h1, h2, h3, h4, ?_, ?_⟩
      · rw [h5]
        simp [hx]
      · intro hnil
        rw [hnil] at hx
        simp at hx
    · have hnil : s.con = [] := List.length_eq_zero.mp (by omega)
      rw [doLog_empty env size s f hf hnil]
      simp only [hnil, List.length_nil, Nat.zero_min, List.drop_zero, Nat.min_zero,
        List.take_nil, List.append_nil]
      refine ⟨rfl, trivial, hf, trivial, ?_, fun _ => trivial⟩
      simp

theorem doLog_pump_witness :
    (0 : Int) ≤ 10 ∧ (doLog (okEnv 200000) 10 chatty).1 = ((min chatty.con.length 10 : Nat) : Int) ∧
    (doLog (okEnv 200000) 10 chatty).2.con = chatty.con.drop (min chatty.con.length 10) :=
  ⟨by decide,
    ((doLog_pump (okEnv 200000) 10 chatty (by decide)).2
      { name := ['0'], pending := [] } rfl).1,
    ((doLog_pump (okEnv 200000) 10 chatty (by decide)).2
      { name := ['0'], pending := [] } rfl).2.1⟩

/-- C12 as stated fails: five bytes are read from the console and the write takes
only three of them; `doLog` reports the mismatch and returns 5, not 0. -/
theorem doLog_short_write_returns_len :
    shortWriteEnv.written 5 = 3 ∧
    (doLog shortWriteEnv 10 chatty).1 = 5 ∧
    (doLog shortWriteEnv 10 chatty).2.out = [Msg.writeFailed 3 5] ∧
    (doLog shortWriteEnv 10 chatty).2.logFile =
      some { name := ['0'], pending := "hel".toList } := by
  decide

/-- C12, amended: when a segment is open, bytes are waiting and the write reports
fewer bytes than the `len` it was asked for, `doLog` reports the mismatch, keeps
what the write took, sets `dirty`, and returns `len`, the number of bytes read
from the console, which is not 0. -/
theorem doLog_short_write (env : Env) (size : Int) (s : State) (f : File)
    (hf : s.logFile = some f) (hx : 0 < s.con.length)
    (hshort : env.written (readLen s.con.length size) < readLen s.con.length size) :
    (doLog env size s).1 = ((readLen s.con.length size : Nat) : Int) ∧
    (doLog env size s).1 ≠ 0 ∧
    (doLog env size s).2.out = s.out ++ [Msg.writeFailed
      (env.written (readLen s.con.length size)) (readLen s.con.length size)] ∧
    (doLog env size s).2.fs = s.fs ∧
    (doLog env size s).2.logFile =
      some ⟨f.name, f.pending ++ List.take (env.written (readLen s.con.length size)) s.con⟩ ∧
    (doLog env size s).2.dirty = true := by
  obtain ⟨h1, _, h3, h4, h5, h6⟩ := doLog_some env size s f hf hx
  have hmin : min (env.written (readLen s.con.length size)) (readLen s.con.length size) =
      env.written (readLen s.con.length size) := by omega
  rw [hmin] at h3 h6
  refine ⟨h1, ?_, ?_, h4, h3, h5⟩
  · rw [h1]
    omega
  · rw [h6, if_neg (by omega)]

theorem doLog_short_write_witness :
    0 < chatty.con.length ∧
    shortWriteEnv.written (readLen chatty.con.length 10) < readLen chatty.con.length 10 ∧
    (doLog shortWriteEnv 10 chatty).1 ≠ 0 :=
  ⟨by decide, by decide,
    (doLog_short_write shortWriteEnv 10 chatty { name := ['0'], pending := [] } rfl
      (by decide) (by decide)).2.1⟩

/-! ### The state invariant after a successful `begin` -/

theorem refresh_oldest_le (s : State) : (refreshLogFiles s).oldestFile ≤ s.oldestFile :=
  scan_fst_le _ (s.oldestFile, s.newestFile)

theorem refresh_oldest_mem (s : State) (x : Str) (hx : x ∈ s.fs.map (fun e => e.1)) :
    (refreshLogFiles s).oldestFile ≤ toInt x :=
  scan_fst_mem _ (s.oldestFile, s.newestFile) x hx

theorem reclaim_oldest (nameOf : Str → Str) (env : Env) (s : State) :
    (reclaim nameOf env s).2.oldestFile = s.oldestFile := by
  rcases reclaim_cases nameOf env s with h | h | h <;> rw [h] <;> rfl

theorem rotate_oldest (env : Env) (s : State) : (rotate env s).2.oldestFile = s.oldestFile := by
  by_cases h : fileSize s.fs s.logFile > SINGLE_FILE_SIZE
  · by_cases hc : env.canOpen (intString (wrapInt (s.newestFile + 1))) Mode.wPlus = true
    · obtain ⟨f, hf⟩ := fileSize_pos_some _ _ (Nat.lt_of_le_of_lt (Nat.zero_le _) h)
      rw [rotate_ok env s f hf h hc]
    · rw [rotate_fail env s h (by simpa using hc)]
      rfl
  · rw [rotate_small env s h]
    split <;> rfl

theorem newLogFile_oldest_le (nameOf : Str → Str) (env : Env) (s : State) :
    (newLogFile nameOf env s).oldestFile ≤ s.oldestFile := by
  have h1 := reclaim_oldest nameOf env s
  unfold newLogFile
  rcases hr : reclaim nameOf env s with ⟨o, s1⟩
  rw [hr] at h1
  simp only at h1
  cases o with
  | none => simp only; rw [h1]
  | some b =>
    simp only
    have h2 := rotate_oldest env s1
    split
    · have h3 := refresh_oldest_le (rotate env s1).2
      omega
    · omega

theorem doLog_oldest (env : Env) (size : Int) (s : State) :
    (doLog env size s).2.oldestFile = s.oldestFile := by
  unfold doLog
  cases s.logFile with
  | none => rfl
  | some f =>
    simp only
    split_ifs <;> rfl

/-- When the size block sets no `needRefresh`, an open handle is the handle that
was open, by name. -/
theorem rotate_keep_name (env : Env) (s : State) (h : (rotate env s).1 = false) (g : File)
    (hg : (rotate env s).2.logFile = some g) : ∃ f, s.logFile = some f ∧ g.name = f.name := by
  cases hf : s.logFile with
  | none =>
    have := (rotate_keep env s h).2.mpr hf
    rw [this] at hg
    exact absurd hg (by simp)
  | some f =>
    refine ⟨f, rfl, ?_⟩
    by_cases hb : fileSize s.fs s.logFile > SINGLE_FILE_SIZE
    · by_cases hc : env.canOpen (intString (wrapInt (s.newestFile + 1))) Mode.wPlus = true
      · rw [rotate_ok env s f hf hb hc] at h
        simp at h
      · rw [rotate_fail env s hb (by simpa using hc)] at hg
        simp only [say, flushFile, printTime, hf, fileWrite, flushed, Option.some.injEq] at hg
        rw [← hg]
    · rw [rotate_small env s hb] at hg
      split at hg
      · simp only [flushFile, printTime, hf, fileWrite, flushed, Option.some.injEq] at hg
        rw [← hg]
      · rw [hf] at hg
        rw [← Option.some.inj hg]

/-- A check keeps the open segment the newest one, below `INT_MAX`. -/
theorem newLogFile_openIsNewest (nameOf : Str → Str) (env : Env) (s : State)
    (hrange : InRange s) (hsync : s.logFile ≠ none → Synced s)
    (hopen : OpenIsNewest s) (hmax : s.newestFile < INT_MAX) :
    OpenIsNewest (newLogFile nameOf env s) := by
  rcases hr : reclaim nameOf env s with ⟨o, s1⟩
  have hl1 : s1.logFile = s.logFile := by
    have := reclaim_logFile nameOf env s
    rw [hr] at this
    exact this
  have hn1 : s1.newestFile = s.newestFile := by
    have := reclaim_newest nameOf env s
    rw [hr] at this
    exact this
  have hsub : ∀ x ∈ s1.fs.map (fun e => e.1), x ∈ s.fs.map (fun e => e.1) := by
    intro x hx
    have := reclaim_names nameOf env s x
    rw [hr] at this
    exact this hx
  cases o with
  | none =>
    have hnl : newLogFile nameOf env s = s1 := by
      unfold newLogFile
      rw [hr]
    rw [hnl]
    intro f hf
    rw [hn1]
    exact hopen f (hl1 ▸ hf)
  | some b =>
    by_cases hrot : (rotate env s1).1 = true
    · by_cases hb : fileSize s1.fs s1.logFile > SINGLE_FILE_SIZE
      · by_cases hc : env.canOpen (intString (wrapInt (s1.newestFile + 1))) Mode.wPlus = true
        · have hw : wrapInt (s1.newestFile + 1) = s.newestFile + 1 := by
            rw [hn1]
            exact wrapInt_succ _ hrange.1 hmax
          rw [hw] at hc
          obtain ⟨_, _, h3, h4⟩ :=
            rotation_result_of_inv nameOf env s s1 b hrange hsync hr hb hc hmax
          intro f hf
          rw [h3] at hf
          rw [h4]
          split at hf
          · rw [← Option.some.inj hf]
          · exact absurd hf (by simp)
        · rw [rotate_fail env s1 hb (by simpa using hc)] at hrot
          simp at hrot
      · rw [rotate_small env s1 hb] at hrot
        split at hrot <;> simp at hrot
    · have hrot2 : (rotate env s1).1 = false := by simpa using hrot
      obtain ⟨hnames, _⟩ := rotate_keep env s1 hrot2
      intro g hg
      have hg2 : (rotate env s1).2.logFile = some g := by
        unfold newLogFile at hg
        rw [hr] at hg
        simp only [hrot2, Bool.or_false] at hg
        split at hg
        · exact hg
        · exact hg
      obtain ⟨f, hf, hname⟩ := rotate_keep_name env s1 hrot2 g hg2
      have hfs : s.logFile = some f := hl1 ▸ hf
      have hs : Synced s := hsync (by rw [hfs]; simp)
      have hs2 : Synced (rotate env s1).2 := by
        rw [synced_iff, hnames, rotate_newest, hn1]
        intro x hx
        exact (synced_iff s).mp hs x (hsub x hx)
      have hnew : (newLogFile nameOf env s).newestFile = s.newestFile := by
        unfold newLogFile
        rw [hr]
        simp only [hrot2, Bool.or_false]
        split
        · rw [refresh_newest_of_synced _ hs2, rotate_newest, hn1]
        · rw [rotate_newest, hn1]
      rw [hnew, hname]
      exact hopen f hfs

/-- The two ways `begin` can succeed. -/
theorem begin_true_cases (nameOf : Str → Str) (env : Env) (n : Nat) (s : State)
    (h : (begin nameOf env n s).1 = true) :
    (fsExists (beginScan s).fs (intString (beginScan s).newestFile) = true ∧
      begin nameOf env n s = (true,
        { newLogFile nameOf env
            (say (Msg.openFile (logDir ++ intString (beginScan s).newestFile))
              (assignFile (some { name := intString (beginScan s).newestFile, pending := [] })
                { beginScan s with
                  fs := fsTouch (beginScan s).fs (intString (beginScan s).newestFile) })) with
          ticker := some (n % 65536) })) ∨
    (fsExists (beginScan s).fs (intString (beginScan s).newestFile) = false ∧
      begin nameOf env n s = (true,
        { newLogFile nameOf env
            (beginCreate env { name := intString (beginScan s).newestFile, pending := [] }
              (fsCreate (beginScan s).fs (intString (beginScan s).newestFile)) (beginScan s)) with
          ticker := some (n % 65536) })) := by
  unfold begin at h ⊢
  simp only at h ⊢
  by_cases hex : fsExists (beginScan s).fs (intString (beginScan s).newestFile) = true
  · rw [if_pos hex] at h ⊢
    by_cases hc : env.canOpen (intString (beginScan s).newestFile) Mode.aPlus = true
    · left
      simp [fsOpen, hc, hex]
    · simp [fsOpen, hc] at h
  · rw [if_neg hex] at h ⊢
    by_cases hc : env.canOpen (intString (beginScan s).newestFile) Mode.wPlus = true
    · right
      simp [fsOpen, hc, hex]
    · simp [fsOpen, hc] at h

theorem beginScan_fs (s : State) : (beginScan s).fs = s.fs := by
  unfold beginScan
  simp only
  split <;> rfl

theorem beginScan_oldest_mem (s : State) (x : Str) (hx : x ∈ (beginScan s).fs.map (fun e => e.1)) :
    (beginScan s).oldestFile ≤ toInt x := by
  rw [beginScan_fs] at hx
  have h := refresh_oldest_mem s x hx
  unfold beginScan
  simp only
  split
  · exact h
  · exact h

/-- The names in the directory after the create branch of `begin`. -/
theorem beginCreate_names (env : Env) (s1 : State) (x : Str) :
    x ∈ (beginCreate env { name := intString s1.newestFile, pending := [] }
        (fsCreate s1.fs (intString s1.newestFile)) s1).fs.map (fun e => e.1) ↔
      x = intString s1.newestFile ∨ x ∈ s1.fs.map (fun e => e.1) := by
  unfold beginCreate
  simp only [say, refresh_fs, assignFile, closeFile, printTime, fsOpen, names_commit]
  by_cases hc : env.canOpen (intString s1.newestFile) Mode.aPlus = true
  · simp only [hc, if_true, names_commit, mem_names_touch, mem_names_create]
    tauto
  · simp only [hc, Bool.false_eq_true, if_false, names_commit, mem_names_create]

theorem beginCreate_logFile (env : Env) (s1 : State) (f : File)
    (hf : (beginCreate env { name := intString s1.newestFile, pending := [] }
        (fsCreate s1.fs (intString s1.newestFile)) s1).logFile = some f) :
    f.name = intString s1.newestFile := by
  unfold beginCreate at hf
  simp only [say, refresh_logFile, assignFile, fsOpen] at hf
  split at hf
  · rw [← Option.some.inj hf]
  · exact absurd hf (by simp)

theorem beginCreate_newest (env : Env) (s1 : State) (hr : InRange s1) (hs : Synced s1) :
    (beginCreate env { name := intString s1.newestFile, pending := [] }
        (fsCreate s1.fs (intString s1.newestFile)) s1).newestFile = s1.newestFile := by
  have hnames := beginCreate_names env s1
  unfold beginCreate at hnames ⊢
  simp only [say, refresh_fs] at hnames ⊢
  rw [refresh_newest_of_synced]
  · rfl
  · rw [synced_iff]
    intro x hx
    rcases (hnames x).mp hx with h | h
    · rw [h]
      exact le_of_eq (toInt_intString _ hr.1 hr.2)
    · exact (synced_iff s1).mp hs x h

theorem beginCreate_oldest (env : Env) (s1 : State) (hr : InRange s1) :
    (beginCreate env { name := intString s1.newestFile, pending := [] }
        (fsCreate s1.fs (intString s1.newestFile)) s1).oldestFile ≤ s1.newestFile := by
  have hnames := beginCreate_names env s1
  unfold beginCreate at hnames ⊢
  simp only [say, refresh_fs] at hnames ⊢
  have h := refresh_oldest_mem _ _ ((hnames (intString s1.newestFile)).mpr (Or.inl rfl))
  rw [toInt_intString _ hr.1 hr.2] at h
  exact h

/-- The rotation check at the end of `begin`, on a state that is in order. -/
theorem establishes_of_pre (nameOf : Str → Str) (env : Env) (t : Option Nat) (s2 : State)
    (hr2 : InRange s2) (hs2 : Synced s2) (hopen2 : OpenIsNewest s2)
    (hold2 : s2.oldestFile ≤ s2.newestFile) :
    (({ newLogFile nameOf env s2 with ticker := t } : State).newestFile < INT_MAX →
        OpenIsNewest { newLogFile nameOf env s2 with ticker := t }) ∧
      ({ newLogFile nameOf env s2 with ticker := t } : State).oldestFile ≤
        ({ newLogFile nameOf env s2 with ticker := t } : State).newestFile := by
  have hge := newLogFile_newest_ge nameOf env s2
  constructor
  · intro hmax
    have hopen := newLogFile_openIsNewest nameOf env s2 hr2 (fun _ => hs2) hopen2
      (lt_of_le_of_lt hge hmax)
    intro f hf
    exact hopen f hf
  · exact le_trans (newLogFile_oldest_le nameOf env s2) (le_trans hold2 hge)

/-- What a successful `begin` establishes. -/
theorem begin_establishes (nameOf : Str → Str) (env : Env) (n : Nat) (s : State)
    (hr : InRange s) (h : (begin nameOf env n s).1 = true) :
    ((begin nameOf env n s).2.newestFile < INT_MAX → OpenIsNewest (begin nameOf env n s).2) ∧
      (begin nameOf env n s).2.oldestFile ≤ (begin nameOf env n s).2.newestFile := by
  have hr1 := beginScan_inRange s hr
  have hs1 := beginScan_synced s
  rcases begin_true_cases nameOf env n s h with ⟨hex, hb⟩ | ⟨_, hb⟩
  · have hs2 : Synced (say (Msg.openFile (logDir ++ intString (beginScan s).newestFile))
        (assignFile (some { name := intString (beginScan s).newestFile, pending := [] })
          { beginScan s with
            fs := fsTouch (beginScan s).fs (intString (beginScan s).newestFile) })) := by
      rw [synced_iff]
      intro x hx
      simp only [say, assignFile, names_commit] at hx
      rcases (mem_names_touch _ _ _).mp hx with hx | hx
      · rw [hx]
        exact le_of_eq (toInt_intString _ hr1.1 hr1.2)
      · exact (synced_iff _).mp hs1 x hx
    have hold : (beginScan s).oldestFile ≤ (beginScan s).newestFile := by
      have := beginScan_oldest_mem s _ ((fsExists_iff_mem _ _).mp hex)
      rw [toInt_intString _ hr1.1 hr1.2] at this
      exact this
    rw [hb]
    exact establishes_of_pre nameOf env (some (n % 65536))
      (say (Msg.openFile (logDir ++ intString (beginScan s).newestFile))
        (assignFile (some { name := intString (beginScan s).newestFile, pending := [] })
          { beginScan s with
            fs := fsTouch (beginScan s).fs (intString (beginScan s).newestFile) }))
      (inRange_congr (beginScan s) _ rfl hr1) hs2
      (by intro f hf
          simp only [say, assignFile, Option.some.injEq] at hf
          rw [← hf]
          rfl)
      hold
  · rw [hb]
    have hnew := beginCreate_newest env (beginScan s) hr1 hs1
    exact establishes_of_pre nameOf env (some (n % 65536))
      (beginCreate env { name := intString (beginScan s).newestFile, pending := [] }
        (fsCreate (beginScan s).fs (intString (beginScan s).newestFile)) (beginScan s))
      (beginCreate_inRange env _ _ _ hr1) (beginCreate_synced env _ _ _)
      (by intro f hf
          rw [hnew]
          exact beginCreate_logFile env (beginScan s) f hf)
      (by rw [hnew]
          exact beginCreate_oldest env (beginScan s) hr1)

theorem running_reachable (nameOf : Str → Str) (s : State) (h : Running nameOf s) :
    Reachable nameOf s := by
  induction h with
  | start fs con env n _ => exact Reachable.step _ (Op.begin env n) (Reachable.fresh fs con)
  | doLog s env size _ ih => exact Reachable.step _ (Op.doLog env size) ih
  | check s env _ ih => exact Reachable.step _ (Op.newLogFile env) ih

theorem doLog_logFile_name (env : Env) (size : Int) (s : State) (g : File)
    (hg : (doLog env size s).2.logFile = some g) : ∃ f, s.logFile = some f ∧ g.name = f.name := by
  cases hf : s.logFile with
  | none =>
    rw [doLog_none env size s hf] at hg
    simp only [say] at hg
    rw [hf] at hg
    exact absurd hg (by simp)
  | some f =>
    refine ⟨f, rfl, ?_⟩
    by_cases hx : 0 < s.con.length
    · rw [(doLog_some env size s f hf hx).2.2.1] at hg
      rw [← Option.some.inj hg]
    · have hnil : s.con = [] := List.length_eq_zero.mp (by omega)
      rw [doLog_empty env size s f hf hnil] at hg
      simp only at hg
      rw [hf] at hg
      rw [← Option.some.inj hg]

/-- The invariant of the running engine. -/
theorem running_inv (nameOf : Str → Str) (s : State) (h : Running nameOf s) :
    (s.newestFile < INT_MAX → OpenIsNewest s) ∧ s.oldestFile ≤ s.newestFile := by
  induction h with
  | start fs con env n hok =>
    have hmm : INT_MIN ≤ INT_MAX := by decide
    exact begin_establishes nameOf env n (State.fresh fs con) ⟨le_refl _, hmm⟩ hok
  | doLog s env size hrun ih =>
    constructor
    · intro hmax g hg
      rw [doLog_newest] at hmax ⊢
      obtain ⟨f, hf, hname⟩ := doLog_logFile_name env size s g hg
      rw [hname]
      exact ih.1 hmax f hf
    · rw [doLog_oldest, doLog_newest]
      exact ih.2
  | check s env hrun ih =>
    obtain ⟨hrange, hsync⟩ := reachable_inv nameOf s (running_reachable nameOf s hrun)
    constructor
    · intro hmax
      have hlt : s.newestFile < INT_MAX := lt_of_le_of_lt (newLogFile_newest_ge nameOf env s) hmax
      exact newLogFile_openIsNewest nameOf env s hrange hsync (ih.1 hlt) hlt
    · exact le_trans (newLogFile_oldest_le nameOf env s)
        (le_trans ih.2 (newLogFile_newest_ge nameOf env s))

/-- The handle after a successful creation, whatever `newestFile` is. -/
theorem rotation_logFile (nameOf : Str → Str) (env : Env) (s : State) (f : File)
    (hf : s.logFile = some f)
    (hfree : ¬ env.freeSpace < KEEP_SPACE)
    (hbig : fileSize s.fs s.logFile > SINGLE_FILE_SIZE)
    (hc : env.canOpen (intString (wrapInt (s.newestFile + 1))) Mode.wPlus = true) :
    (newLogFile nameOf env s).logFile =
      (if env.canOpen (intString (wrapInt (s.newestFile + 1))) Mode.aPlus = true then
        some { name := intString (wrapInt (s.newestFile + 1)), pending := [] }
      else none) := by
  rw [newLogFile_of_rotate nameOf env s s false (reclaim_enough nameOf env s hfree)
    (rotate_ok_fst env s f hf hbig hc), refresh_logFile, rotate_ok_logFile env s f hf hbig hc]

/-- The rescan after a rotation whose new index wrapped around. -/
theorem rotation_newest_wrapped (nameOf : Str → Str) (env : Env) (s : State) (f : File)
    (hf : s.logFile = some f) (hs : Synced s)
    (hfree : ¬ env.freeSpace < KEEP_SPACE)
    (hbig : fileSize s.fs s.logFile > SINGLE_FILE_SIZE)
    (hc : env.canOpen (intString (wrapInt (s.newestFile + 1))) Mode.wPlus = true)
    (hwrap : wrapInt (s.newestFile + 1) ≤ s.newestFile) :
    (newLogFile nameOf env s).newestFile = s.newestFile := by
  rw [newLogFile_of_rotate nameOf env s s false (reclaim_enough nameOf env s hfree)
    (rotate_ok_fst env s f hf hbig hc)]
  have hs2 : Synced (rotate env s).2 := by
    rw [synced_iff, rotate_newest]
    intro x hx
    rcases (rotate_ok_names env s f hf hbig hc x).mp hx with h | h
    · rw [h, toInt_intString _ (wrapInt_range _).1 (wrapInt_range _).2]
      exact hwrap
    · exact (synced_iff s).mp hs x h
  rw [refresh_newest_of_synced _ hs2, rotate_newest]

theorem begunMax_ok : (begin shortName (okEnv 200000) 600 (State.fresh maxDir bigText)).1 = true := by
  decide

theorem begunMax_eq :
    begunMax =
      { logFile := some { name := "2147483647".toList, pending := [] },
        oldestFile := 2147483647, newestFile := 2147483647,
        dirty := false, fs := maxDir, con := bigText,
        out := [Msg.openFile "/log/2147483647".toList], ticker := some 600 } := by
  rfl

theorem fullMax_eq :
    fullMax =
      { logFile := some { name := "2147483647".toList, pending := bigText },
        oldestFile := 2147483647, newestFile := 2147483647,
        dirty := true, fs := maxDir, con := [],
        out := [Msg.openFile "/log/2147483647".toList], ticker := some 600 } := by
  rw [fullMax, step, begunMax_eq,
    doLog_all bigText bigText_length _ { name := "2147483647".toList, pending := [] } rfl rfl]
  rfl

theorem rotatedMax_running : Running shortName rotatedMax := by
  rw [rotatedMax, step, fullMax, step, begunMax, step]
  exact Running.check _ _ (Running.doLog _ _ _ (Running.start maxDir bigText _ 600 begunMax_ok))

theorem fullMax_logFile :
    fullMax.logFile = some { name := "2147483647".toList, pending := bigText } := by
  rw [fullMax_eq]

theorem fullMax_newest : fullMax.newestFile = 2147483647 := by
  rw [fullMax_eq]

theorem fullMax_size : fileSize fullMax.fs fullMax.logFile > SINGLE_FILE_SIZE := by
  rw [fullMax_eq]
  exact fileSize_big _ _ bigText bigText_length

theorem fullMax_synced : Synced fullMax := by
  rw [fullMax_eq]
  intro e he
  simp only [maxDir, List.mem_singleton] at he
  rw [he]
  decide

/-- C17 as stated fails at the top of the `int` range: the directory holds a file
named `2147483647`; `begin` succeeds and opens it, one `doLog` fills it beyond
`SINGLE_FILE_SIZE`, and the rotation check opens segment `-2147483648`
(`newestFile + 1` wrapped) while `getMax` stays `2147483647`. -/
theorem open_segment_below_max :
    Running shortName rotatedMax ∧
    rotatedMax.logFile = some { name := "-2147483648".toList, pending := [] } ∧
    toInt "-2147483648".toList = -2147483648 ∧
    getMax rotatedMax = 2147483647 := by
  have hname : intString (wrapInt (fullMax.newestFile + 1)) = "-2147483648".toList := by
    rw [fullMax_newest]
    decide
  have hl := rotation_logFile shortName (okEnv 200000) fullMax
    { name := "2147483647".toList, pending := bigText } fullMax_logFile (by decide)
    fullMax_size rfl
  have hn := rotation_newest_wrapped shortName (okEnv 200000) fullMax
    { name := "2147483647".toList, pending := bigText } fullMax_logFile fullMax_synced
    (by decide) fullMax_size rfl (by rw [fullMax_newest]; decide)
  rw [hname] at hl
  refine ⟨rotatedMax_running, ?_, by decide, ?_⟩
  · rw [rotatedMax, step, hl]
    rfl
  · rw [getMax, rotatedMax, step, hn, fullMax_newest]

/-- C17, amended: in every state reachable from a successful `begin` on a fresh
logger through `doLog` and `newLogFile` calls, `getMin() <= getMax()`; and as
long as `getMax()` is below `INT_MAX`, whenever a segment is open its name is
the decimal form of `getMax()` and its index equals `getMax()`. -/
theorem running_state_invariant (nameOf : Str → Str) (s : State) (h : Running nameOf s) :
    (getMax s < INT_MAX →
      ∀ f, s.logFile = some f → f.name = intString (getMax s) ∧ toInt f.name = getMax s) ∧
    getMin s ≤ getMax s := by
  obtain ⟨h1, h2⟩ := running_inv nameOf s h
  obtain ⟨hrange, _⟩ := reachable_inv nameOf s (running_reachable nameOf s h)
  refine ⟨?_, h2⟩
  intro hmax f hf
  have hname := h1 hmax f hf
  refine ⟨hname, ?_⟩
  rw [hname]
  exact toInt_intString _ hrange.1 hrange.2

theorem running_state_invariant_witness :
    Running shortName (begin shortName (okEnv 200000) 600 (State.fresh [] [])).2 ∧
    getMin (begin shortName (okEnv 200000) 600 (State.fresh [] [])).2 ≤
      getMax (begin shortName (okEnv 200000) 600 (State.fresh [] [])).2 :=
  ⟨Running.start [] [] (okEnv 200000) 600 (by decide),
    (running_state_invariant shortName _
      (Running.start [] [] (okEnv 200000) 600 (by decide))).2⟩

end ConsoleLogger

namespace SerialProxy

/-! ### The peer-to-serial loop -/

/-- The loop of one slot in closed form. -/
theorem drain_eq : ∀ (inbox : Bytes) (w : Nat) (tx : Bytes), drain inbox w tx =
    (inbox.drop (min inbox.length w), w - min inbox.length w,
      tx ++ inbox.take (min inbox.length w)) := by
  intro inbox
  induction inbox with
  | nil => intro w tx; simp [drain]
  | cons b bs ih =>
    intro w tx
    cases w with
    | zero => simp [drain]
    | succ w =>
      rw [drain, ih]
      simp [Nat.succ_min_succ, List.append_assoc]

/-! ### What the phases leave alone -/

theorem notify_rx (b : Bool) (s : State) : (notify b s).rx = s.rx := by
  unfold notify
  split <;> rfl

theorem notify_clients (b : Bool) (s : State) : (notify b s).clients = s.clients := by
  unfold notify
  split <;> rfl

theorem notify_lastStatus (b : Bool) (s : State) : (notify b s).lastStatus = s.lastStatus := by
  unfold notify
  split <;> rfl

theorem notify_pending (b : Bool) (s : State) : (notify b s).pending = s.pending := by
  unfold notify
  split <;> rfl

theorem notify_hasCallback (b : Bool) (s : State) : (notify b s).hasCallback = s.hasCallback := by
  unfold notify
  split <;> rfl

theorem notify_busy (b : Bool) (s : State) : (notify b s).busy = s.busy := by
  unfold notify
  split <;> rfl

theorem sweep_rx (s : State) : (sweep s).rx = s.rx := by
  unfold sweep
  split
  · split
    · rfl
    · rw [notify_rx]
  · rfl

theorem sweep_clients (s : State) : (sweep s).clients = s.clients := by
  unfold sweep
  split
  · split
    · rfl
    · rw [notify_clients]
  · rfl

theorem sweep_pending (s : State) : (sweep s).pending = s.pending := by
  unfold sweep
  split
  · split
    · rfl
    · rw [notify_pending]
  · rfl

theorem accept_rx (s : State) : (accept s).rx = s.rx := by
  unfold accept
  split
  · rfl
  · split
    · simp only
      split
      · rw [notify_rx]
      · rfl
    · rfl

theorem acceptPhase_rx (s : State) : (acceptPhase s).rx = s.rx := by
  unfold acceptPhase
  rw [accept_rx, sweep_rx]

theorem peerToSerial_rx (s : State) : (peerToSerial s).rx = s.rx := rfl

/-- The peer-to-serial loop touches nothing of a slot but its unread bytes. -/
theorem drainAll_map {α : Type} (g : Client → α)
    (hg : ∀ (c : Client) (inbox : Bytes), g { c with inbox := inbox } = g c) :
    ∀ (cs : List Client) (w : Nat) (tx : Bytes), (drainAll cs w tx).1.map g = cs.map g := by
  intro cs
  induction cs with
  | nil => intro w tx; rfl
  | cons c cs ih =>
    intro w tx
    simp only [drainAll, List.map_cons, hg, ih]

/-! ### The survey loop -/

theorem survey_bound : ∀ (cs : List Client) (m : Nat),
    (m ≠ 0 → cs.foldl surveyStep m ≠ 0 ∧ cs.foldl surveyStep m ≤ m) ∧
    (∀ c ∈ cs, c.connected = true → c.afw ≠ 0 →
      cs.foldl surveyStep m ≠ 0 ∧ cs.foldl surveyStep m ≤ c.afw) := by
  intro cs
  induction cs with
  | nil =>
    intro m
    exact ⟨fun h => ⟨h, le_refl _⟩, fun c hc => absurd hc (List.not_mem_nil c)⟩
  | cons x xs ih =>
    intro m
    simp only [List.foldl_cons]
    obtain ⟨ih1, ih2⟩ := ih (surveyStep m x)
    have hstep : m ≠ 0 → surveyStep m x ≠ 0 ∧ surveyStep m x ≤ m := by
      intro hm
      unfold surveyStep
      split_ifs <;> omega
    constructor
    · intro hm
      obtain ⟨h1, h2⟩ := hstep hm
      obtain ⟨h3, h4⟩ := ih1 h1
      exact ⟨h3, le_trans h4 h2⟩
    · intro c hc hconn hafw
      rcases List.mem_cons.mp hc with h | h
      · subst h
        have hx : surveyStep m c ≠ 0 ∧ surveyStep m c ≤ c.afw := by
          unfold surveyStep
          rw [if_pos hconn, if_pos hafw]
          split_ifs <;> omega
        obtain ⟨h3, h4⟩ := ih1 hx.1
        exact ⟨h3, le_trans h4 hx.2⟩
      · exact ih2 c h hconn hafw

theorem survey_zero : ∀ (cs : List Client) (m : Nat),
    (∀ c ∈ cs, c.connected = true → c.afw = 0) → cs.foldl surveyStep m = m := by
  intro cs
  induction cs with
  | nil => intro m _; rfl
  | cons x xs ih =>
    intro m h
    simp only [List.foldl_cons]
    have hx : surveyStep m x = m := by
      unfold surveyStep
      split
      · rename_i hc
        rw [if_neg (by simp [h x (List.mem_cons_self _ _) hc])]
      · rfl
    rw [hx]
    exact ih m (fun c hc => h c (List.mem_cons_of_mem _ hc))

/-- The survey reads the liveness and the capacity of the slots only. -/
theorem survey_congr : ∀ (cs cs' : List Client) (m : Nat),
    cs.map (fun c => (c.connected, c.afw)) = cs'.map (fun c => (c.connected, c.afw)) →
    cs.foldl surveyStep m = cs'.foldl surveyStep m := by
  intro cs
  induction cs with
  | nil =>
    intro cs' m h
    cases cs' with
    | nil => rfl
    | cons y ys => simp at h
  | cons x xs ih =>
    intro cs' m h
    cases cs' with
    | nil => simp at h
    | cons y ys =>
      simp only [List.map_cons, List.cons.injEq, Prod.mk.injEq] at h
      simp only [List.foldl_cons]
      have hxy : surveyStep m x = surveyStep m y := by
        unfold surveyStep
        rw [h.1.1, h.1.2]
      rw [hxy]
      exact ih ys _ h.2

theorem maxToTcp_peerToSerial (s : State) :
    maxToTcp (peerToSerial s).clients = maxToTcp s.clients := by
  unfold maxToTcp peerToSerial
  exact survey_congr _ _ 0
    (drainAll_map (fun c => (c.connected, c.afw)) (fun _ _ => rfl) s.clients s.txCap s.tx)

/-! ### The serial-to-peers block -/

theorem serialToPeers_zero (size : Int) (s : State)
    (h : min (min (s.rx.length : Int) (maxToTcp s.clients : Int)) size = 0) :
    serialToPeers size s = (0, s) := by
  unfold serialToPeers
  simp only [h, ne_eq, not_true_eq_false, if_false]

theorem serialToPeers_some (size : Int) (s : State)
    (h : min (min (s.rx.length : Int) (maxToTcp s.clients : Int)) size ≠ 0) :
    serialToPeers size s =
      (((if min (min (s.rx.length : Int) (maxToTcp s.clients : Int)) size < 0 then s.rx.length
          else (min (min (s.rx.length : Int) (maxToTcp s.clients : Int)) size).toNat : Nat) : Int),
        { s with
          rx := s.rx.drop (if min (min (s.rx.length : Int) (maxToTcp s.clients : Int)) size < 0
            then s.rx.length
            else (min (min (s.rx.length : Int) (maxToTcp s.clients : Int)) size).toNat)
          clients := s.clients.map (sendTo
            (if min (min (s.rx.length : Int) (maxToTcp s.clients : Int)) size < 0 then s.rx.length
              else (min (min (s.rx.length : Int) (maxToTcp s.clients : Int)) size).toNat)
            (s.rx.take (if min (min (s.rx.length : Int) (maxToTcp s.clients : Int)) size < 0
              then s.rx.length
              else (min (min (s.rx.length : Int) (maxToTcp s.clients : Int)) size).toNat)))
          out := s.out ++ sendLog (min (min (s.rx.length : Int) (maxToTcp s.clients : Int)) size)
            (if min (min (s.rx.length : Int) (maxToTcp s.clients : Int)) size < 0 then s.rx.length
              else (min (min (s.rx.length : Int) (maxToTcp s.clients : Int)) size).toNat)
            s.clients }) := by
  unfold serialToPeers
  simp only [h, ne_eq, not_false_eq_true, if_true]

/-- What the serial-to-peers block returns and does, in terms of the count. -/
theorem serialToPeers_spec (size : Int) (s : State) :
    ∃ n : Nat, (serialToPeers size s).1 = (n : Int) ∧ n ≤ s.rx.length ∧
      (0 ≤ size → (n : Int) = min (min (s.rx.length : Int) (maxToTcp s.clients : Int)) size) ∧
      (serialToPeers size s).2.rx = s.rx.drop n ∧
      (0 < n → (serialToPeers size s).2.clients = s.clients.map (sendTo n (s.rx.take n))) ∧
      (n = 0 → (serialToPeers size s).2.clients = s.clients) := by
  by_cases h : min (min (s.rx.length : Int) (maxToTcp s.clients : Int)) size = 0
  · refine ⟨0, ?_, Nat.zero_le _, ?_, ?_, ?_, ?_⟩
    · rw [serialToPeers_zero size s h]
      rfl
    · intro _
      rw [h]
      rfl
    · rw [serialToPeers_zero size s h]
      rfl
    · intro hn
      exact absurd hn (lt_irrefl 0)
    · intro _
      rw [serialToPeers_zero size s h]
  · rw [serialToPeers_some size s h]
    refine ⟨_, rfl, ?_, ?_, rfl, fun _ => rfl, ?_⟩
    · split <;> omega
    · intro hsize
      rw [if_neg (by omega)]
      omega
    · intro hn
      have hid : sendTo 0 ([] : Bytes) = id := by
        funext c
        simp [sendTo, tcpSent]
      simp only [hn, List.take_zero, hid, List.map_id]

theorem proxy_eq (size : Int) (s : State) :
    proxy size s = serialToPeers size (peerToSerial (acceptPhase s)) := rfl

/-- The count `proxy` returns, and what it does with the serial line and the slots. -/
theorem proxy_spec (size : Int) (s : State) :
    ∃ n : Nat, (proxy size s).1 = (n : Int) ∧ n ≤ s.rx.length ∧
      (0 ≤ size →
        (n : Int) = min (min (s.rx.length : Int) (maxToTcp (acceptPhase s).clients : Int)) size) ∧
      (proxy size s).2.rx = s.rx.drop n ∧
      (0 < n → (proxy size s).2.clients =
        (peerToSerial (acceptPhase s)).clients.map (sendTo n (s.rx.take n))) ∧
      (n = 0 → (proxy size s).2.clients = (peerToSerial (acceptPhase s)).clients) := by
  obtain ⟨n, h1, h2, h3, h4, h5, h6⟩ := serialToPeers_spec size (peerToSerial (acceptPhase s))
  rw [peerToSerial_rx, acceptPhase_rx] at h2 h3 h4 h5
  rw [maxToTcp_peerToSerial] at h3
  exact ⟨n, h1, h2, h3, h4, h5, h6⟩

/-- C20 as stated fails: no peer is connected and five bytes wait on the serial
line; called with a negative scratch size, `proxy` has `len = size`, which is
not zero, and `readBytes` takes the whole backlog. -/
theorem negative_size_drains_serial :
    anyLive noPeer.clients = false ∧
    maxToTcp (peerToSerial (acceptPhase noPeer)).clients = 0 ∧
    noPeer.rx = "hello".toList ∧
    (proxy (-1) noPeer).1 = 5 ∧
    (proxy (-1) noPeer).2.rx = [] := by
  decide

/-- C20, amended: for a scratch size `>= 0`, when no live slot has a write capacity
other than zero after the accept phase, `maxToTcp` is 0 and the serial-to-peers
block does nothing: `proxy` returns 0, the serial backlog is intact and no slot
is written to. -/
theorem no_ready_peer_no_read (size : Int) (s : State) (hsize : 0 ≤ size)
    (hnone : ∀ c ∈ (acceptPhase s).clients, c.connected = true → c.afw = 0) :
    maxToTcp (peerToSerial (acceptPhase s)).clients = 0 ∧
    (proxy size s).1 = 0 ∧
    (proxy size s).2 = peerToSerial (acceptPhase s) ∧
    (proxy size s).2.rx = s.rx ∧
    (proxy size s).2.clients.map (fun c => c.sent) =
      (acceptPhase s).clients.map (fun c => c.sent) := by
  have hz : maxToTcp (peerToSerial (acceptPhase s)).clients = 0 := by
    rw [maxToTcp_peerToSerial]
    exact survey_zero _ 0 hnone
  have hlen : min (min ((peerToSerial (acceptPhase s)).rx.length : Int)
      (maxToTcp (peerToSerial (acceptPhase s)).clients : Int)) size = 0 := by
    rw [hz]
    omega
  have hp : proxy size s = (0, peerToSerial (acceptPhase s)) := by
    rw [proxy_eq, serialToPeers_zero size _ hlen]
  rw [hp]
  refine ⟨hz, rfl, rfl, ?_, ?_⟩
  · rw [peerToSerial_rx, acceptPhase_rx]
  · exact drainAll_map (fun c => c.sent) (fun _ _ => rfl) _ _ _

theorem no_ready_peer_no_read_witness :
    (0 : Int) ≤ 64 ∧ (proxy 64 noPeer).1 = 0 ∧ (proxy 64 noPeer).2.rx = noPeer.rx :=
  ⟨by decide,
    (no_ready_peer_no_read 64 noPeer (by decide) (by decide)).2.1,
    (no_ready_peer_no_read 64 noPeer (by decide) (by decide)).2.2.2.1⟩

/-! ### The transfer blocks and the pool -/

theorem sendTo_id (n : Nat) (buf : Bytes) (c : Client) : (sendTo n buf c).id = c.id := by
  unfold sendTo
  split <;> rfl

theorem sendTo_connected (n : Nat) (buf : Bytes) (c : Client) :
    (sendTo n buf c).connected = c.connected := by
  unfold sendTo
  split <;> rfl

/-- The serial-to-peers block keeps everything of the state but the serial
backlog, the slots (which keep their connection) and the log. -/
theorem serialToPeers_frame (size : Int) (s : State) :
    (serialToPeers size s).2.calls = s.calls ∧
    (serialToPeers size s).2.lastStatus = s.lastStatus ∧
    (serialToPeers size s).2.hasCallback = s.hasCallback ∧
    (serialToPeers size s).2.listening = s.listening ∧
    (serialToPeers size s).2.pending = s.pending ∧
    (serialToPeers size s).2.busy = s.busy ∧
    (serialToPeers size s).2.clients.map (fun c => (c.id, c.connected)) =
      s.clients.map (fun c => (c.id, c.connected)) := by
  by_cases h : min (min (s.rx.length : Int) (maxToTcp s.clients : Int)) size = 0
  · rw [serialToPeers_zero size s h]
    exact ⟨rfl, rfl, rfl, rfl, rfl, rfl, rfl⟩
  · rw [serialToPeers_some size s h]
    refine ⟨rfl, rfl, rfl, rfl, rfl, rfl, ?_⟩
    simp only [List.map_map]
    apply List.map_congr_left
    intro c _
    simp only [Function.comp, sendTo_id, sendTo_connected]

/-- After the accept phase a `proxy` call changes neither the callback trace, nor
`lastStatus`, nor the connection a slot holds. -/
theorem proxy_frame (size : Int) (s : State) :
    (proxy size s).2.calls = (acceptPhase s).calls ∧
    (proxy size s).2.lastStatus = (acceptPhase s).lastStatus ∧
    (proxy size s).2.hasCallback = (acceptPhase s).hasCallback ∧
    (proxy size s).2.listening = (acceptPhase s).listening ∧
    (proxy size s).2.pending = (acceptPhase s).pending ∧
    (proxy size s).2.busy = (acceptPhase s).busy ∧
    (proxy size s).2.clients.map (fun c => (c.id, c.connected)) =
      (acceptPhase s).clients.map (fun c => (c.id, c.connected)) := by
  obtain ⟨h1, h2, h3, h4, h5, h6, h7⟩ := serialToPeers_frame size (peerToSerial (acceptPhase s))
  rw [proxy_eq]
  refine ⟨h1, h2, h3, h4, h5, h6, ?_⟩
  rw [h7]
  exact drainAll_map (fun c => (c.id, c.connected)) (fun _ _ => rfl) _ _ _

theorem anyLive_eq_of_map : ∀ (cs cs' : List Client),
    cs.map (fun c => (c.id, c.connected)) = cs'.map (fun c => (c.id, c.connected)) →
    anyLive cs = anyLive cs' := by
  intro cs
  induction cs with
  | nil =>
    intro cs' h
    cases cs' with
    | nil => rfl
    | cons y ys => simp at h
  | cons x xs ih =>
    intro cs' h
    cases cs' with
    | nil => simp at h
    | cons y ys =>
      simp only [List.map_cons, List.cons.injEq, Prod.mk.injEq] at h
      have := ih ys h.2
      unfold anyLive at this ⊢
      simp only [List.any_cons, h.1.2, this]

/-! ### The accept block -/

theorem place_none_iff (c : Client) (cs : List Client) :
    place c cs = none ↔ ∀ x ∈ cs, x.connected = true := by
  induction cs with
  | nil => simp [place]
  | cons x xs ih =>
    unfold place
    by_cases hx : x.connected = true
    · rw [if_pos hx]
      simp only [Option.map_eq_none', ih, List.mem_cons, forall_eq_or_imp, hx, true_and]
    · rw [if_neg hx]
      simp [hx]

theorem place_some_spec (c : Client) (cs : List Client) (r : Nat × List Client)
    (h : place c cs = some r) :
    anyLive r.2 = (c.connected || anyLive cs) ∧ r.2.length = cs.length := by
  induction cs generalizing r with
  | nil => simp [place] at h
  | cons x xs ih =>
    unfold place at h
    by_cases hx : x.connected = true
    · rw [if_pos hx] at h
      cases hp : place c xs with
      | none => rw [hp] at h; simp at h
      | some r' =>
        rw [hp] at h
        simp only [Option.map_some', Option.some.injEq] at h
        obtain ⟨h1, h2⟩ := ih r' hp
        rw [← h]
        simp [anyLive, hx, h2]
    · rw [if_neg hx] at h
      simp only [Option.some.injEq] at h
      rw [← h]
      have hx' : x.connected = false := by simpa using hx
      simp [anyLive, hx']

theorem anyLive_true_of_all (cs : List Client) (hne : cs ≠ [])
    (h : ∀ x ∈ cs, x.connected = true) : anyLive cs = true := by
  cases cs with
  | nil => exact absurd rfl hne
  | cons x xs =>
    simp [anyLive, h x (List.mem_cons_self _ _)]

/-- The sweep finds a live slot or there was nothing to lose: nothing changes. -/
theorem sweep_of_live (s : State) (h : s.lastStatus = true → anyLive s.clients = true) :
    sweep s = s := by
  unfold sweep
  split
  · rename_i hl
    rw [if_pos (h hl)]
  · rfl

/-- The accept block when every slot holds a live connection. -/
theorem accept_full (s : State) (p : Client) (rest : List Client)
    (hp : s.pending = p :: rest) (hall : ∀ x ∈ s.clients, x.connected = true) :
    accept s = { s with pending := rest, busy := s.busy ++ [p.id] } := by
  unfold accept
  rw [hp]
  simp only [(place_none_iff p s.clients).mpr hall]

/-- C16 (Scenario D, pool full): when every slot of a non-empty slot array holds a
live connection and a connection is pending, `proxy` takes the pending
connection from the server, tells it `busy` and drops it; every slot holds the
connection it held, still live, `lastStatus` is unchanged and no callback is
invoked. -/
theorem pool_full_rejects (size : Int) (s : State) (p : Client) (rest : List Client)
    (hne : s.clients ≠ [])
    (hall : ∀ x ∈ s.clients, x.connected = true)
    (hp : s.pending = p :: rest) :
    (proxy size s).2.pending = rest ∧
    (proxy size s).2.busy = s.busy ++ [p.id] ∧
    (proxy size s).2.clients.map (fun c => (c.id, c.connected)) =
      s.clients.map (fun c => (c.id, c.connected)) ∧
    (proxy size s).2.lastStatus = s.lastStatus ∧
    (proxy size s).2.calls = s.calls := by
  have hsw : sweep s = s := sweep_of_live s (fun _ => anyLive_true_of_all _ hne hall)
  have hacc : acceptPhase s = { s with pending := rest, busy := s.busy ++ [p.id] } := by
    unfold acceptPhase
    rw [hsw]
    exact accept_full s p rest hp hall
  obtain ⟨h1, h2, _, _, h5, h6, h7⟩ := proxy_frame size s
  rw [hacc] at h1 h2 h5 h6 h7
  exact ⟨h5, h6, h7, h2, h1⟩

theorem pool_full_rejects_witness :
    fullPool.clients ≠ [] ∧ (∀ x ∈ fullPool.clients, x.connected = true) ∧
    (proxy 64 fullPool).2.busy = fullPool.busy ++ [9] ∧
    (proxy 64 fullPool).2.calls = fullPool.calls :=
  ⟨by decide, by decide,
    (pool_full_rejects 64 fullPool (peer 9) [] (by decide) (by decide) rfl).2.1,
    (pool_full_rejects 64 fullPool (peer 9) [] (by decide) (by decide) rfl).2.2.2.2⟩

/-! ### The connected flag -/

theorem sweep_lastStatus (s : State) :
    (sweep s).lastStatus = (s.lastStatus && anyLive s.clients) := by
  cases hl : s.lastStatus <;> cases ha : anyLive s.clients <;>
    simp [sweep, hl, ha, notify_lastStatus]

theorem sweep_hasCallback (s : State) : (sweep s).hasCallback = s.hasCallback := by
  unfold sweep
  split
  · split
    · rfl
    · rw [notify_hasCallback]
  · rfl

theorem sweep_calls (s : State) (hcb : s.hasCallback = true) :
    (sweep s).calls =
      s.calls ++ (if s.lastStatus && !anyLive s.clients then [false] else []) := by
  cases hl : s.lastStatus <;> cases ha : anyLive s.clients <;>
    simp [sweep, notify, hl, ha, hcb]

/-- The accept block, case by case. -/
theorem accept_cases (t : State) :
    (t.pending = [] ∧ accept t = t) ∨
    (∃ c rest, t.pending = c :: rest ∧ place c t.clients = none ∧
      accept t = { t with pending := rest, busy := t.busy ++ [c.id] }) ∨
    (∃ c rest r, t.pending = c :: rest ∧ place c t.clients = some r ∧
      (accept t).clients = r.2 ∧ (accept t).lastStatus = true ∧ (accept t).pending = rest ∧
      (accept t).hasCallback = t.hasCallback ∧
      (accept t).calls =
        t.calls ++ (if t.hasCallback && !t.lastStatus then [true] else [])) := by
  cases hp : t.pending with
  | nil =>
    left
    refine ⟨rfl, ?_⟩
    unfold accept
    rw [hp]
  | cons c rest =>
    right
    cases hpl : place c t.clients with
    | none =>
      left
      refine ⟨c, rest, rfl, hpl, ?_⟩
      unfold accept
      rw [hp]
      simp only [hpl]
    | some r =>
      right
      refine ⟨c, rest, r, rfl, hpl, ?_⟩
      unfold accept
      rw [hp]
      simp only [hpl]
      cases hl : t.lastStatus <;> cases hcb : t.hasCallback <;> simp [notify, hcb]

theorem anyLive_false_place (c : Client) (cs : List Client) (hne : cs ≠ [])
    (h : anyLive cs = false) : place c cs ≠ none := by
  intro hnone
  have hall := (place_none_iff c cs).mp hnone
  have := anyLive_true_of_all cs hne hall
  rw [h] at this
  exact absurd this (by simp)

/-- The connected flag after the sweep-and-accept phase. -/
theorem acceptPhase_flag (s : State)
    (hinv : s.lastStatus = false → anyLive s.clients = false)
    (hpend : ∀ c ∈ s.pending, c.connected = true) :
    (acceptPhase s).lastStatus = anyLive (acceptPhase s).clients ∧
    (∀ c ∈ (acceptPhase s).pending, c.connected = true) := by
  have hl1 : (sweep s).lastStatus = anyLive (sweep s).clients := by
    rw [sweep_lastStatus, sweep_clients]
    cases hl : s.lastStatus
    · simp [hinv hl]
    · simp
  have hp1 : ∀ c ∈ (sweep s).pending, c.connected = true := by
    rw [sweep_pending]
    exact hpend
  unfold acceptPhase
  rcases accept_cases (sweep s) with ⟨_, h⟩ | ⟨c, rest, hp, _, h⟩ | ⟨c, rest, r, hp, hpl, h1, h2, h3, _⟩
  · rw [h]
    exact ⟨hl1, hp1⟩
  · rw [h]
    refine ⟨hl1, ?_⟩
    intro x hx
    exact hp1 x (by rw [hp]; exact List.mem_cons_of_mem _ hx)
  · rw [h1, h2, h3]
    refine ⟨?_, ?_⟩
    · rw [(place_some_spec c _ r hpl).1, hp1 c (by rw [hp]; exact List.mem_cons_self _ _)]
      rfl
    · intro x hx
      exact hp1 x (by rw [hp]; exact List.mem_cons_of_mem _ hx)

/-! ### The state between two calls -/

theorem anyLive_updateSlot (f : Client → Client)
    (hf : ∀ c, (f c).connected = true → c.connected = true) :
    ∀ (i : Nat) (cs : List Client), anyLive cs = false → anyLive (updateSlot f i cs) = false := by
  intro i cs
  induction cs generalizing i with
  | nil => intro h; cases i <;> exact h
  | cons x xs ih =>
    intro h
    simp only [anyLive, List.any_cons, Bool.or_eq_false_iff] at h
    cases i with
    | zero =>
      simp only [updateSlot, anyLive, List.any_cons, Bool.or_eq_false_iff]
      refine ⟨?_, h.2⟩
      cases hc : (f x).connected
      · rfl
      · have := hf x hc
        rw [h.1] at this
        exact absurd this (by simp)
    | succ j =>
      simp only [updateSlot, anyLive, List.any_cons, Bool.or_eq_false_iff]
      exact ⟨h.1, ih j h.2⟩

/-- The events of the outside world leave a bridge without live slot without
live slot. -/
theorem step_anyLive_false (s : State) (e : Event) (hnot : ∀ size, e ≠ Event.proxy size)
    (h : anyLive s.clients = false) : anyLive (step s e).clients = false := by
  cases e with
  | begin cb => exact h
  | stop => exact h
  | setCallback cb => exact h
  | proxy size => exact absurd rfl (hnot size)
  | incoming c =>
    simp only [step]
    split <;> exact h
  | disconnect i => exact anyLive_updateSlot _ (fun c hc => by simp at hc) i _ h
  | peerData i bytes =>
    exact anyLive_updateSlot (fun c => { c with inbox := c.inbox ++ bytes }) (fun c hc => hc) i _ h
  | capacity i a b =>
    exact anyLive_updateSlot (fun c => { c with afw := a, afwSend := b }) (fun c hc => hc) i _ h
  | serialData bytes => exact h
  | serialCapacity w => exact h

theorem step_lastStatus (s : State) (e : Event) (hnot : ∀ size, e ≠ Event.proxy size)
    (hb : ∀ cb, e ≠ Event.begin cb) : (step s e).lastStatus = s.lastStatus := by
  cases e with
  | begin cb => exact absurd rfl (hb cb)
  | proxy size => exact absurd rfl (hnot size)
  | incoming c =>
    simp only [step]
    split <;> rfl
  | _ => rfl

theorem proxy_flagInv (size : Int) (s : State) (h : FlagInv s) : FlagInv (proxy size s).2 := by
  obtain ⟨h1, h2⟩ := acceptPhase_flag s h.1 h.2
  obtain ⟨_, f2, _, _, f5, _, f7⟩ := proxy_frame size s
  constructor
  · intro hl
    rw [f2, h1] at hl
    rw [anyLive_eq_of_map _ _ f7]
    exact hl
  · rw [f5]
    exact h2

theorem step_flagInv (s : State) (e : Event) (he : e.keepsStatus = true) (h : FlagInv s) :
    FlagInv (step s e) := by
  cases e with
  | begin cb => simp [Event.keepsStatus] at he
  | proxy size => exact proxy_flagInv size s h
  | stop =>
    refine ⟨h.1, ?_⟩
    intro c hc
    simp [step, stop] at hc
  | setCallback cb => exact h
  | incoming c =>
    simp only [Event.keepsStatus] at he
    simp only [step]
    split
    · refine ⟨h.1, ?_⟩
      intro x hx
      simp only [List.mem_append, List.mem_singleton] at hx
      rcases hx with hx | hx
      · exact h.2 x hx
      · rw [hx]; exact he
    · exact h
  | disconnect i =>
    exact ⟨fun hl => anyLive_updateSlot _ (fun c hc => by simp at hc) i _ (h.1 hl), h.2⟩
  | peerData i bytes =>
    exact ⟨fun hl => anyLive_updateSlot (fun c => { c with inbox := c.inbox ++ bytes })
      (fun c hc => hc) i _ (h.1 hl), h.2⟩
  | capacity i a b =>
    exact ⟨fun hl => anyLive_updateSlot (fun c => { c with afw := a, afwSend := b })
      (fun c hc => hc) i _ (h.1 hl), h.2⟩
  | serialData bytes => exact h
  | serialCapacity w => exact h

theorem run_flagInv (evs : List Event) : ∀ (s : State),
    (∀ e ∈ evs, e.keepsStatus = true) → FlagInv s → FlagInv (run evs s) := by
  induction evs with
  | nil => intro s _ h; exact h
  | cons e es ih =>
    intro s he h
    exact ih (step s e) (fun x hx => he x (List.mem_cons_of_mem _ hx))
      (step_flagInv s e (he e (List.mem_cons_self _ _)) h)

/-- C18 as stated fails: a peer connects, and `begin` is called again while it is
connected.  `begin` clears `lastStatus` and leaves the slots alone, so after the
sweep-and-accept phase of the next `proxy` call `lastStatus` is false although a
slot holds a live connection. -/
theorem flag_cleared_by_second_begin :
    anyLive (acceptPhase (run beginTwice (begin true (State.fresh 1 [] 16)))).clients = true ∧
    (acceptPhase (run beginTwice (begin true (State.fresh 1 [] 16)))).lastStatus = false := by
  decide

/-- C18, amended: start from `begin` on a bridge that has no live slot and no dead
connection waiting, and let any sequence of `proxy`, `end` and
`setConnectedCallback` calls and outside events follow in which `begin` is not
called again and every connection that arrives is live; then immediately after
the sweep-and-accept phase of a `proxy` call `lastStatus` is true if and only if
some slot holds a live connection. -/
theorem flag_tracks_pool (s0 : State) (cb : Bool) (evs : List Event)
    (hdead : anyLive s0.clients = false)
    (hpend : ∀ c ∈ s0.pending, c.connected = true)
    (hevs : ∀ e ∈ evs, e.keepsStatus = true) :
    (acceptPhase (run evs (begin cb s0))).lastStatus =
      anyLive (acceptPhase (run evs (begin cb s0))).clients := by
  have h0 : FlagInv (begin cb s0) := ⟨fun _ => hdead, hpend⟩
  have h := run_flagInv evs (begin cb s0) hevs h0
  exact (acceptPhase_flag _ h.1 h.2).1

theorem flag_tracks_pool_witness :
    anyLive (State.fresh 2 [] 16).clients = false ∧
    (∀ e ∈ twoPeersComeAndGo, e.keepsStatus = true) ∧
    (acceptPhase (run twoPeersComeAndGo (begin true (State.fresh 2 [] 16)))).lastStatus =
      anyLive (acceptPhase (run twoPeersComeAndGo (begin true (State.fresh 2 [] 16)))).clients :=
  ⟨by decide, by decide,
    flag_tracks_pool (State.fresh 2 [] 16) true twoPeersComeAndGo (by decide) (by decide)
      (by decide)⟩

/-! ### The callback trace -/

theorem lastOr_snoc : ∀ (l : List Bool) (d x : Bool), lastOr d (l ++ [x]) = x := by
  intro l
  induction l with
  | nil => intro d x; rfl
  | cons y ys ih => intro d x; exact ih y x

theorem alternatesFrom_snoc : ∀ (l : List Bool) (b x : Bool), alternatesFrom b l = true →
    alternatesFrom b (l ++ [x]) = (x == !(lastOr (!b) l)) := by
  intro l
  induction l with
  | nil =>
    intro b x _
    simp [alternatesFrom, lastOr]
  | cons y ys ih =>
    intro b x h
    simp only [alternatesFrom, Bool.and_eq_true, beq_iff_eq] at h
    have hi := ih (!b) x h.2
    rw [Bool.not_not] at hi
    rw [List.cons_append, alternatesFrom, lastOr, h.1, hi]
    simp

/-- The sweep-and-accept phase of a bridge whose flag is in step with the pool. -/
theorem acceptPhase_debounce (s : State) (hcb : s.hasCallback = true)
    (hinv : s.lastStatus = false → anyLive s.clients = false) :
    (acceptPhase s).calls =
      s.calls ++ (if s.lastStatus && !anyLive s.clients then [false] else []) ++
        (if !s.pending.isEmpty && !s.clients.isEmpty && !anyLive s.clients then [true]
          else []) ∧
    (acceptPhase s).lastStatus =
      (anyLive s.clients || (!s.pending.isEmpty && !s.clients.isEmpty)) ∧
    ((acceptPhase s).lastStatus = false → anyLive (acceptPhase s).clients = false) ∧
    (acceptPhase s).hasCallback = true := by
  have hsc := sweep_calls s hcb
  have hsl := sweep_lastStatus s
  have hscl := sweep_clients s
  have hsp := sweep_pending s
  have hsh : (sweep s).hasCallback = true := by rw [sweep_hasCallback]; exact hcb
  have hl1 : (sweep s).lastStatus = anyLive s.clients := by
    rw [hsl]
    cases hl : s.lastStatus
    · simp [hinv hl]
    · simp
  unfold acceptPhase
  rcases accept_cases (sweep s) with ⟨hp, h⟩ | ⟨c, rest, hp, hpl, h⟩ |
    ⟨c, rest, r, hp, hpl, h1, h2, h3, h4, h5⟩
  · rw [hsp] at hp
    rw [h, hsc, hl1, hscl]
    simp [hp, hsh]
  · rw [hsp] at hp
    rw [hscl] at hpl
    have hall := (place_none_iff c s.clients).mp hpl
    rw [h]
    simp only [hsc, hl1, hscl, hsh, hp]
    cases hcs : s.clients with
    | nil => simp [anyLive]
    | cons x xs =>
      have ha : anyLive s.clients = true := anyLive_true_of_all _ (by rw [hcs]; simp) hall
      rw [hcs] at ha
      simp [ha]
  · rw [hsp] at hp
    rw [hscl] at hpl
    have hne : s.clients ≠ [] := by
      intro hnil
      rw [hnil] at hpl
      simp [place] at hpl
    have hne2 : s.clients.isEmpty = false := by
      cases hcs : s.clients with
      | nil => exact absurd hcs hne
      | cons x xs => rfl
    rw [h5, h2, h4, hsc, hl1, hsh]
    simp only [hp, hne2, List.isEmpty_cons, Bool.not_false, Bool.true_and, Bool.and_true,
      Bool.or_true, true_and, Bool.true_eq_false, false_implies, and_true]


theorem step_traffic_frame (s : State) (e : Event) (ht : e.isTraffic = true)
    (hnot : ∀ size, e ≠ Event.proxy size) :
    (step s e).calls = s.calls ∧ (step s e).hasCallback = s.hasCallback ∧
    (step s e).lastStatus = s.lastStatus := by
  cases e with
  | begin cb => simp [Event.isTraffic] at ht
  | stop => simp [Event.isTraffic] at ht
  | setCallback cb => simp [Event.isTraffic] at ht
  | proxy size => exact absurd rfl (hnot size)
  | incoming c =>
    simp only [step]
    split <;> exact ⟨rfl, rfl, rfl⟩
  | _ => exact ⟨rfl, rfl, rfl⟩

/-- How one sweep-and-accept phase extends an alternating trace. -/
theorem trace_extend (l : List Bool) (al pn : Bool) (h : alternatesFrom true l = true)
    (hinv : lastOr false l = false → al = false) :
    alternatesFrom true
      (l ++ ((if lastOr false l && !al then [false] else []) ++
        (if pn && !al then [true] else []))) = true ∧
    (al || pn) =
      lastOr false (l ++ ((if lastOr false l && !al then [false] else []) ++
        (if pn && !al then [true] else []))) := by
  have e1 : ∀ x, alternatesFrom true (l ++ [x]) = (x == !(lastOr false l)) := by
    intro x
    have := alternatesFrom_snoc l true x h
    simpa using this
  cases hal : al
  · cases hls : lastOr false l
    · cases pn
      · simp [h, hls]
      · simp [e1, hls, lastOr_snoc]
    · have hf : alternatesFrom true (l ++ [false]) = true := by rw [e1, hls]; rfl
      cases pn
      · simp [hf, hls, lastOr_snoc]
      · have e2 := alternatesFrom_snoc (l ++ [false]) true true hf
        rw [lastOr_snoc] at e2
        simp only [hls, Bool.not_false, Bool.and_self, if_true, List.singleton_append]
        rw [show l ++ [false, true] = (l ++ [false]) ++ [true] by simp, e2, lastOr_snoc]
        simp
  · cases hls : lastOr false l
    · have := hinv hls
      rw [hal] at this
      exact absurd this (by simp)
    · simp [h, hls]

theorem proxy_debounced (base : List Bool) (size : Int) (s : State) (h : Debounced base s) :
    Debounced base (proxy size s).2 := by
  obtain ⟨hcb, hinv, l, hc, halt, hls⟩ := h
  obtain ⟨a1, a2, a3, a4⟩ := acceptPhase_debounce s hcb hinv
  obtain ⟨f1, f2, f3, _, _, _, f7⟩ := proxy_frame size s
  have hinv2 : lastOr false l = false → anyLive s.clients = false := by
    intro hl; exact hinv (by rw [hls]; exact hl)
  obtain ⟨t1, t2⟩ := trace_extend l (anyLive s.clients) (!s.pending.isEmpty && !s.clients.isEmpty)
    halt hinv2
  refine ⟨by rw [f3]; exact a4, ?_, _, ?_, t1, ?_⟩
  · intro hl
    rw [f2] at hl
    rw [anyLive_eq_of_map _ _ f7]
    exact a3 hl
  · rw [f1, a1, hc, hls]
    simp only [List.append_assoc]
  · rw [f2, a2]
    exact t2

theorem step_debounced (base : List Bool) (s : State) (e : Event) (ht : e.isTraffic = true)
    (h : Debounced base s) : Debounced base (step s e) := by
  by_cases hp : ∃ size, e = Event.proxy size
  · obtain ⟨size, rfl⟩ := hp
    exact proxy_debounced base size s h
  · have hnot : ∀ size, e ≠ Event.proxy size := fun size he => hp ⟨size, he⟩
    obtain ⟨g1, g2, g3⟩ := step_traffic_frame s e ht hnot
    obtain ⟨hcb, hinv, l, hc, halt, hls⟩ := h
    refine ⟨by rw [g2]; exact hcb, ?_, l, by rw [g1]; exact hc, halt, by rw [g3]; exact hls⟩
    intro hl
    rw [g3] at hl
    exact step_anyLive_false s e hnot (hinv hl)

theorem run_debounced (base : List Bool) (evs : List Event) : ∀ (s : State),
    (∀ e ∈ evs, e.isTraffic = true) → Debounced base s → Debounced base (run evs s) := by
  induction evs with
  | nil => intro s _ h; exact h
  | cons e es ih =>
    intro s he h
    exact ih (step s e) (fun x hx => he x (List.mem_cons_of_mem _ hx))
      (step_debounced base s e (he e (List.mem_cons_self _ _)) h)

/-- C15 (P6, debounced connectivity): register a callback with `begin` on a pool
without live connection and let any sequence of `proxy` calls and outside events
follow.  Then the callback arguments since `begin` alternate true, false, true,
... and `lastStatus` is the last of them; and a further `proxy` call invokes the
callback with false exactly once if the last argument was true and no slot is
live any more, then with true exactly once if a connection is waiting and is
placed into a pool without live connection, and not at all while some slot is
live. -/
theorem callback_debounced (s0 : State) (evs : List Event) (size : Int)
    (hempty : anyLive s0.clients = false)
    (hevs : ∀ e ∈ evs, e.isTraffic = true) :
    ∃ l, (run evs (begin true s0)).calls = s0.calls ++ l ∧
      alternatesFrom true l = true ∧
      (run evs (begin true s0)).lastStatus = lastOr false l ∧
      (proxy size (run evs (begin true s0))).2.calls =
        (run evs (begin true s0)).calls ++
          (if lastOr false l && !anyLive (run evs (begin true s0)).clients then [false]
            else []) ++
          (if !(run evs (begin true s0)).pending.isEmpty &&
              !(run evs (begin true s0)).clients.isEmpty &&
              !anyLive (run evs (begin true s0)).clients then [true]
            else []) := by
  have h0 : Debounced s0.calls (begin true s0) :=
    ⟨rfl, fun _ => hempty, [], by simp [begin], rfl, rfl⟩
  obtain ⟨hcb, hinv, l, hc, halt, hls⟩ := run_debounced s0.calls evs (begin true s0) hevs h0
  refine ⟨l, hc, halt, hls, ?_⟩
  rw [(proxy_frame size _).1, (acceptPhase_debounce _ hcb hinv).1, hls]

theorem callback_debounced_witness :
    anyLive (State.fresh 2 [] 16).clients = false ∧
    (∀ e ∈ twoPeersComeAndGo, e.isTraffic = true) ∧
    (run twoPeersComeAndGo (begin true (State.fresh 2 [] 16))).calls = [true, false] ∧
    ∃ l, (run twoPeersComeAndGo (begin true (State.fresh 2 [] 16))).calls =
        (State.fresh 2 [] 16).calls ++ l ∧
      alternatesFrom true l = true ∧
      (run twoPeersComeAndGo (begin true (State.fresh 2 [] 16))).lastStatus = lastOr false l ∧
      (proxy 64 (run twoPeersComeAndGo (begin true (State.fresh 2 [] 16)))).2.calls =
        (run twoPeersComeAndGo (begin true (State.fresh 2 [] 16))).calls ++
          (if lastOr false l &&
              !anyLive (run twoPeersComeAndGo (begin true (State.fresh 2 [] 16))).clients
            then [false] else []) ++
          (if !(run twoPeersComeAndGo (begin true (State.fresh 2 [] 16))).pending.isEmpty &&
              !(run twoPeersComeAndGo (begin true (State.fresh 2 [] 16))).clients.isEmpty &&
              !anyLive (run twoPeersComeAndGo (begin true (State.fresh 2 [] 16))).clients
            then [true] else []) :=
  ⟨by decide, by decide, by decide,
    callback_debounced (State.fresh 2 [] 16) twoPeersComeAndGo 64 (by decide) (by decide)⟩

/-! ### The serial line across a call -/

theorem notify_tx (b : Bool) (s : State) :
    (notify b s).tx = s.tx ∧ (notify b s).txCap = s.txCap := by
  unfold notify
  split <;> exact ⟨rfl, rfl⟩

theorem sweep_tx (s : State) : (sweep s).tx = s.tx ∧ (sweep s).txCap = s.txCap := by
  unfold sweep
  split
  · split
    · exact ⟨rfl, rfl⟩
    · exact notify_tx _ _
  · exact ⟨rfl, rfl⟩

theorem accept_tx (s : State) : (accept s).tx = s.tx ∧ (accept s).txCap = s.txCap := by
  unfold accept
  split
  · exact ⟨rfl, rfl⟩
  · split
    · simp only
      split
      · exact notify_tx _ _
      · exact ⟨rfl, rfl⟩
    · exact ⟨rfl, rfl⟩

theorem acceptPhase_tx (s : State) :
    (acceptPhase s).tx = s.tx ∧ (acceptPhase s).txCap = s.txCap := by
  unfold acceptPhase
  rw [(accept_tx _).1, (accept_tx _).2, (sweep_tx _).1, (sweep_tx _).2]
  exact ⟨rfl, rfl⟩

theorem sendTo_inbox (n : Nat) (buf : Bytes) (c : Client) : (sendTo n buf c).inbox = c.inbox := by
  unfold sendTo
  split <;> rfl

/-- The serial-to-peers block leaves alone what was written to the serial line
and what the peers have not read yet. -/
theorem serialToPeers_tx (size : Int) (s : State) :
    (serialToPeers size s).2.tx = s.tx ∧ (serialToPeers size s).2.txCap = s.txCap ∧
    (serialToPeers size s).2.clients.map (fun c => c.inbox) =
      s.clients.map (fun c => c.inbox) := by
  by_cases h : min (min (s.rx.length : Int) (maxToTcp s.clients : Int)) size = 0
  · rw [serialToPeers_zero size s h]
    exact ⟨rfl, rfl, rfl⟩
  · rw [serialToPeers_some size s h]
    refine ⟨rfl, rfl, ?_⟩
    simp only [List.map_map]
    apply List.map_congr_left
    intro c _
    simp only [Function.comp, sendTo_inbox]

/-- The loop over the slots, seen from one slot: the slots before it are served
first, this slot with what they leave, the slots after it with what is left
then. -/
theorem drainAll_append : ∀ (pre : List Client) (c : Client) (post : List Client) (w : Nat)
    (tx : Bytes),
    drainAll (pre ++ c :: post) w tx =
      ((drainAll pre w tx).1 ++
          { c with inbox := (drain c.inbox (drainAll pre w tx).2.1 (drainAll pre w tx).2.2).1 } ::
          (drainAll post (drain c.inbox (drainAll pre w tx).2.1 (drainAll pre w tx).2.2).2.1
            (drain c.inbox (drainAll pre w tx).2.1 (drainAll pre w tx).2.2).2.2).1,
        (drainAll post (drain c.inbox (drainAll pre w tx).2.1 (drainAll pre w tx).2.2).2.1
            (drain c.inbox (drainAll pre w tx).2.1 (drainAll pre w tx).2.2).2.2).2) := by
  intro pre
  induction pre with
  | nil => intro c post w tx; rfl
  | cons x xs ih =>
    intro c post w tx
    rw [List.cons_append]
    simp only [drainAll, ih]
    rfl

/-- C14 as stated fails: the one slot holds a live peer with room for 100 bytes,
five bytes wait on the serial line, and the `write` of the send loop comes back
with 3.  The peer has got `hel`, a part of the chunk; `proxy` logs the mismatch
and returns 5. -/
theorem short_write_leaves_partial_chunk :
    Configured shortWriter ∧
    shortWriter.clients.map (fun c => (c.connected, c.afwSend, c.sent)) = [(true, 100, [])] ∧
    (proxy 64 shortWriter).1 = 5 ∧
    (proxy 64 shortWriter).2.rx = [] ∧
    (proxy 64 shortWriter).2.clients.map (fun c => c.sent) = ["hel".toList] ∧
    (proxy 64 shortWriter).2.out = [Msg.lenMismatch 5 5 3] := by
  refine ⟨rfl, ?_⟩
  decide

/-- C14, amended: in a `proxy` call that reads `n > 0` bytes from the serial line,
these are the first `n` bytes of the backlog; every slot whose write capacity at
send time is at least `n` is handed exactly those `n` bytes in one `write` and
takes what that `write` reports, the first `tcp_sent` of them: all of them, in
order, when the `write` is complete, and a part of the chunk, with a mismatch
line on the logger, when it is not; every slot whose capacity is below `n` is
left as the peer-to-serial loop left it. -/
theorem send_offers_whole_chunk (size : Int) (s : State) (hpos : 0 < (proxy size s).1) :
    s.rx = s.rx.take (proxy size s).1.toNat ++ (proxy size s).2.rx ∧
    (s.rx.take (proxy size s).1.toNat).length = (proxy size s).1.toNat ∧
    (proxy size s).2.clients =
      (peerToSerial (acceptPhase s)).clients.map (fun c =>
        if c.afwSend ≥ (proxy size s).1.toNat then
          { c with
            sent := c.sent ++ (s.rx.take (proxy size s).1.toNat).take
              ((proxy size s).1.toNat - c.short)
            afwSend := c.afwSend - ((proxy size s).1.toNat - c.short) }
        else c) ∧
    ((∀ c ∈ (peerToSerial (acceptPhase s)).clients, c.short = 0) →
      (proxy size s).2.clients =
        (peerToSerial (acceptPhase s)).clients.map (fun c =>
          if c.afwSend ≥ (proxy size s).1.toNat then
            { c with
              sent := c.sent ++ s.rx.take (proxy size s).1.toNat
              afwSend := c.afwSend - (proxy size s).1.toNat }
          else c)) ∧
    (0 ≤ size →
      (proxy size s).2.out = (acceptPhase s).out ++
        (peerToSerial (acceptPhase s)).clients.filterMap (fun c =>
          if c.afwSend ≥ (proxy size s).1.toNat ∧ c.short ≠ 0 then
            some (Msg.lenMismatch (proxy size s).1 (proxy size s).1.toNat
              ((proxy size s).1.toNat - c.short))
          else none)) := by
  obtain ⟨n, h1, h2, h3, h4, h5, _⟩ := proxy_spec size s
  rw [h1] at hpos ⊢
  have hn : 0 < n := by omega
  simp only [Int.toNat_ofNat]
  have hlen : (s.rx.take n).length = n := by
    rw [List.length_take]
    omega
  refine ⟨?_, hlen, ?_, ?_, ?_⟩
  · rw [h4, List.take_append_drop]
  · rw [h5 hn]
    rfl
  · intro hall
    rw [h5 hn]
    apply List.map_congr_left
    intro c hc
    simp only [sendTo, tcpSent, hall c hc, Nat.sub_zero]
    rw [List.take_of_length_le (le_of_eq hlen)]
  · intro hsize
    have hne : min (min ((peerToSerial (acceptPhase s)).rx.length : Int)
        (maxToTcp (peerToSerial (acceptPhase s)).clients : Int)) size ≠ 0 := by
      intro hz
      have h0 : (proxy size s).1 = 0 := by
        rw [proxy_eq, serialToPeers_zero size _ hz]
      rw [h1] at h0
      omega
    have hlen2 : min (min ((peerToSerial (acceptPhase s)).rx.length : Int)
        (maxToTcp (peerToSerial (acceptPhase s)).clients : Int)) size = (n : Int) := by
      rw [peerToSerial_rx, acceptPhase_rx, maxToTcp_peerToSerial]
      exact (h3 hsize).symm
    have hout : (proxy size s).2.out = (peerToSerial (acceptPhase s)).out ++
        sendLog (n : Int) n (peerToSerial (acceptPhase s)).clients := by
      rw [proxy_eq, serialToPeers_some size _ hne]
      simp only [hlen2, Int.toNat_ofNat]
      rw [if_neg (by omega)]
    rw [hout]
    congr 1
    unfold sendLog
    apply List.filterMap_congr
    intro c _
    have hiff : ((n - c.short : Nat) : Int) ≠ (n : Int) ↔ c.short ≠ 0 := by
      omega
    simp only [tcpSent, hiff]

theorem send_offers_whole_chunk_witness :
    0 < (proxy 64 readyPeer).1 ∧
    (proxy 64 readyPeer).2.clients.map (fun c => c.sent) = ["hello".toList] ∧
    (proxy 64 readyPeer).2.out = [] :=
  ⟨by decide, by
    rw [(send_offers_whole_chunk 64 readyPeer (by decide)).2.2.1]
    decide, by
    rw [(send_offers_whole_chunk 64 readyPeer (by decide)).2.2.2.2 (by decide)]
    decide⟩

/-- C19 (peer-to-serial transfer): take any slot of the array as `proxy` finds it
after the accept phase, with `p` unread peer bytes, and let `w` be the serial
write capacity when the loop reaches it (what the slots before it have left of
the capacity the call starts with).  The loop of that slot ends after moving
exactly `min p w` bytes: in the state `proxy` returns, the slot keeps its unread
bytes from the `min p w`-th on, and the first `min p w` of them have been
written to the serial line in their order, right after what was written before
the loop reached the slot; the loops of the later slots start from there with
the capacity `w - min p w`. -/
theorem drain_moves_min (size : Int) (s : State) (pre : List Client) (c : Client)
    (post : List Client) (hslot : (acceptPhase s).clients = pre ++ c :: post) :
    drain c.inbox (drainAll pre s.txCap s.tx).2.1 (drainAll pre s.txCap s.tx).2.2 =
      (c.inbox.drop (min c.inbox.length (drainAll pre s.txCap s.tx).2.1),
        (drainAll pre s.txCap s.tx).2.1 - min c.inbox.length (drainAll pre s.txCap s.tx).2.1,
        (drainAll pre s.txCap s.tx).2.2 ++
          c.inbox.take (min c.inbox.length (drainAll pre s.txCap s.tx).2.1)) ∧
    (proxy size s).2.clients.map (fun x => x.inbox) =
      (drainAll pre s.txCap s.tx).1.map (fun x => x.inbox) ++
        c.inbox.drop (min c.inbox.length (drainAll pre s.txCap s.tx).2.1) ::
        (drainAll post
          ((drainAll pre s.txCap s.tx).2.1 - min c.inbox.length (drainAll pre s.txCap s.tx).2.1)
          ((drainAll pre s.txCap s.tx).2.2 ++
            c.inbox.take (min c.inbox.length (drainAll pre s.txCap s.tx).2.1))).1.map
          (fun x => x.inbox) ∧
    (proxy size s).2.tx =
      (drainAll post
        ((drainAll pre s.txCap s.tx).2.1 - min c.inbox.length (drainAll pre s.txCap s.tx).2.1)
        ((drainAll pre s.txCap s.tx).2.2 ++
          c.inbox.take (min c.inbox.length (drainAll pre s.txCap s.tx).2.1))).2.2 ∧
    (proxy size s).2.txCap =
      (drainAll post
        ((drainAll pre s.txCap s.tx).2.1 - min c.inbox.length (drainAll pre s.txCap s.tx).2.1)
        ((drainAll pre s.txCap s.tx).2.2 ++
          c.inbox.take (min c.inbox.length (drainAll pre s.txCap s.tx).2.1))).2.1 ∧
    (pre = [] → post = [] →
      (proxy size s).2.clients.map (fun x => x.inbox) =
        [c.inbox.drop (min c.inbox.length s.txCap)] ∧
      (proxy size s).2.tx = s.tx ++ c.inbox.take (min c.inbox.length s.txCap) ∧
      (proxy size s).2.txCap = s.txCap - min c.inbox.length s.txCap) := by
  obtain ⟨t1, t2, t3⟩ := serialToPeers_tx size (peerToSerial (acceptPhase s))
  have hp : peerToSerial (acceptPhase s) =
      { acceptPhase s with
        clients := (drainAll (pre ++ c :: post) s.txCap s.tx).1
        txCap := (drainAll (pre ++ c :: post) s.txCap s.tx).2.1
        tx := (drainAll (pre ++ c :: post) s.txCap s.tx).2.2 } := by
    unfold peerToSerial
    simp only [hslot, (acceptPhase_tx s).1, (acceptPhase_tx s).2]
  have g1 : (proxy size s).2.tx = (drainAll (pre ++ c :: post) s.txCap s.tx).2.2 := by
    rw [proxy_eq, t1, hp]
  have g2 : (proxy size s).2.txCap = (drainAll (pre ++ c :: post) s.txCap s.tx).2.1 := by
    rw [proxy_eq, t2, hp]
  have g3 : (proxy size s).2.clients.map (fun x => x.inbox) =
      (drainAll (pre ++ c :: post) s.txCap s.tx).1.map (fun x => x.inbox) := by
    rw [proxy_eq, t3, hp]
  simp only [drainAll_append, drain_eq] at g1 g2 g3
  refine ⟨drain_eq _ _ _, ?_, g1, g2, ?_⟩
  · rw [g3]
    simp
  · intro hpre hpost
    subst hpre hpost
    refine ⟨?_, g1, g2⟩
    rw [g3]
    rfl

theorem drain_moves_min_witness :
    (acceptPhase readyPeer).clients = [⟨1, true, "AT\r".toList, 100, 100, [], 0⟩] ∧
    readyPeer.tx = ['>'] ∧ readyPeer.txCap = 2 ∧
    (proxy 64 readyPeer).2.clients.map (fun x => x.inbox) = ["\r".toList] ∧
    (proxy 64 readyPeer).2.tx = ">AT".toList ∧
    (proxy 64 readyPeer).2.txCap = 0 :=
  ⟨by decide, rfl, rfl,
    ((drain_moves_min 64 readyPeer [] ⟨1, true, "AT\r".toList, 100, 100, [], 0⟩ []
      (by decide)).2.2.2.2 rfl rfl).1,
    ((drain_moves_min 64 readyPeer [] ⟨1, true, "AT\r".toList, 100, 100, [], 0⟩ []
      (by decide)).2.2.2.2 rfl rfl).2.1,
    ((drain_moves_min 64 readyPeer [] ⟨1, true, "AT\r".toList, 100, 100, [], 0⟩ []
      (by decide)).2.2.2.2 rfl rfl).2.2⟩

end SerialProxy
